import Mathlib

/-!
Sorting routines of `sorting_algorithms/sort1.cpp`

A shallow embedding of `insertion_sort`, `selection_sort`, `merge`, `merge_sort`,
`partition` and `quick_sort`, followed by the properties proved about them.

Conventions of the embedding.

* An `int` array is a `List`; an array cell is read with `rd` and written with `wr`.
  Both take the index as an `Int` (the source's indices are `int`, and some of them
  legitimately reach `-1`) and answer `none` when the index is outside the array:
  an out-of-bounds access is undefined behaviour in the source, and `none` stands
  for "this run has no defined result".
* Every loop and every recursive function takes a `fuel : Nat` that bounds the number
  of iterations (recursion depth); running out of fuel is `none` too.  The theorems
  show that a stated amount of fuel is enough, so the result they describe is the
  result of the terminating run.
* The routines only ever compare elements, so they are written once for any element
  type carrying an `int` key (`Elem`).  `Int` itself is the instance the source uses;
  pairs `(key, tag)` compared by key only are the instance used to talk about
  stability.
* Index arithmetic is done in `Int`.  For in-range arguments every index expression of
  the source stays between `-1` and the array length, with one exception: the sum
  `p + r` in `merge_sort`, which is therefore wrapped to 32 bits (`wrap32`).
-/

namespace Sort1

/-- Largest value of a 32-bit `int` (`INT_MAX` of `<climits>`). -/
def INT_MAX : Int := 2147483647

/-- Smallest value of a 32-bit `int`. -/
def INT_MIN : Int := -2147483648

/-- Result of a 32-bit signed addition: the mathematical value reduced into
`[INT_MIN, INT_MAX]` modulo `2^32`. -/
def wrap32 (x : Int) : Int := (x + 2147483648) % 4294967296 - 2147483648

/-- Element type of the arrays: every element carries the `int` the source compares,
and `top` is the element stored by the assignment `L[n1] = INT_MAX`. -/
class Elem (α : Type) where
  /-- The `int` the comparisons look at. -/
  key : α → Int
  /-- The element written into a sentinel slot. -/
  top : α
  /-- The sentinel compares as `INT_MAX`. -/
  key_top : key top = INT_MAX

instance : Elem Int where
  key := fun x => x
  top := INT_MAX
  key_top := rfl

/-- Elements viewed as `(key, tag)` pairs compared by key only. -/
instance (τ : Type) [Inhabited τ] : Elem (Int × τ) where
  key := Prod.fst
  top := (INT_MAX, default)
  key_top := rfl

open Elem (key top)

section Code

variable {α : Type} [Elem α]

/-- The read `a[i]`. -/
def rd (a : List α) (i : Int) : Option α :=
  if 0 ≤ i then a[i.toNat]? else none

/-- The write `a[i] = v`. -/
def wr (a : List α) (i : Int) (v : α) : Option (List α) :=
  if 0 ≤ i ∧ i < a.length then some (a.set i.toNat v) else none

/-- The loop `while (j >= 0 && a[j] > pivot) { a[j+1] = a[j]; j = j - 1; }` of
`insertion_sort`; returns the array and the final `j`. -/
def insertion_while : Nat → List α → Int → α → Option (List α × Int)
  | 0, _, _, _ => none
  | fuel + 1, a, j, pivot =>
    if j ≥ 0 then
      (rd a j).bind fun x =>
      if key x > key pivot then
        (wr a (j + 1) x).bind fun a1 =>
        insertion_while fuel a1 (j - 1) pivot
      else some (a, j)
    else some (a, j)

/-- The loop `for (i = ...; i <= n-1; i++)` of `insertion_sort`, entered with the
current `i`. -/
def insertion_for : Nat → List α → Int → Int → Option (List α)
  | 0, _, _, _ => none
  | fuel + 1, a, i, n =>
    if i ≤ n - 1 then
      (rd a i).bind fun pivot =>
      (insertion_while fuel a (i - 1) pivot).bind fun s =>
      (wr s.1 (s.2 + 1) pivot).bind fun a2 =>
      insertion_for fuel a2 (i + 1) n
    else some a

/-- The function `insertion_sort(a, n)`. -/
def insertion_sort (fuel : Nat) (a : List α) (n : Int) : Option (List α) :=
  insertion_for fuel a 1 n

/-- The inner loop `for (j = ...; j <= n-1; j++) if (a[j] < a[min_idx]) min_idx = j;`
of `selection_sort`; returns the final `min_idx`. -/
def selection_scan : Nat → List α → Int → Int → Int → Option Int
  | 0, _, _, _, _ => none
  | fuel + 1, a, j, n, min_idx =>
    if j ≤ n - 1 then
      (rd a j).bind fun x =>
      (rd a min_idx).bind fun m =>
      selection_scan fuel a (j + 1) n (if key x < key m then j else min_idx)
    else some min_idx

/-- The outer loop `for (i = ...; i <= n-2; i++)` of `selection_sort`. -/
def selection_for : Nat → List α → Int → Int → Option (List α)
  | 0, _, _, _ => none
  | fuel + 1, a, i, n =>
    if i ≤ n - 2 then
      (selection_scan fuel a (i + 1) n i).bind fun min_idx =>
      (rd a i).bind fun x =>
      (rd a min_idx).bind fun m =>
      if key x ≠ key m then
        (wr a i m).bind fun a1 =>
        (wr a1 min_idx x).bind fun a2 =>
        selection_for fuel a2 (i + 1) n
      else selection_for fuel a (i + 1) n
    else some a

/-- The function `selection_sort(a, n)`. -/
def selection_sort (fuel : Nat) (a : List α) (n : Int) : Option (List α) :=
  selection_for fuel a 0 n

/-- The copy loops of `merge`: `for (i = ...; i < cnt; i++) buf[i] = a[base + i];`. -/
def merge_copy : Nat → List α → Int → Int → Int → List α → Option (List α)
  | 0, _, _, _, _, _ => none
  | fuel + 1, a, base, i, cnt, buf =>
    if i < cnt then
      (rd a (base + i)).bind fun x =>
      (wr buf i x).bind fun buf1 =>
      merge_copy fuel a base (i + 1) cnt buf1
    else some buf

/-- The merging loop of `merge`:
`for (k = ...; k <= r; k++) if (L[i] <= R[j]) a[k] = L[i++]; else a[k] = R[j++];`. -/
def merge_for : Nat → List α → List α → List α → Int → Int → Int → Int → Option (List α)
  | 0, _, _, _, _, _, _, _ => none
  | fuel + 1, a, L, R, i, j, k, r =>
    if k ≤ r then
      (rd L i).bind fun x =>
      (rd R j).bind fun y =>
      if key x ≤ key y then
        (wr a k x).bind fun a1 => merge_for fuel a1 L R (i + 1) j (k + 1) r
      else
        (wr a k y).bind fun a1 => merge_for fuel a1 L R i (j + 1) (k + 1) r
    else some a

/-- The function `merge(a, p, q, r)`.  The buffers `L[n1 + 1]` and `R[n2 + 1]` are
created with every slot holding `top`; each slot is assigned before it is read. -/
def merge (fuel : Nat) (a : List α) (p q r : Int) : Option (List α) :=
  let n1 := q - p + 1
  let n2 := r - q
  let L0 : List α := List.replicate (n1 + 1).toNat top
  let R0 : List α := List.replicate (n2 + 1).toNat top
  (merge_copy fuel a p 0 n1 L0).bind fun L1 =>
  (merge_copy fuel a (q + 1) 0 n2 R0).bind fun R1 =>
  (wr L1 n1 top).bind fun L =>
  (wr R1 n2 top).bind fun R =>
  merge_for fuel a L R 0 0 p r

/-- The midpoint `q = floor((p + r) / 2)` of `merge_sort`: a 32-bit sum, halved by
the integer division of C (which truncates), converted to `double`, floored (the
identity on a whole number) and converted back. -/
def midpoint (p r : Int) : Int := Int.tdiv (wrap32 (p + r)) 2

/-- The function `merge_sort(a, p, r)`. -/
def merge_sort : Nat → List α → Int → Int → Option (List α)
  | 0, _, _, _ => none
  | fuel + 1, a, p, r =>
    if p < r then
      let q := midpoint p r
      (merge_sort fuel a p q).bind fun a1 =>
      (merge_sort fuel a1 (q + 1) r).bind fun a2 =>
      merge fuel a2 p q r
    else some a

/-- The loop `do { i++; } while (a[i] < pivot);` of `partition`; returns the final `i`. -/
def scan_up : Nat → List α → Int → α → Option Int
  | 0, _, _, _ => none
  | fuel + 1, a, i, pivot =>
    (rd a (i + 1)).bind fun x =>
    if key x < key pivot then scan_up fuel a (i + 1) pivot else some (i + 1)

/-- The loop `do { j--; } while (a[j] > pivot);` of `partition`; returns the final `j`. -/
def scan_down : Nat → List α → Int → α → Option Int
  | 0, _, _, _ => none
  | fuel + 1, a, j, pivot =>
    (rd a (j - 1)).bind fun x =>
    if key x > key pivot then scan_down fuel a (j - 1) pivot else some (j - 1)

/-- The loop `while (1) { ... }` of `partition`; returns the array and the index
handed to `return j`. -/
def partition_loop : Nat → List α → Int → Int → α → Option (List α × Int)
  | 0, _, _, _, _ => none
  | fuel + 1, a, i, j, pivot =>
    (scan_up fuel a i pivot).bind fun i1 =>
    (scan_down fuel a j pivot).bind fun j1 =>
    if i1 ≥ j1 then some (a, j1)
    else
      (rd a i1).bind fun temp =>
      (rd a j1).bind fun y =>
      (wr a i1 y).bind fun a1 =>
      (wr a1 j1 temp).bind fun a2 =>
      partition_loop fuel a2 i1 j1 pivot

/-- The function `partition(a, l, r)`. -/
def partition (fuel : Nat) (a : List α) (l r : Int) : Option (List α × Int) :=
  (rd a l).bind fun pivot =>
  partition_loop fuel a (l - 1) (r + 1) pivot

/-- The function `quick_sort(a, l, r)`. -/
def quick_sort : Nat → List α → Int → Int → Option (List α)
  | 0, _, _, _ => none
  | fuel + 1, a, l, r =>
    if l < r then
      (partition fuel a l r).bind fun s =>
      (quick_sort fuel s.1 l s.2).bind fun a1 =>
      quick_sort fuel a1 (s.2 + 1) r
    else some a

end Code

/-- The range `a[l..r]`, both ends included. -/
def slice {α : Type} (a : List α) (l r : Int) : List α :=
  (a.drop l.toNat).take (r + 1 - l).toNat

/-- Non-decreasing by key. -/
def KeySorted {α : Type} [Elem α] (s : List α) : Prop :=
  s.Pairwise (fun x y => key x ≤ key y)

/-- The elements of `s` whose key is `k`, in the order they have in `s`. -/
def withKey {α : Type} [Elem α] (k : Int) (s : List α) : List α :=
  s.filter (fun x => decide (key x = k))

/-- The comparison `L[i] <= R[j]` as a boolean relation. -/
def keyLE {α : Type} [Elem α] (x y : α) : Bool := decide (key x ≤ key y)

/-- What the sentinels of `merge` need from the elements of a range: no key above
`INT_MAX`, the key `INT_MAX` at most once, and an element with that key is
indistinguishable from the sentinel. -/
def SentinelSafe {α : Type} [Elem α] (s : List α) : Prop :=
  (∀ x ∈ s, key x ≤ INT_MAX) ∧ (withKey INT_MAX s).length ≤ 1 ∧
    ∀ x ∈ s, key x = INT_MAX → x = top

section Instrumented

variable {α : Type} [Elem α]

/-- The loop `do { i++; } while (a[i] < pivot);` together with the indices of the cells
it reads, in order. -/
def scan_up_log : Nat → List α → Int → α → Option (Int × List Int)
  | 0, _, _, _ => none
  | fuel + 1, a, i, pivot =>
    (rd a (i + 1)).bind fun x =>
    if key x < key pivot then
      (scan_up_log fuel a (i + 1) pivot).bind fun s => some (s.1, (i + 1) :: s.2)
    else some (i + 1, [i + 1])

/-- The loop `do { j--; } while (a[j] > pivot);` together with the indices of the cells
it reads, in order. -/
def scan_down_log : Nat → List α → Int → α → Option (Int × List Int)
  | 0, _, _, _ => none
  | fuel + 1, a, j, pivot =>
    (rd a (j - 1)).bind fun x =>
    if key x > key pivot then
      (scan_down_log fuel a (j - 1) pivot).bind fun s => some (s.1, (j - 1) :: s.2)
    else some (j - 1, [j - 1])

/-- The loop `while (1) { ... }` of `partition` together with the indices of all the
array accesses it makes, in order: the reads of the two scans, then for a swap the
accesses of `temp = a[i]; a[i] = a[j]; a[j] = temp;`. -/
def partition_loop_log : Nat → List α → Int → Int → α → Option (List α × Int × List Int)
  | 0, _, _, _, _ => none
  | fuel + 1, a, i, j, pivot =>
    (scan_up_log fuel a i pivot).bind fun su =>
    (scan_down_log fuel a j pivot).bind fun sd =>
    if su.1 ≥ sd.1 then some (a, sd.1, su.2 ++ sd.2)
    else
      (rd a su.1).bind fun temp =>
      (rd a sd.1).bind fun y =>
      (wr a su.1 y).bind fun a1 =>
      (wr a1 sd.1 temp).bind fun a2 =>
      (partition_loop_log fuel a2 su.1 sd.1 pivot).bind fun s =>
      some (s.1, s.2.1, su.2 ++ sd.2 ++ [su.1, sd.1, su.1, sd.1] ++ s.2.2)

/-- The function `partition(a, l, r)` together with the indices of all the array
accesses it makes, starting with the read `pivot = a[l]`. -/
def partition_log (fuel : Nat) (a : List α) (l r : Int) : Option (List α × Int × List Int) :=
  (rd a l).bind fun pivot =>
  (partition_loop_log fuel a (l - 1) (r + 1) pivot).bind fun s => some (s.1, s.2.1, l :: s.2.2)

/-- The merging loop of `merge` together with the pairs `(i, j)` of buffer indices used
by the reads `L[i]`, `R[j]` of each iteration, in order. -/
def merge_for_log : Nat → List α → List α → List α → Int → Int → Int → Int →
    Option (List α × List (Int × Int))
  | 0, _, _, _, _, _, _, _ => none
  | fuel + 1, a, L, R, i, j, k, r =>
    if k ≤ r then
      (rd L i).bind fun x =>
      (rd R j).bind fun y =>
      if key x ≤ key y then
        (wr a k x).bind fun a1 =>
        (merge_for_log fuel a1 L R (i + 1) j (k + 1) r).bind fun s => some (s.1, (i, j) :: s.2)
      else
        (wr a k y).bind fun a1 =>
        (merge_for_log fuel a1 L R i (j + 1) (k + 1) r).bind fun s => some (s.1, (i, j) :: s.2)
    else some (a, [])

/-- The function `merge(a, p, q, r)` together with the buffer indices read by its
merging loop. -/
def merge_log (fuel : Nat) (a : List α) (p q r : Int) : Option (List α × List (Int × Int)) :=
  let n1 := q - p + 1
  let n2 := r - q
  let L0 : List α := List.replicate (n1 + 1).toNat top
  let R0 : List α := List.replicate (n2 + 1).toNat top
  (merge_copy fuel a p 0 n1 L0).bind fun L1 =>
  (merge_copy fuel a (q + 1) 0 n2 R0).bind fun R1 =>
  (wr L1 n1 top).bind fun L =>
  (wr R1 n2 top).bind fun R =>
  merge_for_log fuel a L R 0 0 p r

/-- The body of the outer loop of `selection_sort` for one value of `i`: find `min_idx`,
then swap `a[i]` and `a[min_idx]` if their values differ. -/
def selection_body (fuel : Nat) (a : List α) (i n : Int) : Option (List α) :=
  (selection_scan fuel a (i + 1) n i).bind fun min_idx =>
  (rd a i).bind fun x =>
  (rd a min_idx).bind fun m =>
  if key x ≠ key m then
    (wr a i m).bind fun a1 =>
    wr a1 min_idx x
  else some a

/-- The record of one iteration of the outer loop of `selection_sort`: the value of `i`,
the array at the start of the iteration, the `min_idx` left by the inner loop, whether
the three assignments of the swap were executed, and the array at the end of the
iteration. -/
structure SelectionPass (α : Type) where
  i : Int
  before : List α
  min_idx : Int
  swapped : Bool
  after : List α

/-- The outer loop `for (i = ...; i <= n-2; i++)` of `selection_sort` together with the
record of every iteration it runs, in order. -/
def selection_for_log : Nat → List α → Int → Int → Option (List α × List (SelectionPass α))
  | 0, _, _, _ => none
  | fuel + 1, a, i, n =>
    if i ≤ n - 2 then
      (selection_scan fuel a (i + 1) n i).bind fun min_idx =>
      (rd a i).bind fun x =>
      (rd a min_idx).bind fun m =>
      if key x ≠ key m then
        (wr a i m).bind fun a1 =>
        (wr a1 min_idx x).bind fun a2 =>
        (selection_for_log fuel a2 (i + 1) n).bind fun s =>
        some (s.1, ⟨i, a, min_idx, true, a2⟩ :: s.2)
      else
        (selection_for_log fuel a (i + 1) n).bind fun s =>
        some (s.1, ⟨i, a, min_idx, false, a⟩ :: s.2)
    else some (a, [])

/-- The function `selection_sort(a, n)` together with the record of its iterations. -/
def selection_sort_log (fuel : Nat) (a : List α) (n : Int) :
    Option (List α × List (SelectionPass α)) :=
  selection_for_log fuel a 0 n

end Instrumented

/-! ## Reading and writing array cells -/

section Memory

variable {α : Type}

theorem rd_ofNat (a : List α) (n : Nat) : rd a (n : Int) = a[n]? := by
  simp [rd]

theorem rd_neg (a : List α) {i : Int} (h : i < 0) : rd a i = none := by
  simp [rd]; omega

theorem rd_bounds {a : List α} {i : Int} {x : α} (h : rd a i = some x) :
    0 ≤ i ∧ i < a.length := by
  unfold rd at h
  split at h
  · rename_i h0
    have := (List.getElem?_eq_some_iff.1 h).1
    omega
  · cases h

theorem rd_isSome {a : List α} {i : Int} (h0 : 0 ≤ i) (h1 : i < a.length) :
    ∃ x, rd a i = some x := by
  have h2 : i.toNat < a.length := by omega
  exact ⟨a[i.toNat], by simp [rd, h0, List.getElem?_eq_getElem h2]⟩

theorem rd_mid (A : List α) (x : α) (C : List α) {i : Int} (h : i = A.length) :
    rd (A ++ x :: C) i = some x := by
  subst h
  simp only [rd, Int.toNat_ofNat, Int.ofNat_zero_le, if_true]
  rw [List.getElem?_append_right (Nat.le_refl _)]
  simp

theorem wr_mid (A : List α) (x : α) (C : List α) (v : α) {i : Int} (h : i = A.length) :
    wr (A ++ x :: C) i v = some (A ++ v :: C) := by
  subst h
  simp [wr]

theorem wr_length {a a1 : List α} {i : Int} {v : α} (h : wr a i v = some a1) :
    a1.length = a.length := by
  unfold wr at h
  split at h
  · cases h; simp
  · cases h

theorem wr_isSome {a : List α} {i : Int} (v : α) (h0 : 0 ≤ i) (h1 : i < a.length) :
    wr a i v = some (a.set i.toNat v) := by
  simp [wr, h0, h1]

theorem rd_wr {a a1 : List α} {i : Int} {v : α} (h : wr a i v = some a1) (k : Int) :
    rd a1 k = if k = i then some v else rd a k := by
  unfold wr at h
  split at h
  · rename_i hi
    cases h
    unfold rd
    by_cases hk : 0 ≤ k
    · simp only [hk, if_true]
      by_cases hki : k = i
      · subst hki
        have : k.toNat < a.length := by omega
        simp [List.getElem?_set, this]
      · have : i.toNat ≠ k.toNat := by omega
        simp [hki, List.getElem?_set, this]
    · have : k ≠ i := by omega
      simp [hk, this]
  · cases h

theorem sublist_pair_of_getElem? {s : List α} {i j : Nat} {x y : α} (hij : i < j)
    (hx : s[i]? = some x) (hy : s[j]? = some y) : List.Sublist [x, y] s := by
  induction s generalizing i j with
  | nil => simp at hx
  | cons z t ih =>
    cases i with
    | zero =>
      simp at hx; subst hx
      obtain ⟨j, rfl⟩ : ∃ j', j = j' + 1 := ⟨j - 1, by omega⟩
      simp at hy
      refine List.Sublist.cons₂ _ ?_
      exact List.singleton_sublist.2 (List.getElem?_mem hy)
    | succ i =>
      obtain ⟨j, rfl⟩ : ∃ j', j = j' + 1 := ⟨j - 1, by omega⟩
      simp at hx hy
      exact (ih (by omega) hx hy).cons _

theorem getElem?_of_sublist_pair {s : List α} {x y : α} (h : List.Sublist [x, y] s) :
    ∃ i j : Nat, i < j ∧ s[i]? = some x ∧ s[j]? = some y := by
  induction s with
  | nil => simp at h
  | cons z t ih =>
    cases h with
    | cons _ h =>
      obtain ⟨i, j, hij, hx, hy⟩ := ih h
      exact ⟨i + 1, j + 1, by omega, by simpa using hx, by simpa using hy⟩
    | cons₂ _ h =>
      have hy : y ∈ t := List.singleton_sublist.1 h
      obtain ⟨j, hj⟩ := List.getElem?_of_mem hy
      exact ⟨0, j + 1, by omega, by simp, by simpa using hj⟩

theorem rd_eq_getElem? {a : List α} {i : Int} (h : 0 ≤ i) : rd a i = a[i.toNat]? := by
  simp [rd, h]

theorem set_set_perm (a : List α) (i j : Nat) (x y : α) (hx : a[i]? = some x)
    (hy : a[j]? = some y) : ((a.set i y).set j x).Perm a := by
  classical
  obtain ⟨hi, hxi⟩ := List.getElem?_eq_some_iff.1 hx
  obtain ⟨hj, hyj⟩ := List.getElem?_eq_some_iff.1 hy
  by_cases hij : i = j
  · subst hij
    have : x = y := by rw [← hxi, ← hyj]
    subst this
    rw [List.set_set]
    have : a.set i x = a := by
      apply List.ext_getElem?
      intro k
      rw [List.getElem?_set]
      split
      · rename_i h; subst h; simp [hi, hx]
      · rfl
    rw [this]
  · rw [List.perm_iff_count]
    intro b
    have hj1 : j < (a.set i y).length := by simpa using hj
    have e1 : (a.set i y)[j] = y := by
      rw [List.getElem_set_ne hij]; exact hyj
    rw [List.count_set _ _ _ _ hj1, List.count_set _ _ _ _ hi, e1, hxi]
    have hpos : (if (x == b) = true then 1 else 0) ≤ List.count b a := by
      split
      · rename_i h
        have : x = b := by simpa using h
        subst this
        exact List.count_pos_iff.2 (List.getElem?_mem hx)
      · omega
    omega

theorem swap_perm {a a1 a2 : List α} {i j : Int} {x y : α} (hx : rd a i = some x)
    (hy : rd a j = some y) (h1 : wr a i y = some a1) (h2 : wr a1 j x = some a2) :
    a2.Perm a := by
  have bi := rd_bounds hx
  have bj := rd_bounds hy
  have l1 := wr_length h1
  rw [wr_isSome _ bi.1 bi.2] at h1
  cases h1
  rw [wr_isSome _ bj.1 (by omega)] at h2
  cases h2
  rw [rd_eq_getElem? bi.1] at hx
  rw [rd_eq_getElem? bj.1] at hy
  exact set_set_perm a _ _ x y hx hy

theorem slice_getElem? (a : List α) (l r : Int) (k : Nat) :
    (slice a l r)[k]? = if (k : Int) < r + 1 - l then a[l.toNat + k]? else none := by
  unfold slice
  rw [List.getElem?_take, List.getElem?_drop]
  by_cases h : (k : Int) < r + 1 - l
  · rw [if_pos h, if_pos (by omega)]
  · rw [if_neg h, if_neg (by omega)]

theorem slice_getElem?_eq_rd (a : List α) {l r : Int} (hl : 0 ≤ l) (k : Nat)
    (hk : (k : Int) < r + 1 - l) : (slice a l r)[k]? = rd a (l + k) := by
  rw [slice_getElem?, if_pos hk, rd_eq_getElem? (by omega)]
  congr 1
  omega

theorem slice_length (a : List α) {l r : Int} (hl : 0 ≤ l) (hlr : l ≤ r + 1)
    (hr : r < a.length) : ((slice a l r).length : Int) = r + 1 - l := by
  unfold slice
  rw [List.length_take, List.length_drop]
  omega

theorem slice_decomp (a : List α) {l r : Int} (hl : 0 ≤ l) (hlr : l ≤ r + 1) :
    a = a.take l.toNat ++ slice a l r ++ a.drop (r + 1).toNat := by
  unfold slice
  have e : (r + 1).toNat = l.toNat + (r + 1 - l).toNat := by omega
  rw [e, ← List.drop_drop, List.append_assoc, List.take_append_drop, List.take_append_drop]

theorem take_eq_of_rd {a b : List α} (n : Nat)
    (h : ∀ k : Int, 0 ≤ k → k < n → rd a k = rd b k) : a.take n = b.take n := by
  apply List.ext_getElem?
  intro k
  rw [List.getElem?_take, List.getElem?_take]
  split
  · rename_i hk
    have := h k (by omega) (by omega)
    simpa [rd] using this
  · rfl

theorem drop_eq_of_rd {a b : List α} (n : Nat)
    (h : ∀ k : Int, (n : Int) ≤ k → rd a k = rd b k) : a.drop n = b.drop n := by
  apply List.ext_getElem?
  intro k
  rw [List.getElem?_drop, List.getElem?_drop]
  have := h ((n + k : Nat) : Int) (by push_cast; omega)
  simpa [rd] using this

theorem slice_eq_of_rd {a b : List α} {l r : Int} (hl : 0 ≤ l)
    (h : ∀ k : Int, l ≤ k → k ≤ r → rd a k = rd b k) : slice a l r = slice b l r := by
  apply List.ext_getElem?
  intro k
  rw [slice_getElem?, slice_getElem?]
  split
  · rename_i hk
    have := h (l + k) (by omega) (by omega)
    rw [rd_eq_getElem? (by omega), rd_eq_getElem? (by omega)] at this
    have e : (l + k).toNat = l.toNat + k := by omega
    rw [e] at this
    exact this
  · rfl

/-- A permutation of the whole array that moves nothing outside `[l, r]` permutes
`a[l..r]`. -/
theorem slice_perm_of_frame {a b : List α} {l r : Int} (hl : 0 ≤ l) (hlr : l ≤ r + 1)
    (hp : b.Perm a) (h : ∀ k : Int, k < l ∨ r < k → rd b k = rd a k) :
    (slice b l r).Perm (slice a l r) := by
  have e1 : b.take l.toNat = a.take l.toNat :=
    take_eq_of_rd _ (fun k _ hk => h k (Or.inl (by omega)))
  have e2 : b.drop (r + 1).toNat = a.drop (r + 1).toNat :=
    drop_eq_of_rd _ (fun k hk => h k (Or.inr (by omega)))
  have da := slice_decomp a hl hlr
  have db := slice_decomp b hl hlr
  rw [e1, e2] at db
  rw [da, db] at hp
  exact (List.perm_append_left_iff _).1 ((List.perm_append_right_iff _).1 hp)

/-- The shape of an array that differs from `a` only inside `[l, r]`. -/
theorem eq_splice_of_frame {a b : List α} {l r : Int} (hl : 0 ≤ l) (hlr : l ≤ r + 1)
    (h : ∀ k : Int, k < l ∨ r < k → rd b k = rd a k) :
    b = a.take l.toNat ++ slice b l r ++ a.drop (r + 1).toNat := by
  have e1 : b.take l.toNat = a.take l.toNat :=
    take_eq_of_rd _ (fun k _ hk => h k (Or.inl (by omega)))
  have e2 : b.drop (r + 1).toNat = a.drop (r + 1).toNat :=
    drop_eq_of_rd _ (fun k hk => h k (Or.inr (by omega)))
  have db := slice_decomp b hl hlr
  rw [e1, e2] at db
  exact db

theorem mem_slice {a : List α} {l r : Int} (hl : 0 ≤ l) {x : α} (hx : x ∈ slice a l r) :
    ∃ k : Int, l ≤ k ∧ k ≤ r ∧ rd a k = some x := by
  obtain ⟨k, hk⟩ := List.getElem?_of_mem hx
  rw [slice_getElem?] at hk
  split at hk
  · rename_i h
    refine ⟨l + k, by omega, by omega, ?_⟩
    rw [rd_eq_getElem? (by omega)]
    have e : (l + k).toNat = l.toNat + k := by omega
    rw [e]; exact hk
  · cases hk

theorem slice_zero (a : List α) (n : Int) : slice a 0 (n - 1) = a.take n.toNat := by
  simp [slice]

theorem merge_copy_spec (a : List α) (base : Int) (X : List α) :
    ∀ (fuel : Nat) (A C D J : List α) (i cnt : Int), X.length + 1 ≤ fuel →
      a = A ++ X ++ C → base + i = A.length → i = D.length → cnt = i + X.length →
      X.length ≤ J.length →
      merge_copy fuel a base i cnt (D ++ J) = some (D ++ X ++ J.drop X.length) := by
  induction X with
  | nil =>
    intro fuel A C D J i cnt hf ha hb hi hc hJ
    obtain ⟨f, rfl⟩ : ∃ f, fuel = f + 1 := ⟨fuel - 1, by omega⟩
    have : ¬ i < cnt := by simp at hc; omega
    simp [merge_copy, this]
  | cons x X ih =>
    intro fuel A C D J i cnt hf ha hb hi hc hJ
    obtain ⟨f, rfl⟩ : ∃ f, fuel = f + 1 := ⟨fuel - 1, by omega⟩
    simp only [List.length_cons] at hf hc hJ
    cases J with
    | nil => simp at hJ
    | cons j0 J =>
      simp only [List.length_cons] at hJ
      have hlt : i < cnt := by omega
      have hrd : rd a (base + i) = some x := by
        rw [ha, List.append_assoc]; exact rd_mid A x _ hb
      have hwr : wr (D ++ j0 :: J) i x = some (D ++ x :: J) := wr_mid D j0 J x hi
      simp only [merge_copy, if_pos hlt, hrd, hwr, Option.some_bind]
      have := ih f (A ++ [x]) C (D ++ [x]) J (i + 1) cnt (by omega) (by rw [ha]; simp)
        (by simp; omega) (by simp; omega) (by omega) (by omega)
      simp only [List.append_assoc, List.singleton_append] at this
      rw [this]
      simp

theorem mem_slice_of_rd {a : List α} {l r k : Int} {x : α} (hl : 0 ≤ l) (hk1 : l ≤ k)
    (hk2 : k ≤ r) (hx : rd a k = some x) : x ∈ slice a l r := by
  apply List.getElem?_mem (n := (k - l).toNat)
  rw [slice_getElem?_eq_rd a hl _ (by omega)]
  have : l + ((k - l).toNat : Int) = k := by omega
  rw [this]; exact hx

/-- After a permutation that moves nothing outside `[l, r]`, whatever stands in
`b[l..r]` stood somewhere in `a[l..r]`. -/
theorem rd_of_perm_frame {a b : List α} {l r : Int} (hl : 0 ≤ l) (hlr : l ≤ r + 1)
    (hp : b.Perm a) (h : ∀ k : Int, k < l ∨ r < k → rd b k = rd a k) {k : Int} {x : α}
    (hk1 : l ≤ k) (hk2 : k ≤ r) (hx : rd b k = some x) :
    ∃ k1 : Int, l ≤ k1 ∧ k1 ≤ r ∧ rd a k1 = some x :=
  mem_slice hl ((slice_perm_of_frame hl hlr hp h).mem_iff.1 (mem_slice_of_rd hl hk1 hk2 hx))

theorem slice_splice (A S C : List α) {l r : Int} (hl : l = A.length)
    (hr : r + 1 = l + S.length) : slice (A ++ S ++ C) l r = S := by
  unfold slice
  have e1 : l.toNat = A.length := by omega
  have e2 : (r + 1 - l).toNat = S.length := by omega
  rw [e1, e2, List.append_assoc, List.drop_left, List.take_left]

theorem length_take_int {a : List α} {l : Int} (h0 : 0 ≤ l) (h : l ≤ a.length) :
    ((a.take l.toNat).length : Int) = l := by
  rw [List.length_take]; omega

theorem slice_append (a : List α) {p q r : Int} (hp : 0 ≤ p) (hpq : p ≤ q + 1)
    (hqr : q ≤ r) : slice a p q ++ slice a (q + 1) r = slice a p r := by
  unfold slice
  have e1 : (q + 1).toNat = p.toNat + (q + 1 - p).toNat := by omega
  have e2 : (r + 1 - p).toNat = (q + 1 - p).toNat + (r + 1 - (q + 1)).toNat := by omega
  rw [e1, e2, ← List.drop_drop, List.take_add]

theorem take_splice (S C : List α) {n : Int} (hn : n = S.length) :
    (S ++ C).take n.toNat = S := by
  have e : n.toNat = S.length := by omega
  rw [e, List.take_left]

theorem slice_splice_eq {a S : List α} {l r : Int} (hl : 0 ≤ l) (hlr : l ≤ r + 1)
    (hr : r < a.length) (hS : S.length = (slice a l r).length) :
    slice (a.take l.toNat ++ S ++ a.drop (r + 1).toNat) l r = S := by
  have h1 := slice_length a hl hlr hr
  have h2 := length_take_int (a := a) hl (by omega)
  exact slice_splice _ _ _ h2.symm (by omega)

theorem merge_copy_none (a : List α) (base : Int) {i cnt : Int} (fuel : Nat) (buf : List α)
    (h : i < cnt) (hb : base + i < 0) : merge_copy fuel a base i cnt buf = none := by
  cases fuel with
  | zero => rfl
  | succ f => simp [merge_copy, h, rd_neg a hb]

theorem merge_copy_length (a : List α) (base cnt : Int) :
    ∀ (fuel : Nat) (i : Int) (buf out : List α),
      merge_copy fuel a base i cnt buf = some out → out.length = buf.length := by
  intro fuel
  induction fuel with
  | zero => intro i buf out h; cases h
  | succ f ih =>
    intro i buf out h
    simp only [merge_copy] at h
    split at h
    · cases hx : rd a (base + i) with
      | none => rw [hx] at h; cases h
      | some x =>
        rw [hx] at h
        simp only [Option.some_bind] at h
        cases hw : wr buf i x with
        | none => rw [hw] at h; cases h
        | some buf1 =>
          rw [hw] at h
          simp only [Option.some_bind] at h
          rw [ih _ _ _ h, wr_length hw]
    · cases h; rfl

theorem wr_same {a : List α} {i : Int} {x : α} (h : rd a i = some x) : wr a i x = some a := by
  have hb := rd_bounds h
  rw [wr_isSome x hb.1 hb.2]
  rw [rd_eq_getElem? hb.1] at h
  congr 1
  apply List.ext_getElem?
  intro k
  rw [List.getElem?_set]
  split
  · rename_i hk; subst hk
    have : i.toNat < a.length := by omega
    simp [this, h]
  · rfl

theorem rd_splice_outside (a S : List α) {l r : Int} (hl : 0 ≤ l) (hlr : l ≤ r + 1)
    (hr : r < a.length) (hS : S.length = (slice a l r).length) {k : Int}
    (hk : k < l ∨ r < k) :
    rd (a.take l.toNat ++ S ++ a.drop (r + 1).toNat) k = rd a k := by
  have h1 := slice_length a hl hlr hr
  have h2 := length_take_int (a := a) hl (by omega)
  by_cases hk0 : 0 ≤ k
  · rw [rd_eq_getElem? hk0, rd_eq_getElem? hk0]
    rcases hk with hk | hk
    · rw [List.append_assoc, List.getElem?_append_left (by omega),
        List.getElem?_take_of_lt (by omega)]
    · rw [List.getElem?_append_right (by simp only [List.length_append]; omega),
        List.getElem?_drop]
      congr 1
      simp only [List.length_append]
      omega
  · rw [rd_neg _ (by omega), rd_neg _ (by omega)]

end Memory

/-! ## Lists: order by key, elements of one key -/

section Lists

variable {α : Type} [Elem α]

theorem withKey_append (k : Int) (s t : List α) :
    withKey k (s ++ t) = withKey k s ++ withKey k t := by
  simp [withKey]

theorem withKey_eq_nil_of_ne (k : Int) (s : List α) (h : ∀ x ∈ s, key x ≠ k) :
    withKey k s = [] := by
  simp only [withKey, List.filter_eq_nil_iff]
  intro x hx
  simpa using h x hx

theorem keySorted_le_getLast {s : List α} (hs : KeySorted s) {x y : α} (hx : x ∈ s)
    (hy : s.getLast? = some y) : key x ≤ key y := by
  obtain ⟨t, rfl⟩ : ∃ t, s = t ++ [y] := by
    rcases List.eq_nil_or_concat s with h | ⟨t, z, h⟩
    · subst h; simp at hy
    · subst h; simp at hy; subst hy; exact ⟨t, by simp⟩
  rcases List.mem_append.1 hx with hx | hx
  · exact (List.pairwise_append.1 hs).2.2 x hx y (by simp)
  · simp at hx; subst hx; exact le_refl _

theorem keySorted_insert {A1 A2 : List α} {pv : α} (hs : KeySorted (A1 ++ A2))
    (h2 : ∀ x ∈ A2, key pv < key x) (h1 : ∀ x, A1.getLast? = some x → key x ≤ key pv) :
    KeySorted (A1 ++ pv :: A2) := by
  obtain ⟨s1, s2, s12⟩ := List.pairwise_append.1 hs
  refine List.pairwise_append.2 ⟨s1, List.pairwise_cons.2 ⟨fun x hx => le_of_lt (h2 x hx), s2⟩, ?_⟩
  intro x hx y hy
  rcases List.mem_cons.1 hy with hy | hy
  · subst hy
    rcases List.eq_nil_or_concat A1 with h | ⟨t, z, h⟩
    · subst h; simp at hx
    · have hl : A1.getLast? = some z := by subst h; simp
      exact le_trans (keySorted_le_getLast s1 hx hl) (h1 z hl)
  · exact s12 x hx y hy

theorem withKey_insert (k : Int) {A1 A2 : List α} {pv : α} (h2 : ∀ x ∈ A2, key pv < key x) :
    withKey k (A1 ++ pv :: A2) = withKey k (A1 ++ A2 ++ [pv]) := by
  by_cases hk : key pv = k
  · have : withKey k A2 = [] := withKey_eq_nil_of_ne k A2 (fun x hx => by have := h2 x hx; omega)
    rw [show A1 ++ pv :: A2 = A1 ++ [pv] ++ A2 by simp]
    simp only [withKey_append, this, List.append_nil]
  · have : withKey k [pv] = [] := withKey_eq_nil_of_ne k [pv] (fun x hx => by simp at hx; subst hx; exact hk)
    rw [show A1 ++ pv :: A2 = A1 ++ [pv] ++ A2 by simp]
    simp only [withKey_append, this, List.append_nil]

theorem stable_of_withKey {S T : List α} (h : ∀ k, withKey k S = withKey k T) {i j : Nat}
    {x y : α} (hij : i < j) (hx : T[i]? = some x) (hy : T[j]? = some y)
    (hxy : key x = key y) :
    ∃ i1 j1 : Nat, i1 < j1 ∧ S[i1]? = some x ∧ S[j1]? = some y := by
  apply getElem?_of_sublist_pair
  have h1 : List.Sublist [x, y] T := sublist_pair_of_getElem? hij hx hy
  have h2 := h1.filter (fun z => decide (key z = key y))
  have h3 : List.filter (fun z => decide (key z = key y)) [x, y] = [x, y] := by
    simp [List.filter, hxy]
  rw [h3] at h2
  have h4 : List.Sublist [x, y] (withKey (key y) S) := by rw [h (key y)]; exact h2
  exact h4.trans (List.filter_sublist _)


theorem keySorted_slice {a : List α} {l r : Int} (hl : 0 ≤ l)
    (h : ∀ (k1 k2 : Int) (x y : α), l ≤ k1 → k1 < k2 → k2 ≤ r →
      rd a k1 = some x → rd a k2 = some y → key x ≤ key y) :
    KeySorted (slice a l r) := by
  unfold KeySorted
  rw [List.pairwise_iff_getElem]
  intro i j hi hj hij
  have h1 : (slice a l r)[i]? = some (slice a l r)[i] := List.getElem?_eq_getElem hi
  have h2 : (slice a l r)[j]? = some (slice a l r)[j] := List.getElem?_eq_getElem hj
  rw [slice_getElem?] at h1 h2
  split at h1
  · split at h2
    · rename_i hi' hj'
      refine h (l + i) (l + j) _ _ (by omega) (by omega) (by omega) ?_ ?_
      · rw [rd_eq_getElem? (by omega)]
        have e : (l + i).toNat = l.toNat + i := by omega
        rw [e]; exact h1
      · rw [rd_eq_getElem? (by omega)]
        have e : (l + j).toNat = l.toNat + j := by omega
        rw [e]; exact h2
    · cases h2
  · cases h1

/-- Summary of a run that sorts `a[l..r]` in place: the array keeps its shape
`a[0..l) ++ S ++ a(r..]`, and `S` is `a[l..r]` rearranged into key order. -/
theorem sorted_splice_of_pointwise {a out : List α} {l r : Int} (hl : 0 ≤ l)
    (hlr : l ≤ r + 1) (hp : out.Perm a)
    (hframe : ∀ k : Int, k < l ∨ r < k → rd out k = rd a k)
    (hs : ∀ (k1 k2 : Int) (x y : α), l ≤ k1 → k1 < k2 → k2 ≤ r →
      rd out k1 = some x → rd out k2 = some y → key x ≤ key y) :
    out = a.take l.toNat ++ slice out l r ++ a.drop (r + 1).toNat ∧
      (slice out l r).Perm (slice a l r) ∧ KeySorted (slice out l r) :=
  ⟨eq_splice_of_frame hl hlr hframe, slice_perm_of_frame hl hlr hp hframe,
    keySorted_slice hl hs⟩

theorem stable_slices (a out : List α) (p r : Int) (hp : 0 ≤ p)
    (h : ∀ k, withKey k (slice out p r) = withKey k (slice a p r)) {i j : Int} {x y : α}
    (hi : p ≤ i) (hij : i < j) (hj : j ≤ r) (hx : rd a i = some x) (hy : rd a j = some y)
    (hxy : key x = key y) :
    ∃ i1 j1 : Int, p ≤ i1 ∧ i1 < j1 ∧ j1 ≤ r ∧ rd out i1 = some x ∧ rd out j1 = some y := by
  have ex : (slice a p r)[(i - p).toNat]? = some x := by
    rw [slice_getElem?_eq_rd a hp _ (by omega)]
    have : p + ((i - p).toNat : Int) = i := by omega
    rw [this]; exact hx
  have ey : (slice a p r)[(j - p).toNat]? = some y := by
    rw [slice_getElem?_eq_rd a hp _ (by omega)]
    have : p + ((j - p).toNat : Int) = j := by omega
    rw [this]; exact hy
  obtain ⟨i1, j1, h1, h2, h3⟩ := stable_of_withKey h (by omega) ex ey hxy
  have b3 : (j1 : Int) < r + 1 - p := by
    by_contra hc
    rw [slice_getElem?, if_neg hc] at h3
    cases h3
  rw [slice_getElem?_eq_rd out hp _ (by omega)] at h2
  rw [slice_getElem?_eq_rd out hp _ b3] at h3
  exact ⟨p + i1, p + j1, by omega, by omega, by omega, h2, h3⟩

end Lists

/-! ## Insertion sort -/

section Insertion

variable {α : Type} [Elem α]

theorem insertion_while_spec (pivot : α) (A : List α) :
    ∀ (fuel : Nat) (h : α) (C : List α), A.length + 1 ≤ fuel →
      ∃ A1 A2 h1, A = A1 ++ A2 ∧ (∀ x ∈ A2, key pivot < key x) ∧
        (∀ x, A1.getLast? = some x → key x ≤ key pivot) ∧
        insertion_while fuel (A ++ h :: C) ((A.length : Int) - 1) pivot
          = some (A1 ++ h1 :: (A2 ++ C), (A1.length : Int) - 1) := by
  induction A using List.reverseRecOn with
  | nil =>
    intro fuel h C hf
    obtain ⟨f, rfl⟩ : ∃ f, fuel = f + 1 := ⟨fuel - 1, by omega⟩
    exact ⟨[], [], h, rfl, by simp, by simp, by simp [insertion_while]⟩
  | append_singleton A y ih =>
    intro fuel h C hf
    obtain ⟨f, rfl⟩ : ∃ f, fuel = f + 1 := ⟨fuel - 1, by omega⟩
    simp only [List.length_append, List.length_singleton] at hf
    have hj : ((A ++ [y]).length : Int) - 1 = A.length := by simp
    have hrd : rd (A ++ [y] ++ h :: C) (A.length : Int) = some y := by
      rw [List.append_assoc]; exact rd_mid A y _ rfl
    rw [hj]
    by_cases hy : key y > key pivot
    · have hwr : wr (A ++ [y] ++ h :: C) ((A.length : Int) + 1) y = some (A ++ y :: (y :: C)) := by
        rw [wr_mid (A ++ [y]) h C y (by simp)]; simp
      obtain ⟨A1, A2, h1, hA, hA2, hA1, hrun⟩ := ih f y (y :: C) (by omega)
      refine ⟨A1, A2 ++ [y], h1, by rw [hA]; simp, ?_, hA1, ?_⟩
      · intro x hx
        rcases List.mem_append.1 hx with hx | hx
        · exact hA2 x hx
        · simp at hx; subst hx; exact hy
      · simp only [insertion_while, hrd, Option.some_bind, hy, if_true, hwr]
        rw [if_pos (by omega), hrun]
        simp
    · refine ⟨A ++ [y], [], h, by simp, by simp, ?_, ?_⟩
      · intro x hx
        simp at hx; subst hx; omega
      · simp only [insertion_while, hrd, Option.some_bind, hy, if_false]
        rw [if_pos (by omega)]
        simp


theorem insertion_for_spec (C : List α) (U : List α) :
    ∀ (fuel : Nat) (P : List α), P.length + 2 * U.length + 1 ≤ fuel →
      ∃ P1, insertion_for fuel (P ++ U ++ C) P.length ((P.length : Int) + U.length)
              = some (P1 ++ C) ∧
        P1.Perm (P ++ U) ∧ (KeySorted P → KeySorted P1) ∧
        ∀ k, withKey k P1 = withKey k (P ++ U) := by
  induction U with
  | nil =>
    intro fuel P hf
    obtain ⟨f, rfl⟩ : ∃ f, fuel = f + 1 := ⟨fuel - 1, by omega⟩
    refine ⟨P, ?_, by simp, fun h => h, fun k => by simp⟩
    simp [insertion_for]
  | cons pv U ih =>
    intro fuel P hf
    obtain ⟨f, rfl⟩ : ∃ f, fuel = f + 1 := ⟨fuel - 1, by omega⟩
    simp only [List.length_cons] at hf
    obtain ⟨A1, A2, h1, hP, hA2, hA1, hrun⟩ := insertion_while_spec pv P f pv (U ++ C) (by omega)
    have hrd : rd (P ++ pv :: U ++ C) (P.length : Int) = some pv := by
      rw [List.append_assoc]; exact rd_mid P pv _ rfl
    have hwr : wr (A1 ++ h1 :: (A2 ++ (U ++ C))) ((A1.length : Int) - 1 + 1) pv
        = some ((A1 ++ pv :: A2) ++ U ++ C) := by
      rw [wr_mid A1 h1 _ pv (by omega)]; simp
    have hlen : ((A1 ++ pv :: A2).length : Int) = (P.length : Int) + 1 := by
      rw [hP]; simp; omega
    obtain ⟨P1, hrun1, hperm, hsorted, hkey⟩ := ih f (A1 ++ pv :: A2) (by
      have : (A1 ++ pv :: A2).length = P.length + 1 := by rw [hP]; simp; omega
      omega)
    refine ⟨P1, ?_, ?_, ?_, ?_⟩
    · have hc : (P.length : Int) ≤ (P.length : Int) + ((pv :: U).length : Int) - 1 := by
        simp only [List.length_cons, Nat.cast_add, Nat.cast_one]; omega
      have e1 : P ++ pv :: U ++ C = P ++ pv :: (U ++ C) := by simp
      simp only [insertion_for, if_pos hc, hrd, Option.some_bind]
      rw [e1, hrun]
      simp only [Option.some_bind, hwr]
      rw [← hrun1, hlen]
      congr 1
      simp only [List.length_cons, Nat.cast_add, Nat.cast_one]; omega
    · refine hperm.trans ?_
      rw [hP]
      simp only [List.append_assoc, List.cons_append]
      refine List.Perm.append_left _ ?_
      exact List.perm_middle.symm
    · intro hs
      exact hsorted (keySorted_insert (by rw [← hP]; exact hs) hA2 hA1)
    · intro k
      rw [hkey k, withKey_append, withKey_insert k hA2, ← hP]
      rw [show P ++ pv :: U = P ++ [pv] ++ U by simp]
      simp only [withKey_append]


theorem insertion_sort_spec (a : List α) (n : Int) (fuel : Nat) (h0 : 0 ≤ n)
    (hn : n ≤ a.length) (hf : 2 * n.toNat + 1 ≤ fuel) :
    ∃ S, insertion_sort fuel a n = some (S ++ a.drop n.toNat) ∧
      S.Perm (a.take n.toNat) ∧ KeySorted S ∧ ∀ k, withKey k S = withKey k (a.take n.toNat) := by
  obtain ⟨m, rfl⟩ : ∃ m : Nat, n = m := ⟨n.toNat, by omega⟩
  simp only [Int.toNat_ofNat] at *
  have hm : m ≤ a.length := by omega
  cases m with
  | zero =>
    obtain ⟨f, rfl⟩ : ∃ f, fuel = f + 1 := ⟨fuel - 1, by omega⟩
    exact ⟨[], by simp [insertion_sort, insertion_for], by simp, by simp [KeySorted], by simp⟩
  | succ m =>
    cases a with
    | nil => simp at hm
    | cons x a =>
      simp only [List.length_cons] at hm
      obtain ⟨P1, hrun, hperm, hsorted, hkey⟩ :=
        insertion_for_spec (a.drop m) (a.take m) fuel [x] (by
          simp only [List.length_take, List.length_singleton]
          rw [Nat.min_eq_left (by omega)]; omega)
      refine ⟨P1, ?_, by simpa using hperm, hsorted (by simp [KeySorted]), by simpa using hkey⟩
      have e : ([x] : List α) ++ a.take m ++ a.drop m = x :: a := by simp
      have e2 : (([x] : List α).length : Int) + ((a.take m).length : Int) = ((m + 1 : Nat) : Int) := by
        simp only [List.length_take, List.length_singleton]
        rw [Nat.min_eq_left (by omega)]; push_cast; omega
      rw [e, e2] at hrun
      simpa [insertion_sort] using hrun

/-- One pass of the outer loop of `insertion_sort` over a cell that is not below its
left neighbour: the `while` test fails at once and the pass writes `a[i] = a[i]`. -/
theorem insertion_for_step_sorted (a : List α) (i n : Int) (f : Nat) (x pivot : α)
    (hi : 1 ≤ i) (hin : i ≤ n - 1) (hx : rd a (i - 1) = some x) (hp : rd a i = some pivot)
    (hle : key x ≤ key pivot) :
    insertion_while (f + 1) a (i - 1) pivot = some (a, i - 1) ∧
      insertion_for (f + 2) a i n = insertion_for (f + 1) a (i + 1) n := by
  have hw : insertion_while (f + 1) a (i - 1) pivot = some (a, i - 1) := by
    simp only [insertion_while, hx, Option.some_bind]
    rw [if_pos (by omega), if_neg (by omega)]
  refine ⟨hw, ?_⟩
  have e : i - 1 + 1 = i := by omega
  rw [show f + 2 = (f + 1) + 1 from rfl]
  simp only [insertion_for, if_pos hin, hp, Option.some_bind, hw, e, wr_same hp]

end Insertion

/-! ## Selection sort -/

section Selection

variable {α : Type} [Elem α]

theorem selection_scan_spec (a : List α) (i n : Int) (hi : 0 ≤ i) (hn : n ≤ a.length) :
    ∀ (fuel : Nat) (j mi : Int) (m0 : α), (n - j).toNat + 1 ≤ fuel →
      i ≤ mi → mi < j → j ≤ n → rd a mi = some m0 →
      (∀ k x, i ≤ k → k < j → rd a k = some x → key m0 ≤ key x) →
      (∀ k x, i ≤ k → k < mi → rd a k = some x → key m0 < key x) →
      ∃ m mv, selection_scan fuel a j n mi = some m ∧ i ≤ m ∧ m < n ∧ rd a m = some mv ∧
        (∀ k x, i ≤ k → k < n → rd a k = some x → key mv ≤ key x) ∧
        (∀ k x, i ≤ k → k < m → rd a k = some x → key mv < key x) := by
  intro fuel
  induction fuel with
  | zero => intro j mi m0 hf; omega
  | succ f ih =>
    intro j mi m0 hf h1 h2 h3 hm hmin hleft
    by_cases hc : j ≤ n - 1
    · obtain ⟨x, hx⟩ := rd_isSome (a := a) (i := j) (by omega) (by omega)
      simp only [selection_scan, if_pos hc, hx, hm, Option.some_bind]
      by_cases hlt : key x < key m0
      · rw [if_pos hlt]
        refine ih (j + 1) j x (by omega) (by omega) (by omega) (by omega) hx ?_ ?_
        · intro k y hk1 hk2 hy
          by_cases hkj : k = j
          · subst hkj; rw [hx] at hy; cases hy; exact le_refl _
          · have := hmin k y hk1 (by omega) hy; omega
        · intro k y hk1 hk2 hy
          have := hmin k y hk1 hk2 hy; omega
      · rw [if_neg hlt]
        refine ih (j + 1) mi m0 (by omega) h1 (by omega) (by omega) hm ?_ hleft
        intro k y hk1 hk2 hy
        by_cases hkj : k = j
        · subst hkj; rw [hx] at hy; cases hy; omega
        · exact hmin k y hk1 (by omega) hy
    · simp only [selection_scan, if_neg hc]
      exact ⟨mi, m0, rfl, h1, by omega, hm, fun k x hk1 hk2 hx => hmin k x hk1 (by omega) hx, hleft⟩

theorem selection_for_spec (n : Int) :
    ∀ (fuel : Nat) (b : List α) (i : Int), (n - i).toNat + 1 ≤ fuel → 0 ≤ i →
      n ≤ b.length →
      (∀ (k1 k2 : Int) (x y : α), 0 ≤ k1 → k1 < i → k1 < k2 → k2 < n →
        rd b k1 = some x → rd b k2 = some y → key x ≤ key y) →
      ∃ out, selection_for fuel b i n = some out ∧ out.Perm b ∧
        (∀ k : Int, n ≤ k → rd out k = rd b k) ∧
        (∀ (k1 k2 : Int) (x y : α), 0 ≤ k1 → k1 < k2 → k2 < n →
          rd out k1 = some x → rd out k2 = some y → key x ≤ key y) := by
  intro fuel
  induction fuel with
  | zero => intro b i hf; omega
  | succ f ih =>
    intro b i hf hi hn hinv
    by_cases hc : i ≤ n - 2
    · obtain ⟨x, hx⟩ := rd_isSome (a := b) (i := i) (by omega) (by omega)
      obtain ⟨m, mv, hscan, hm1, hm2, hmv, hmin, -⟩ :=
        selection_scan_spec b i n hi hn f (i + 1) i x (by omega) (by omega) (by omega)
          (by omega) hx
          (fun k y hk1 hk2 hy => by
            have : k = i := by omega
            subst this; rw [hx] at hy; cases hy; exact le_refl _)
          (fun k y hk1 hk2 hy => by omega)
      simp only [selection_for, if_pos hc, hscan, hx, hmv, Option.some_bind]
      by_cases hne : key x ≠ key mv
      · rw [if_pos hne]
        have hmi : m ≠ i := by
          intro h; subst h; rw [hx] at hmv; cases hmv; exact hne rfl
        obtain ⟨b1, hb1⟩ : ∃ b1, wr b i mv = some b1 := ⟨_, wr_isSome mv hi (by omega)⟩
        have l1 := wr_length hb1
        obtain ⟨b2, hb2⟩ : ∃ b2, wr b1 m x = some b2 :=
          ⟨_, wr_isSome x (by omega) (by omega)⟩
        have l2 := wr_length hb2
        have hrd : ∀ k : Int, rd b2 k
            = if k = m then some x else if k = i then some mv else rd b k := by
          intro k; rw [rd_wr hb2, rd_wr hb1]
        simp only [hb1, hb2, Option.some_bind]
        obtain ⟨out, hrun, hperm, hframe, hsorted⟩ := ih b2 (i + 1) (by omega) (by omega)
          (by omega) (by
            intro k1 k2 y1 y2 hk0 hk1 hk12 hk2 hy1 hy2
            rw [hrd] at hy1 hy2
            have hy2' : (∃ k3 : Int, k1 < k3 ∧ k3 < n ∧ rd b k3 = some y2) ∨
                (k1 = i ∧ rd b i = some y2) := by
              by_cases e1 : k2 = m
              · rw [if_pos e1] at hy2; cases hy2
                by_cases e2 : k1 = i
                · exact Or.inr ⟨e2, hx⟩
                · exact Or.inl ⟨i, by omega, by omega, hx⟩
              · rw [if_neg e1] at hy2
                by_cases e2 : k2 = i
                · rw [if_pos e2] at hy2; cases hy2
                  exact Or.inl ⟨m, by omega, hm2, hmv⟩
                · rw [if_neg e2] at hy2
                  exact Or.inl ⟨k2, hk12, hk2, hy2⟩
            by_cases e3 : k1 = i
            · rw [if_neg (by omega), if_pos e3] at hy1; cases hy1
              rcases hy2' with ⟨k3, h32, h33, h34⟩ | ⟨-, h34⟩
              · exact hmin k3 y2 (by omega) h33 h34
              · exact hmin i y2 (le_refl _) (by omega) h34
            · rw [if_neg (by omega), if_neg e3] at hy1
              rcases hy2' with ⟨k3, h32, h33, h34⟩ | ⟨h31, -⟩
              · exact hinv k1 k3 y1 y2 hk0 (by omega) h32 h33 hy1 h34
              · exact absurd h31 e3)
        refine ⟨out, hrun, hperm.trans (swap_perm hx hmv hb1 hb2), ?_, hsorted⟩
        intro k hk
        rw [hframe k hk, hrd, if_neg (by omega), if_neg (by omega)]
      · rw [if_neg hne]
        have heq : key x = key mv := by_contra hne
        refine ih b (i + 1) (by omega) (by omega) hn ?_
        intro k1 k2 y1 y2 hk0 hk1 hk12 hk2 hy1 hy2
        by_cases e3 : k1 = i
        · subst e3; rw [hx] at hy1; cases hy1
          rw [heq]; exact hmin k2 y2 (by omega) hk2 hy2
        · exact hinv k1 k2 y1 y2 hk0 (by omega) hk12 hk2 hy1 hy2
    · simp only [selection_for, if_neg hc]
      refine ⟨b, rfl, List.Perm.refl _, fun _ _ => rfl, ?_⟩
      intro k1 k2 x y hk0 hk12 hk2 hx hy
      exact hinv k1 k2 x y hk0 (by omega) hk12 hk2 hx hy

theorem selection_sort_spec (a : List α) (n : Int) (fuel : Nat) (h0 : 0 ≤ n)
    (hn : n ≤ a.length) (hf : n.toNat + 1 ≤ fuel) :
    ∃ S, selection_sort fuel a n = some (S ++ a.drop n.toNat) ∧
      S.Perm (a.take n.toNat) ∧ KeySorted S := by
  obtain ⟨out, hrun, hperm, hframe, hsorted⟩ :=
    selection_for_spec n fuel a 0 (by omega) (le_refl _) hn
      (fun k1 k2 x y h1 h2 => by omega)
  have hfr : ∀ k : Int, k < 0 ∨ n - 1 < k → rd out k = rd a k := by
    intro k hk
    rcases hk with hk | hk
    · rw [rd_neg _ hk, rd_neg _ hk]
    · exact hframe k (by omega)
  refine ⟨slice out 0 (n - 1), ?_, ?_, ?_⟩
  · have := eq_splice_of_frame (le_refl _) (by omega) hfr
    simp only [Int.toNat_zero, List.take_zero, List.nil_append, Int.sub_add_cancel] at this
    rw [← this]; exact hrun
  · rw [← slice_zero]
    exact slice_perm_of_frame (le_refl _) (by omega) hperm hfr
  · exact keySorted_slice (le_refl _)
      (fun k1 k2 x y h1 h2 h3 hx hy => hsorted k1 k2 x y h1 h2 (by omega) hx hy)

theorem selection_for_body (f : Nat) (b : List α) (i n : Int) :
    selection_for (f + 1) b i n =
      if i ≤ n - 2 then (selection_body f b i n).bind fun b1 => selection_for f b1 (i + 1) n
      else some b := by
  simp only [selection_for, selection_body]
  split
  · cases selection_scan f b (i + 1) n i with
    | none => rfl
    | some m =>
      simp only [Option.some_bind]
      cases rd b i with
      | none => rfl
      | some x =>
        simp only [Option.some_bind]
        cases rd b m with
        | none => rfl
        | some mv =>
          simp only [Option.some_bind]
          split
          · cases wr b i mv with
            | none => rfl
            | some b1 =>
              simp only [Option.some_bind]
          · rfl
  · rfl

theorem selection_scan_mono (a : List α) (n : Int) :
    ∀ (fuel : Nat) (j mi res : Int), selection_scan fuel a j n mi = some res →
      ∀ fuel1, fuel ≤ fuel1 → selection_scan fuel1 a j n mi = some res := by
  intro fuel
  induction fuel with
  | zero => intro j mi res h; cases h
  | succ f ih =>
    intro j mi res h fuel1 hle
    obtain ⟨g, rfl⟩ : ∃ g, fuel1 = g + 1 := ⟨fuel1 - 1, by omega⟩
    simp only [selection_scan] at h ⊢
    split at h
    · rename_i hc
      rw [if_pos hc]
      cases hx : rd a j with
      | none => rw [hx] at h; cases h
      | some x =>
        rw [hx] at h
        simp only [Option.some_bind] at h ⊢
        cases hm : rd a mi with
        | none => rw [hm] at h; cases h
        | some m =>
          rw [hm] at h
          simp only [Option.some_bind] at h ⊢
          exact ih _ _ _ h g (by omega)
    · rename_i hc
      rw [if_neg hc]; exact h

theorem selection_body_mono (a : List α) (i n : Int) (fuel fuel1 : Nat) (res : List α)
    (h : selection_body fuel a i n = some res) (hle : fuel ≤ fuel1) :
    selection_body fuel1 a i n = some res := by
  unfold selection_body at h ⊢
  cases hs : selection_scan fuel a (i + 1) n i with
  | none => rw [hs] at h; cases h
  | some m =>
    rw [hs] at h
    rw [selection_scan_mono a n fuel _ _ _ hs fuel1 hle]
    exact h

theorem selection_body_spec (n : Int) (b : List α) (i : Int) (fuel : Nat) (hi : 0 ≤ i)
    (hc : i ≤ n - 2) (hn : n ≤ b.length) (hf : (n - i).toNat ≤ fuel)
    (hinv : ∀ (k1 k2 : Int) (x y : α), 0 ≤ k1 → k1 < i → k1 < k2 → k2 < n →
      rd b k1 = some x → rd b k2 = some y → key x ≤ key y) :
    ∃ b2, selection_body fuel b i n = some b2 ∧ b2.Perm b ∧
      (∀ k : Int, n ≤ k → rd b2 k = rd b k) ∧
      (∀ (k1 k2 : Int) (x y : α), 0 ≤ k1 → k1 < i + 1 → k1 < k2 → k2 < n →
        rd b2 k1 = some x → rd b2 k2 = some y → key x ≤ key y) := by
  obtain ⟨x, hx⟩ := rd_isSome (a := b) (i := i) (by omega) (by omega)
  obtain ⟨m, mv, hscan, hm1, hm2, hmv, hmin, -⟩ :=
    selection_scan_spec b i n hi hn fuel (i + 1) i x (by omega) (by omega) (by omega)
      (by omega) hx
      (fun k y hk1 hk2 hy => by
        have : k = i := by omega
        subst this; rw [hx] at hy; cases hy; exact le_refl _)
      (fun k y hk1 hk2 hy => by omega)
  simp only [selection_body, hscan, hx, hmv, Option.some_bind]
  by_cases hne : key x ≠ key mv
  · rw [if_pos hne]
    have hmi : m ≠ i := by
      intro h; subst h; rw [hx] at hmv; cases hmv; exact hne rfl
    obtain ⟨b1, hb1⟩ : ∃ b1, wr b i mv = some b1 := ⟨_, wr_isSome mv hi (by omega)⟩
    have l1 := wr_length hb1
    obtain ⟨b2, hb2⟩ : ∃ b2, wr b1 m x = some b2 :=
      ⟨_, wr_isSome x (by omega) (by omega)⟩
    have hrd : ∀ k : Int, rd b2 k
        = if k = m then some x else if k = i then some mv else rd b k := by
      intro k; rw [rd_wr hb2, rd_wr hb1]
    simp only [hb1, hb2, Option.some_bind]
    refine ⟨b2, rfl, swap_perm hx hmv hb1 hb2, ?_, ?_⟩
    · intro k hk
      rw [hrd, if_neg (by omega), if_neg (by omega)]
    · intro k1 k2 y1 y2 hk0 hk1 hk12 hk2 hy1 hy2
      rw [hrd] at hy1 hy2
      have hy2' : (∃ k3 : Int, k1 < k3 ∧ k3 < n ∧ rd b k3 = some y2) ∨
          (k1 = i ∧ rd b i = some y2) := by
        by_cases e1 : k2 = m
        · rw [if_pos e1] at hy2; cases hy2
          by_cases e2 : k1 = i
          · exact Or.inr ⟨e2, hx⟩
          · exact Or.inl ⟨i, by omega, by omega, hx⟩
        · rw [if_neg e1] at hy2
          by_cases e2 : k2 = i
          · rw [if_pos e2] at hy2; cases hy2
            exact Or.inl ⟨m, by omega, hm2, hmv⟩
          · rw [if_neg e2] at hy2
            exact Or.inl ⟨k2, hk12, hk2, hy2⟩
      by_cases e3 : k1 = i
      · rw [if_neg (by omega), if_pos e3] at hy1; cases hy1
        rcases hy2' with ⟨k3, h32, h33, h34⟩ | ⟨-, h34⟩
        · exact hmin k3 y2 (by omega) h33 h34
        · exact hmin i y2 (le_refl _) (by omega) h34
      · rw [if_neg (by omega), if_neg e3] at hy1
        rcases hy2' with ⟨k3, h32, h33, h34⟩ | ⟨h31, -⟩
        · exact hinv k1 k3 y1 y2 hk0 (by omega) h32 h33 hy1 h34
        · exact absurd h31 e3
  · rw [if_neg hne]
    have heq : key x = key mv := by_contra hne
    refine ⟨b, rfl, List.Perm.refl _, fun _ _ => rfl, ?_⟩
    intro k1 k2 y1 y2 hk0 hk1 hk12 hk2 hy1 hy2
    by_cases e3 : k1 = i
    · subst e3; rw [hx] at hy1; cases hy1
      rw [heq]; exact hmin k2 y2 (by omega) hk2 hy2
    · exact hinv k1 k2 y1 y2 hk0 (by omega) hk12 hk2 hy1 hy2

theorem selection_for_log_spec (n : Int) :
    ∀ (fuel : Nat) (b : List α) (i : Int), (n - i).toNat + 1 ≤ fuel → 0 ≤ i →
      n ≤ b.length →
      (∀ (k1 k2 : Int) (x y : α), 0 ≤ k1 → k1 < i → k1 < k2 → k2 < n →
        rd b k1 = some x → rd b k2 = some y → key x ≤ key y) →
      ∃ out log, selection_for fuel b i n = some out ∧
        selection_for_log fuel b i n = some (out, log) ∧
        log.length = (n - 1 - i).toNat ∧
        (∀ (t : Nat) (e : SelectionPass α), log[t]? = some e → e.i = i + t) ∧
        log.map (fun e => e.before) ++ [out] = b :: log.map (fun e => e.after) ∧
        (out.Perm b ∧ (∀ k : Int, n ≤ k → rd out k = rd b k) ∧
          ∀ (k1 k2 : Int) (x y : α), 0 ≤ k1 → k1 < k2 → k2 < n →
            rd out k1 = some x → rd out k2 = some y → key x ≤ key y) ∧
        ∀ e ∈ log, i ≤ e.i ∧ e.i ≤ n - 2 ∧
          (e.before.Perm b ∧ (∀ k : Int, n ≤ k → rd e.before k = rd b k) ∧
            ∀ (k1 k2 : Int) (x y : α), 0 ≤ k1 → k1 < e.i → k1 < k2 → k2 < n →
              rd e.before k1 = some x → rd e.before k2 = some y → key x ≤ key y) ∧
          ∃ x mv, rd e.before e.i = some x ∧ rd e.before e.min_idx = some mv ∧
            (∀ F, (n - e.i).toNat ≤ F →
              selection_scan F e.before (e.i + 1) n e.i = some e.min_idx) ∧
            e.i ≤ e.min_idx ∧ e.min_idx < n ∧
            (∀ k y, e.i ≤ k → k < n → rd e.before k = some y → key mv ≤ key y) ∧
            (∀ k y, e.i ≤ k → k < e.min_idx → rd e.before k = some y → key mv < key y) ∧
            (e.swapped = true ↔ key x ≠ key mv) ∧
            (e.swapped = true → ∃ b1, wr e.before e.i mv = some b1 ∧
              wr b1 e.min_idx x = some e.after) ∧
            (e.swapped = false → e.after = e.before) := by
  intro fuel
  induction fuel with
  | zero => intro b i hf; omega
  | succ f ih =>
    intro b i hf hi hn hinv
    by_cases hc : i ≤ n - 2
    · obtain ⟨x, hx⟩ := rd_isSome (a := b) (i := i) (by omega) (by omega)
      obtain ⟨m, mv, hscan, hm1, hm2, hmv, hmin, hleft⟩ :=
        selection_scan_spec b i n hi hn f (i + 1) i x (by omega) (by omega) (by omega)
          (by omega) hx
          (fun k y hk1 hk2 hy => by
            have : k = i := by omega
            subst this; rw [hx] at hy; cases hy; exact le_refl _)
          (fun k y hk1 hk2 hy => by omega)
      have hscanF : ∀ F, (n - i).toNat ≤ F → selection_scan F b (i + 1) n i = some m := by
        intro F hF
        obtain ⟨m1, mv1, hscan1, -⟩ :=
          selection_scan_spec b i n hi hn (min F f) (i + 1) i x
            (by rw [Nat.le_min]; omega) (by omega) (by omega)
            (by omega) hx
            (fun k y hk1 hk2 hy => by
              have : k = i := by omega
              subst this; rw [hx] at hy; cases hy; exact le_refl _)
            (fun k y hk1 hk2 hy => by omega)
        have e1 := selection_scan_mono b n _ _ _ _ hscan1 f (Nat.min_le_right _ _)
        rw [hscan] at e1; cases e1
        exact selection_scan_mono b n _ _ _ _ hscan1 F (Nat.min_le_left _ _)
      obtain ⟨b2, hbody, hp2, hf2, hinv2⟩ :=
        selection_body_spec n b i f hi hc hn (by omega) hinv
      have hlen2 : n ≤ b2.length := by rw [hp2.length_eq]; exact hn
      obtain ⟨out, log, hrun, hlog, hlen, hidx, hchain, ⟨hpo, hfo, hso⟩, hent⟩ :=
        ih b2 (i + 1) (by omega) (by omega) hlen2 hinv2
      have hent2 : ∀ e ∈ log, i ≤ e.i ∧ e.i ≤ n - 2 ∧
          (e.before.Perm b ∧ (∀ k : Int, n ≤ k → rd e.before k = rd b k) ∧
            ∀ (k1 k2 : Int) (x y : α), 0 ≤ k1 → k1 < e.i → k1 < k2 → k2 < n →
              rd e.before k1 = some x → rd e.before k2 = some y → key x ≤ key y) ∧
          ∃ x mv, rd e.before e.i = some x ∧ rd e.before e.min_idx = some mv ∧
            (∀ F, (n - e.i).toNat ≤ F →
              selection_scan F e.before (e.i + 1) n e.i = some e.min_idx) ∧
            e.i ≤ e.min_idx ∧ e.min_idx < n ∧
            (∀ k y, e.i ≤ k → k < n → rd e.before k = some y → key mv ≤ key y) ∧
            (∀ k y, e.i ≤ k → k < e.min_idx → rd e.before k = some y → key mv < key y) ∧
            (e.swapped = true ↔ key x ≠ key mv) ∧
            (e.swapped = true → ∃ b1, wr e.before e.i mv = some b1 ∧
              wr b1 e.min_idx x = some e.after) ∧
            (e.swapped = false → e.after = e.before) := by
        intro e he
        obtain ⟨h1, h2, ⟨h3, h4, h5⟩, h6⟩ := hent e he
        exact ⟨by omega, h2, ⟨h3.trans hp2, fun k hk => by rw [h4 k hk, hf2 k hk], h5⟩, h6⟩
      have hidx2 : ∀ (e0 : SelectionPass α), e0.i = i →
          ∀ (t : Nat) (e : SelectionPass α), (e0 :: log)[t]? = some e → e.i = i + t := by
        intro e0 he0 t e het
        cases t with
        | zero =>
          simp only [List.getElem?_cons_zero, Option.some.injEq] at het
          subst het; simp [he0]
        | succ t =>
          simp only [List.getElem?_cons_succ] at het
          rw [hidx t e het]; push_cast; omega
      have hlen3 : (log.length + 1 : Nat) = (n - 1 - i).toNat := by omega
      by_cases hne : key x ≠ key mv
      · obtain ⟨b1, hb1⟩ : ∃ b1, wr b i mv = some b1 := ⟨_, wr_isSome mv hi (by omega)⟩
        have l1 := wr_length hb1
        obtain ⟨b3, hb3⟩ : ∃ b3, wr b1 m x = some b3 :=
          ⟨_, wr_isSome x (by omega) (by omega)⟩
        have hbe : b3 = b2 := by
          simp only [selection_body, hscan, hx, hmv, Option.some_bind, if_pos hne, hb1,
            hb3, Option.some.injEq] at hbody
          exact hbody
        subst hbe
        refine ⟨out, ⟨i, b, m, true, b3⟩ :: log, ?_, ?_, ?_, ?_, ?_,
          ⟨hpo.trans hp2, fun k hk => by rw [hfo k hk, hf2 k hk], hso⟩, ?_⟩
        · simp only [selection_for, if_pos hc, hscan, hx, hmv, Option.some_bind, if_pos hne,
            hb1, hb3, hrun]
        · simp only [selection_for_log, if_pos hc, hscan, hx, hmv, Option.some_bind,
            if_pos hne, hb1, hb3, hlog]
        · simp only [List.length_cons, hlen]; omega
        · exact hidx2 _ rfl
        · simp only [List.map_cons, List.cons_append, hchain]
        · intro e he
          rcases List.mem_cons.1 he with he | he
          · subst he
            exact ⟨le_refl _, hc, ⟨List.Perm.refl _, fun _ _ => rfl, hinv⟩, x, mv, hx, hmv,
              hscanF, hm1, hm2, hmin, hleft, ⟨fun _ => hne, fun _ => rfl⟩,
              fun _ => ⟨b1, hb1, hb3⟩, fun h => (by cases h)⟩
          · exact hent2 e he
      · have hbe : b = b2 := by
          simp only [selection_body, hscan, hx, hmv, Option.some_bind, if_neg hne,
            Option.some.injEq] at hbody
          exact hbody
        subst hbe
        refine ⟨out, ⟨i, b, m, false, b⟩ :: log, ?_, ?_, ?_, ?_, ?_,
          ⟨hpo, hfo, hso⟩, ?_⟩
        · simp only [selection_for, if_pos hc, hscan, hx, hmv, Option.some_bind, if_neg hne,
            hrun]
        · simp only [selection_for_log, if_pos hc, hscan, hx, hmv, Option.some_bind,
            if_neg hne, hlog]
        · simp only [List.length_cons, hlen]; omega
        · exact hidx2 _ rfl
        · simp only [List.map_cons, List.cons_append, hchain]
        · intro e he
          rcases List.mem_cons.1 he with he | he
          · subst he
            exact ⟨le_refl _, hc, ⟨List.Perm.refl _, fun _ _ => rfl, hinv⟩, x, mv, hx, hmv,
              hscanF, hm1, hm2, hmin, hleft, ⟨fun h => (by cases h), fun h => absurd h hne⟩,
              fun h => (by cases h), fun _ => rfl⟩
          · exact hent2 e he
    · refine ⟨b, [], ?_, ?_, ?_, ?_, ?_, ⟨List.Perm.refl _, fun _ _ => rfl, ?_⟩, ?_⟩
      · simp only [selection_for, if_neg hc]
      · simp only [selection_for_log, if_neg hc]
      · simp only [List.length_nil]; omega
      · intro t e h; simp at h
      · simp
      · intro k1 k2 x y h0 h12 h2 hx hy
        exact hinv k1 k2 x y h0 (by omega) h12 h2 hx hy
      · intro e he; simp at he

end Selection

/-! ## Merge and merge sort -/

section Merge

variable {α : Type} [Elem α]

theorem merge_for_left {a a1 L R : List α} {i j k r : Int} {x y : α} (f : Nat) (hk : k ≤ r)
    (hx : rd L i = some x) (hy : rd R j = some y) (hle : key x ≤ key y)
    (hw : wr a k x = some a1) :
    merge_for (f + 1) a L R i j k r = merge_for f a1 L R (i + 1) j (k + 1) r := by
  simp [merge_for, hk, hx, hy, hle, hw]

theorem merge_for_right {a a1 L R : List α} {i j k r : Int} {x y : α} (f : Nat) (hk : k ≤ r)
    (hx : rd L i = some x) (hy : rd R j = some y) (hle : ¬ key x ≤ key y)
    (hw : wr a k y = some a1) :
    merge_for (f + 1) a L R i j k r = merge_for f a1 L R i (j + 1) (k + 1) r := by
  simp [merge_for, hk, hx, hy, hle, hw]

theorem merge_for_done (a L R : List α) (i j : Int) {k r : Int} (f : Nat) (hk : ¬ k ≤ r) :
    merge_for (f + 1) a L R i j k r = some a := by
  simp [merge_for, hk]

theorem merge_for_spec (L R : List α) (r : Int) (n : Nat) :
    ∀ (fuel : Nat) (X Y0 T A M C Ld Rd : List α) (i j k : Int),
      X.length + Y0.length = n → n + 2 ≤ fuel →
      k = A.length → M.length = X.length + (Y0 ++ T).length →
      r + 1 = k + M.length →
      L = Ld ++ X ++ [top] → i = Ld.length →
      R = Rd ++ (Y0 ++ T) ++ [top] → j = Rd.length →
      (∀ x ∈ X, key x ≤ INT_MAX) → (∀ y ∈ Y0, key y < INT_MAX) → (T = [] ∨ T = [top]) →
      merge_for fuel (A ++ M ++ C) L R i j k r
        = some (A ++ List.merge X (Y0 ++ T) keyLE ++ C) := by
  induction n with
  | zero =>
    intro fuel X Y0 T A M C Ld Rd i j k hn hf hk hM hr hL hi hR hj hX hY hT
    obtain ⟨f, rfl⟩ : ∃ f, fuel = f + 2 := ⟨fuel - 2, by omega⟩
    have hX0 : X = [] := List.length_eq_zero.1 (by omega)
    have hY0 : Y0 = [] := List.length_eq_zero.1 (by omega)
    subst hX0 hY0
    rcases hT with rfl | rfl
    · have hM0 : M = [] := List.length_eq_zero.1 (by simpa using hM)
      subst hM0
      rw [merge_for_done _ _ _ _ _ _ (by simp at hr; omega)]
      simp
    · obtain ⟨m, rfl⟩ : ∃ m, M = [m] := List.length_eq_one.1 (by simpa using hM)
      have hx : rd L i = some top := by rw [hL]; simpa using rd_mid Ld top [] hi
      have hy : rd R j = some top := by rw [hR]; simpa using rd_mid Rd top [top] hj
      have hw : wr (A ++ [m] ++ C) k top = some (A ++ [top] ++ C) := by
        simpa using wr_mid A m C top hk
      rw [merge_for_left _ (by simp at hr; omega) hx hy (le_refl _) hw,
        merge_for_done _ _ _ _ _ _ (by simp at hr; omega)]
      simp
  | succ n ih =>
    intro fuel X Y0 T A M C Ld Rd i j k hn hf hk hM hr hL hi hR hj hX hY hT
    obtain ⟨f, rfl⟩ : ∃ f, fuel = f + 1 := ⟨fuel - 1, by omega⟩
    obtain ⟨m, M, rfl⟩ : ∃ m M1, M = m :: M1 := by
      cases M with
      | nil => simp at hM; omega
      | cons m M1 => exact ⟨m, M1, rfl⟩
    have hkr : k ≤ r := by simp at hr; omega
    have hwr : ∀ v, wr (A ++ m :: M ++ C) k v = some ((A ++ [v]) ++ M ++ C) := by
      intro v
      have := wr_mid A m (M ++ C) v hk
      simpa using this
    cases X with
    | nil =>
      cases Y0 with
      | nil => simp at hn
      | cons y Y0 =>
        have hx : rd L i = some top := by rw [hL]; simpa using rd_mid Ld top [] hi
        have hy : rd R j = some y := by
          rw [hR]; simpa using rd_mid Rd y (Y0 ++ (T ++ [top])) hj
        have hlt : ¬ key (top : α) ≤ key y := by
          have := hY y (by simp)
          rw [Elem.key_top]; omega
        rw [merge_for_right _ hkr hx hy hlt (hwr y)]
        rw [ih f [] Y0 T (A ++ [y]) M C Ld (Rd ++ [y]) i (j + 1) (k + 1)
          (by simpa using hn) (by omega) (by simp; omega) (by simpa using hM)
          (by simp at hr ⊢; omega) hL hi (by rw [hR]; simp) (by simp; omega) hX
          (fun z hz => hY z (by simp [hz])) hT]
        simp
    | cons x X =>
      have hx : rd L i = some x := by
        rw [hL]; simpa using rd_mid Ld x (X ++ [top]) hi
      cases Y0 with
      | nil =>
        have hy : rd R j = some top := by
          rw [hR]
          rcases hT with rfl | rfl
          · simpa using rd_mid Rd top [] hj
          · simpa using rd_mid Rd top [top] hj
        have hle : key x ≤ key (top : α) := by
          rw [Elem.key_top]; exact hX x (by simp)
        rw [merge_for_left _ hkr hx hy hle (hwr x)]
        rw [ih f X [] T (A ++ [x]) M C (Ld ++ [x]) Rd (i + 1) j (k + 1)
          (by simpa using hn) (by omega) (by simp; omega) (by simp at hM ⊢; omega)
          (by simp at hr ⊢; omega) (by rw [hL]; simp) (by simp; omega) hR hj
          (fun z hz => hX z (by simp [hz])) hY hT]
        rcases hT with rfl | rfl
        · simp
        · have : keyLE x (top : α) = true := by simpa [keyLE] using hle
          simp [List.cons_merge_cons_pos, this]
      | cons y Y0 =>
        have hy : rd R j = some y := by
          rw [hR]; simpa using rd_mid Rd y (Y0 ++ (T ++ [top])) hj
        by_cases hle : key x ≤ key y
        · rw [merge_for_left _ hkr hx hy hle (hwr x)]
          rw [ih f X (y :: Y0) T (A ++ [x]) M C (Ld ++ [x]) Rd (i + 1) j (k + 1)
            (by simp at hn ⊢; omega) (by omega) (by simp; omega) (by simp at hM ⊢; omega)
            (by simp at hr ⊢; omega) (by rw [hL]; simp) (by simp; omega) hR hj
            (fun z hz => hX z (by simp [hz])) hY hT]
          have : keyLE x y = true := by simpa [keyLE] using hle
          simp [List.cons_merge_cons_pos, this]
        · rw [merge_for_right _ hkr hx hy hle (hwr y)]
          rw [ih f (x :: X) Y0 T (A ++ [y]) M C Ld (Rd ++ [y]) i (j + 1) (k + 1)
            (by simp at hn ⊢; omega) (by omega) (by simp; omega) (by simp at hM ⊢; omega)
            (by simp at hr ⊢; omega) hL hi (by rw [hR]; simp) (by simp; omega) hX
            (fun z hz => hY z (by simp [hz])) hT]
          have : ¬ keyLE x y = true := by simpa [keyLE] using hle
          simp [List.cons_merge_cons_neg, this]

theorem merge_spec (fuel : Nat) (A X Y0 T C : List α) (p q r : Int) (hp : p = A.length)
    (hq : q + 1 = p + X.length) (hr : r = q + (Y0 ++ T).length)
    (hf : X.length + (Y0 ++ T).length + 2 ≤ fuel)
    (hX : ∀ x ∈ X, key x ≤ INT_MAX) (hY : ∀ y ∈ Y0, key y < INT_MAX)
    (hT : T = [] ∨ T = [top]) :
    merge fuel (A ++ X ++ (Y0 ++ T) ++ C) p q r
      = some (A ++ List.merge X (Y0 ++ T) keyLE ++ C) := by
  have hn1 : q - p + 1 = X.length := by omega
  have hn2 : r - q = (Y0 ++ T).length := by omega
  have hL1 := merge_copy_spec (A ++ X ++ (Y0 ++ T) ++ C) p X fuel A ((Y0 ++ T) ++ C) []
    (List.replicate (X.length + 1) top) 0 X.length (by omega) (by simp) (by omega) (by simp)
    (by simp) (by simp)
  have hR1 := merge_copy_spec (A ++ X ++ (Y0 ++ T) ++ C) (q + 1) (Y0 ++ T) fuel (A ++ X) C []
    (List.replicate ((Y0 ++ T).length + 1) top) 0 (Y0 ++ T).length (by omega) (by simp)
    (by simp; omega) (by simp) (by simp) (by simp)
  have dL : List.drop X.length (List.replicate (X.length + 1) (top : α)) = [top] := by
    simp [List.drop_replicate]
  have dR : List.drop (Y0 ++ T).length (List.replicate ((Y0 ++ T).length + 1) (top : α))
      = [top] := by
    simp [List.drop_replicate]
  rw [dL] at hL1
  rw [dR] at hR1
  simp only [List.nil_append] at hL1 hR1
  have hwL : wr (X ++ [top]) (X.length : Int) (top : α) = some (X ++ [top]) :=
    wr_mid X top [] top rfl
  have hwR : wr ((Y0 ++ T) ++ [top]) ((Y0 ++ T).length : Int) (top : α)
      = some ((Y0 ++ T) ++ [top]) :=
    wr_mid (Y0 ++ T) top [] top rfl
  have hfor := merge_for_spec (X ++ [top]) ((Y0 ++ T) ++ [top]) r (X.length + Y0.length) fuel
    X Y0 T A (X ++ (Y0 ++ T)) C [] [] 0 0 p rfl (by simp at hf ⊢; omega) hp (by simp)
    (by simp at hr ⊢; omega) (by simp) (by simp) (by simp) (by simp) hX hY hT
  have e1 : (q - p + 1 + 1).toNat = X.length + 1 := by omega
  have e2 : (r - q + 1).toNat = (Y0 ++ T).length + 1 := by omega
  unfold merge
  simp only [hn1, hn2]
  have e3 : ((X.length : Int) + 1).toNat = X.length + 1 := by omega
  have e4 : (((Y0 ++ T).length : Int) + 1).toNat = (Y0 ++ T).length + 1 := by omega
  rw [e3, e4, hL1, Option.some_bind, hR1, Option.some_bind, hwL, Option.some_bind, hwR,
    Option.some_bind]
  rw [← hfor]
  simp

theorem keyLE_trans (x y z : α) (h1 : keyLE x y = true) (h2 : keyLE y z = true) :
    keyLE x z = true := by
  simp only [keyLE, decide_eq_true_eq] at *
  omega

theorem keyLE_total (x y : α) : (keyLE x y || keyLE y x) = true := by
  simp only [keyLE, Bool.or_eq_true, decide_eq_true_eq]
  omega

theorem merge_keySorted {X Y : List α} (hX : KeySorted X) (hY : KeySorted Y) :
    KeySorted (List.merge X Y keyLE) := by
  have h := @List.sorted_merge _ keyLE keyLE_trans keyLE_total X Y
    (by simpa [KeySorted, keyLE] using hX) (by simpa [KeySorted, keyLE] using hY)
  simpa [KeySorted, keyLE] using h

theorem merge_withKey (k : Int) (X Y : List α) (hX : KeySorted X) :
    withKey k (List.merge X Y keyLE) = withKey k X ++ withKey k Y := by
  induction X generalizing Y with
  | nil => simp [withKey]
  | cons x X ihX =>
    induction Y with
    | nil => simp [withKey]
    | cons y Y ihY =>
      have hX' : KeySorted X := (List.pairwise_cons.1 hX).2
      by_cases hle : key x ≤ key y
      · have : keyLE x y = true := by simpa [keyLE] using hle
        rw [List.cons_merge_cons_pos _ _ _ this]
        rw [show x :: List.merge X (y :: Y) keyLE = [x] ++ List.merge X (y :: Y) keyLE by simp,
          withKey_append, ihX _ hX', show x :: X = [x] ++ X by simp, withKey_append]
        simp
      · have : ¬ keyLE x y = true := by simpa [keyLE] using hle
        rw [List.cons_merge_cons_neg _ _ _ this]
        rw [show y :: List.merge (x :: X) Y keyLE = [y] ++ List.merge (x :: X) Y keyLE by simp,
          withKey_append, ihY, show y :: Y = [y] ++ Y by simp, withKey_append]
        by_cases hk : key y = k
        · have h0 : withKey k (x :: X) = [] := by
            apply withKey_eq_nil_of_ne
            intro z hz
            rcases List.mem_cons.1 hz with rfl | hz
            · omega
            · have := (List.pairwise_cons.1 hX).1 z hz; omega
          rw [h0]; simp
        · have h0 : withKey k [y] = [] :=
            withKey_eq_nil_of_ne k [y] (fun z hz => by simp at hz; subst hz; exact hk)
          rw [h0]; simp

theorem withKey_perm (k : Int) {s t : List α} (h : s.Perm t) :
    (withKey k s).Perm (withKey k t) :=
  h.filter _

theorem SentinelSafe.perm {s t : List α} (h : s.Perm t) (hs : SentinelSafe s) :
    SentinelSafe t := by
  obtain ⟨h1, h2, h3⟩ := hs
  refine ⟨fun x hx => h1 x (h.mem_iff.2 hx), ?_, fun x hx => h3 x (h.mem_iff.2 hx)⟩
  rw [← (withKey_perm INT_MAX h).length_eq]; exact h2

theorem SentinelSafe.left {s t : List α} (h : SentinelSafe (s ++ t)) : SentinelSafe s := by
  obtain ⟨h1, h2, h3⟩ := h
  refine ⟨fun x hx => h1 x (by simp [hx]), ?_, fun x hx => h3 x (by simp [hx])⟩
  rw [withKey_append, List.length_append] at h2; omega

theorem SentinelSafe.right {s t : List α} (h : SentinelSafe (s ++ t)) : SentinelSafe t := by
  obtain ⟨h1, h2, h3⟩ := h
  refine ⟨fun x hx => h1 x (by simp [hx]), ?_, fun x hx => h3 x (by simp [hx])⟩
  rw [withKey_append, List.length_append] at h2; omega

theorem mem_withKey {k : Int} {s : List α} {x : α} : x ∈ withKey k s ↔ x ∈ s ∧ key x = k := by
  simp [withKey]

theorem sentinel_split {Y : List α} (hs : KeySorted Y) (h : SentinelSafe Y) :
    ∃ Y0 T, Y = Y0 ++ T ∧ (∀ y ∈ Y0, key y < INT_MAX) ∧ (T = [] ∨ T = [top]) := by
  obtain ⟨h1, h2, h3⟩ := h
  rcases List.eq_nil_or_concat Y with rfl | ⟨Y1, z, rfl⟩
  · exact ⟨[], [], rfl, by simp, Or.inl rfl⟩
  · rw [List.concat_eq_append] at *
    by_cases hz : key z < INT_MAX
    · refine ⟨Y1 ++ [z], [], by simp, ?_, Or.inl rfl⟩
      intro y hy
      have : key y ≤ key z := keySorted_le_getLast hs hy (by simp)
      omega
    · have hz1 : key z = INT_MAX := by
        have := h1 z (by simp); omega
      have hz2 : z = top := h3 z (by simp) hz1
      refine ⟨Y1, [z], rfl, ?_, Or.inr (by rw [hz2])⟩
      intro y hy
      by_contra hlt
      have hy1 : key y = INT_MAX := by
        have := h1 y (by simp [hy]); omega
      have hmem : y ∈ withKey INT_MAX Y1 := mem_withKey.2 ⟨hy, hy1⟩
      have hz3 : withKey INT_MAX [z] = [z] := by simp [withKey, hz1]
      rw [withKey_append, List.length_append, hz3] at h2
      have := List.length_pos_of_mem hmem
      simp only [List.length_singleton] at h2; omega

theorem midpoint_eq {p r : Int} (hp : 0 ≤ p) (hpr : p ≤ r) (hr : r ≤ 1073741824)
    (h : p < r ∨ r < 1073741824) : midpoint p r = (p + r) / 2 := by
  unfold midpoint wrap32
  have e : (p + r + 2147483648) % 4294967296 - 2147483648 = p + r := by omega
  rw [e, Int.tdiv_eq_ediv (by omega) (by omega)]

theorem merge_sort_spec :
    ∀ (fuel : Nat) (A S C : List α) (p r : Int), S.length + 3 ≤ fuel →
      p = A.length → r + 1 = p + S.length → r ≤ 1073741824 → SentinelSafe S →
      ∃ S1, merge_sort fuel (A ++ S ++ C) p r = some (A ++ S1 ++ C) ∧ S1.Perm S ∧
        KeySorted S1 ∧ ∀ k, withKey k S1 = withKey k S := by
  intro fuel
  induction fuel with
  | zero => intro A S C p r hf; omega
  | succ f ih =>
    intro A S C p r hf hp hr hbig hsafe
    by_cases hlt : p < r
    · have hq := midpoint_eq (p := p) (r := r) (by omega) (by omega) hbig (Or.inl hlt)
      obtain ⟨q, hqdef⟩ : ∃ q, q = midpoint p r := ⟨_, rfl⟩
      have hq1 : p ≤ q := by rw [hqdef, hq]; omega
      have hq2 : q < r := by rw [hqdef, hq]; omega
      obtain ⟨m, hm⟩ : ∃ m : Nat, (m : Int) = q - p + 1 := ⟨(q - p + 1).toNat, by omega⟩
      have hS : S = S.take m ++ S.drop m := (List.take_append_drop m S).symm
      have hl1 : (S.take m).length = m := by
        rw [List.length_take]; omega
      have hl2 : (S.drop m).length = S.length - m := List.length_drop _ _
      have hsafe' : SentinelSafe (S.take m ++ S.drop m) := by rw [← hS]; exact hsafe
      obtain ⟨X, hrun1, hpX, hsX, hkX⟩ := ih A (S.take m) (S.drop m ++ C) p q (by omega) hp
        (by omega) (by omega) hsafe'.left
      have hlX : X.length = m := by rw [hpX.length_eq, hl1]
      obtain ⟨Y, hrun2, hpY, hsY, hkY⟩ := ih (A ++ X) (S.drop m) C (q + 1) r (by omega)
        (by simp; omega) (by omega) hbig hsafe'.right
      have hlY : Y.length = S.length - m := by rw [hpY.length_eq, hl2]
      have hpXY : (X ++ Y).Perm S := by
        have := hpX.append hpY
        rwa [← hS] at this
      have hsXY : SentinelSafe (X ++ Y) := hsafe.perm hpXY.symm
      obtain ⟨Y0, T, hY, hY0, hT⟩ := sentinel_split hsY hsXY.right
      have hmerge := merge_spec f A X Y0 T C p q r hp (by omega) (by rw [← hY]; omega)
        (by rw [← hY]; omega) hsXY.left.1 hY0 hT
      rw [← hY] at hmerge
      refine ⟨List.merge X Y keyLE, ?_, ?_, merge_keySorted hsX hsY, ?_⟩
      · have e1 : A ++ S ++ C = A ++ S.take m ++ (S.drop m ++ C) := by
          rw [List.append_assoc A (S.take m), ← List.append_assoc (S.take m),
            List.take_append_drop, List.append_assoc]
        have e2 : A ++ X ++ (S.drop m ++ C) = A ++ X ++ S.drop m ++ C := by simp
        simp only [merge_sort, if_pos hlt]
        rw [← hqdef, e1, hrun1, Option.some_bind, e2, hrun2, Option.some_bind, hmerge]
      · exact (List.merge_perm_append keyLE).trans hpXY
      · intro k
        rw [merge_withKey k X Y hsX, hkX, hkY, ← withKey_append, ← hS]
    · have hlen : S.length ≤ 1 := by omega
      refine ⟨S, by simp [merge_sort, hlt], List.Perm.refl _, ?_, fun _ => rfl⟩
      unfold KeySorted
      match S, hlen with
      | [], _ => exact List.Pairwise.nil
      | [x], _ => exact List.pairwise_singleton _ _

theorem sentinelSafe_of_lt {s : List α} (h : ∀ x ∈ s, key x < INT_MAX) : SentinelSafe s := by
  refine ⟨fun x hx => le_of_lt (h x hx), ?_, fun x hx he => ?_⟩
  · rw [withKey_eq_nil_of_ne INT_MAX s (fun x hx => ne_of_lt (h x hx))]
    simp
  · have := h x hx; omega

theorem merge_none_of_neg (fuel : Nat) (a : List α) {p r : Int} (q : Int) (hp : p < 0)
    (hpr : p < r) : merge fuel a p q r = none := by
  unfold merge
  by_cases h1 : 0 < q - p + 1
  · simp [merge_copy_none a p fuel _ h1 (by omega : p + 0 < 0)]
  · have h2 : (0 : Int) < r - q := by omega
    simp only [merge_copy_none a (q + 1) fuel _ h2 (by omega)]
    cases merge_copy fuel a p 0 (q - p + 1) (List.replicate (q - p + 1 + 1).toNat top) <;> rfl

theorem merge_sort_none_of_neg (fuel : Nat) (a : List α) {p r : Int} (hp : p < 0)
    (hpr : p < r) : merge_sort fuel a p r = none := by
  cases fuel with
  | zero => rfl
  | succ f =>
    simp only [merge_sort, if_pos hpr]
    cases merge_sort f a p (midpoint p r) with
    | none => rfl
    | some a1 =>
      simp only [Option.some_bind]
      cases merge_sort f a1 (midpoint p r + 1) r with
      | none => rfl
      | some a2 => simp only [Option.some_bind]; exact merge_none_of_neg f a2 _ hp hpr

theorem merge_sort_overflow (fuel : Nat) (a : List α) :
    merge_sort fuel a 1073741824 1073741825 = none := by
  cases fuel with
  | zero => rfl
  | succ f =>
    have hm : midpoint 1073741824 1073741825 = -1073741823 := by decide
    simp only [merge_sort, hm]
    rw [if_pos (by decide)]
    cases merge_sort f a 1073741824 (-1073741823) with
    | none => rfl
    | some a1 =>
      simp only [Option.some_bind]
      rw [merge_sort_none_of_neg f a1 (by decide) (by decide)]
      rfl

theorem merge_sort_none_right {p r p1 : Int} (hpr : p < r) (hq : midpoint p r + 1 = p1)
    (h : ∀ (fuel : Nat) (a : List α), merge_sort fuel a p1 r = none) :
    ∀ (fuel : Nat) (a : List α), merge_sort fuel a p r = none := by
  intro fuel a
  cases fuel with
  | zero => rfl
  | succ f =>
    simp only [merge_sort, if_pos hpr, hq]
    cases merge_sort f a p (midpoint p r) with
    | none => rfl
    | some a1 => simp only [Option.some_bind, h f a1]; rfl

/-- The calls `merge_sort(a, 0, 2^30 + 1)` descend along the right halves to the range
`[2^30, 2^30 + 1]`, whose midpoint sum wraps. -/
theorem merge_sort_overflow_whole (fuel : Nat) (a : List α) :
    merge_sort fuel a 0 1073741825 = none := by
  have h29 : ∀ (fuel : Nat) (a : List α), merge_sort fuel a 1073741824 1073741825 = none :=
    fun fuel a => merge_sort_overflow fuel a
  have h28 : ∀ (fuel : Nat) (a : List α), merge_sort fuel a 1073741822 1073741825 = none :=
    merge_sort_none_right (by decide) (by decide) h29
  have h27 : ∀ (fuel : Nat) (a : List α), merge_sort fuel a 1073741818 1073741825 = none :=
    merge_sort_none_right (by decide) (by decide) h28
  have h26 : ∀ (fuel : Nat) (a : List α), merge_sort fuel a 1073741810 1073741825 = none :=
    merge_sort_none_right (by decide) (by decide) h27
  have h25 : ∀ (fuel : Nat) (a : List α), merge_sort fuel a 1073741794 1073741825 = none :=
    merge_sort_none_right (by decide) (by decide) h26
  have h24 : ∀ (fuel : Nat) (a : List α), merge_sort fuel a 1073741762 1073741825 = none :=
    merge_sort_none_right (by decide) (by decide) h25
  have h23 : ∀ (fuel : Nat) (a : List α), merge_sort fuel a 1073741698 1073741825 = none :=
    merge_sort_none_right (by decide) (by decide) h24
  have h22 : ∀ (fuel : Nat) (a : List α), merge_sort fuel a 1073741570 1073741825 = none :=
    merge_sort_none_right (by decide) (by decide) h23
  have h21 : ∀ (fuel : Nat) (a : List α), merge_sort fuel a 1073741314 1073741825 = none :=
    merge_sort_none_right (by decide) (by decide) h22
  have h20 : ∀ (fuel : Nat) (a : List α), merge_sort fuel a 1073740802 1073741825 = none :=
    merge_sort_none_right (by decide) (by decide) h21
  have h19 : ∀ (fuel : Nat) (a : List α), merge_sort fuel a 1073739778 1073741825 = none :=
    merge_sort_none_right (by decide) (by decide) h20
  have h18 : ∀ (fuel : Nat) (a : List α), merge_sort fuel a 1073737730 1073741825 = none :=
    merge_sort_none_right (by decide) (by decide) h19
  have h17 : ∀ (fuel : Nat) (a : List α), merge_sort fuel a 1073733634 1073741825 = none :=
    merge_sort_none_right (by decide) (by decide) h18
  have h16 : ∀ (fuel : Nat) (a : List α), merge_sort fuel a 1073725442 1073741825 = none :=
    merge_sort_none_right (by decide) (by decide) h17
  have h15 : ∀ (fuel : Nat) (a : List α), merge_sort fuel a 1073709058 1073741825 = none :=
    merge_sort_none_right (by decide) (by decide) h16
  have h14 : ∀ (fuel : Nat) (a : List α), merge_sort fuel a 1073676290 1073741825 = none :=
    merge_sort_none_right (by decide) (by decide) h15
  have h13 : ∀ (fuel : Nat) (a : List α), merge_sort fuel a 1073610754 1073741825 = none :=
    merge_sort_none_right (by decide) (by decide) h14
  have h12 : ∀ (fuel : Nat) (a : List α), merge_sort fuel a 1073479682 1073741825 = none :=
    merge_sort_none_right (by decide) (by decide) h13
  have h11 : ∀ (fuel : Nat) (a : List α), merge_sort fuel a 1073217538 1073741825 = none :=
    merge_sort_none_right (by decide) (by decide) h12
  have h10 : ∀ (fuel : Nat) (a : List α), merge_sort fuel a 1072693250 1073741825 = none :=
    merge_sort_none_right (by decide) (by decide) h11
  have h9 : ∀ (fuel : Nat) (a : List α), merge_sort fuel a 1071644674 1073741825 = none :=
    merge_sort_none_right (by decide) (by decide) h10
  have h8 : ∀ (fuel : Nat) (a : List α), merge_sort fuel a 1069547522 1073741825 = none :=
    merge_sort_none_right (by decide) (by decide) h9
  have h7 : ∀ (fuel : Nat) (a : List α), merge_sort fuel a 1065353218 1073741825 = none :=
    merge_sort_none_right (by decide) (by decide) h8
  have h6 : ∀ (fuel : Nat) (a : List α), merge_sort fuel a 1056964610 1073741825 = none :=
    merge_sort_none_right (by decide) (by decide) h7
  have h5 : ∀ (fuel : Nat) (a : List α), merge_sort fuel a 1040187394 1073741825 = none :=
    merge_sort_none_right (by decide) (by decide) h6
  have h4 : ∀ (fuel : Nat) (a : List α), merge_sort fuel a 1006632962 1073741825 = none :=
    merge_sort_none_right (by decide) (by decide) h5
  have h3 : ∀ (fuel : Nat) (a : List α), merge_sort fuel a 939524098 1073741825 = none :=
    merge_sort_none_right (by decide) (by decide) h4
  have h2 : ∀ (fuel : Nat) (a : List α), merge_sort fuel a 805306370 1073741825 = none :=
    merge_sort_none_right (by decide) (by decide) h3
  have h1 : ∀ (fuel : Nat) (a : List α), merge_sort fuel a 536870913 1073741825 = none :=
    merge_sort_none_right (by decide) (by decide) h2
  have h0 : ∀ (fuel : Nat) (a : List α), merge_sort fuel a 0 1073741825 = none :=
    merge_sort_none_right (by decide) (by decide) h1
  exact h0 fuel a

theorem merge_for_log_of (L R : List α) (r : Int) :
    ∀ (fuel : Nat) (a out : List α) (i j k : Int),
      merge_for fuel a L R i j k r = some out →
      ∃ log, merge_for_log fuel a L R i j k r = some (out, log) ∧
        ∀ c ∈ log, (∃ x, rd L c.1 = some x) ∧ (∃ y, rd R c.2 = some y) := by
  intro fuel
  induction fuel with
  | zero => intro a out i j k h; cases h
  | succ f ih =>
    intro a out i j k h
    simp only [merge_for] at h
    simp only [merge_for_log]
    split at h
    · rename_i hk
      rw [if_pos hk]
      cases hx : rd L i with
      | none => rw [hx] at h; cases h
      | some x =>
        rw [hx] at h
        simp only [Option.some_bind] at h ⊢
        cases hy : rd R j with
        | none => rw [hy] at h; cases h
        | some y =>
          rw [hy] at h
          simp only [Option.some_bind] at h ⊢
          split at h
          · rename_i hle
            rw [if_pos hle]
            cases hw : wr a k x with
            | none => rw [hw] at h; cases h
            | some a1 =>
              rw [hw] at h
              simp only [Option.some_bind] at h ⊢
              obtain ⟨log, hl, hb⟩ := ih _ _ _ _ _ h
              rw [hl]
              refine ⟨_, rfl, ?_⟩
              intro c hc
              rcases List.mem_cons.1 hc with rfl | hc
              · exact ⟨⟨x, hx⟩, ⟨y, hy⟩⟩
              · exact hb c hc
          · rename_i hle
            rw [if_neg hle]
            cases hw : wr a k y with
            | none => rw [hw] at h; cases h
            | some a1 =>
              rw [hw] at h
              simp only [Option.some_bind] at h ⊢
              obtain ⟨log, hl, hb⟩ := ih _ _ _ _ _ h
              rw [hl]
              refine ⟨_, rfl, ?_⟩
              intro c hc
              rcases List.mem_cons.1 hc with rfl | hc
              · exact ⟨⟨x, hx⟩, ⟨y, hy⟩⟩
              · exact hb c hc
    · rename_i hk
      cases h
      rw [if_neg hk]
      exact ⟨[], rfl, fun c hc => by simp at hc⟩

/-- Whenever `merge` returns, every read of its loop found `L[i]` inside the `n1 + 1`
slots of `L` and `R[j]` inside the `n2 + 1` slots of `R`. -/
theorem merge_log_of (fuel : Nat) (a out : List α) (p q r : Int)
    (h : merge fuel a p q r = some out) :
    ∃ log, merge_log fuel a p q r = some (out, log) ∧
      ∀ c ∈ log, 0 ≤ c.1 ∧ c.1 ≤ q - p + 1 ∧ 0 ≤ c.2 ∧ c.2 ≤ r - q := by
  unfold merge at h
  unfold merge_log
  simp only at h ⊢
  cases h1 : merge_copy fuel a p 0 (q - p + 1) (List.replicate (q - p + 1 + 1).toNat top) with
  | none => rw [h1] at h; cases h
  | some L1 =>
    rw [h1] at h
    simp only [Option.some_bind] at h ⊢
    cases h2 : merge_copy fuel a (q + 1) 0 (r - q) (List.replicate (r - q + 1).toNat top) with
    | none => rw [h2] at h; cases h
    | some R1 =>
      rw [h2] at h
      simp only [Option.some_bind] at h ⊢
      cases h3 : wr L1 (q - p + 1) top with
      | none => rw [h3] at h; cases h
      | some L =>
        rw [h3] at h
        simp only [Option.some_bind] at h ⊢
        cases h4 : wr R1 (r - q) top with
        | none => rw [h4] at h; cases h
        | some R =>
          rw [h4] at h
          simp only [Option.some_bind] at h ⊢
          have lL : L.length = (q - p + 1 + 1).toNat := by
            rw [wr_length h3, merge_copy_length _ _ _ _ _ _ _ h1, List.length_replicate]
          have lR : R.length = (r - q + 1).toNat := by
            rw [wr_length h4, merge_copy_length _ _ _ _ _ _ _ h2, List.length_replicate]
          obtain ⟨log, hl, hb⟩ := merge_for_log_of L R r fuel a out 0 0 p h
          refine ⟨log, hl, ?_⟩
          intro c hc
          obtain ⟨⟨x, hx⟩, ⟨y, hy⟩⟩ := hb c hc
          have bx := rd_bounds hx
          have by1 := rd_bounds hy
          omega

theorem midpoint_in_range {p r : Int} (hp : 0 ≤ p) (hpr : p < r) (hsum : p + r ≤ INT_MAX) :
    midpoint p r = (p + r) / 2 ∧ p ≤ midpoint p r ∧ midpoint p r < r := by
  have hm : midpoint p r = (p + r) / 2 := by
    unfold midpoint wrap32
    unfold INT_MAX at hsum
    have e : (p + r + 2147483648) % 4294967296 - 2147483648 = p + r := by omega
    rw [e, Int.tdiv_eq_ediv (by omega) (by omega)]
  rw [hm]
  omega

end Merge

/-! ## Partition and quick sort -/

section Quick

variable {α : Type} [Elem α]

theorem scan_up_spec (a : List α) (pivot : α) (s : Int) (xs : α) (hs : rd a s = some xs)
    (hxs : key pivot ≤ key xs) :
    ∀ (fuel : Nat) (i : Int), (s - i).toNat ≤ fuel → -1 ≤ i → i < s →
      ∃ i1 x1, scan_up fuel a i pivot = some i1 ∧ i < i1 ∧ i1 ≤ s ∧
        rd a i1 = some x1 ∧ key pivot ≤ key x1 ∧
        ∀ k x, i < k → k < i1 → rd a k = some x → key x < key pivot := by
  intro fuel
  induction fuel with
  | zero => intro i hf; omega
  | succ f ih =>
    intro i hf hi his
    have hb := rd_bounds hs
    obtain ⟨x, hx⟩ := rd_isSome (a := a) (i := i + 1) (by omega) (by omega)
    simp only [scan_up, hx, Option.some_bind]
    by_cases hlt : key x < key pivot
    · rw [if_pos hlt]
      have hne : i + 1 ≠ s := by
        intro h; rw [h, hs] at hx; cases hx; omega
      obtain ⟨i1, x1, hrun, h1, h2, h3, h4, h5⟩ := ih (i + 1) (by omega) (by omega) (by omega)
      refine ⟨i1, x1, hrun, by omega, h2, h3, h4, ?_⟩
      intro k y hk1 hk2 hy
      by_cases hk : k = i + 1
      · subst hk; rw [hx] at hy; cases hy; exact hlt
      · exact h5 k y (by omega) hk2 hy
    · rw [if_neg hlt]
      exact ⟨i + 1, x, rfl, by omega, by omega, hx, by omega, fun k y hk1 hk2 _ => by omega⟩

theorem scan_down_spec (a : List α) (pivot : α) (s : Int) (xs : α) (hs : rd a s = some xs)
    (hxs : key xs ≤ key pivot) :
    ∀ (fuel : Nat) (j : Int), (j - s).toNat ≤ fuel → j ≤ a.length → s < j →
      ∃ j1 y1, scan_down fuel a j pivot = some j1 ∧ j1 < j ∧ s ≤ j1 ∧
        rd a j1 = some y1 ∧ key y1 ≤ key pivot ∧
        ∀ k x, j1 < k → k < j → rd a k = some x → key pivot < key x := by
  intro fuel
  induction fuel with
  | zero => intro j hf; omega
  | succ f ih =>
    intro j hf hj hsj
    have hb := rd_bounds hs
    obtain ⟨x, hx⟩ := rd_isSome (a := a) (i := j - 1) (by omega) (by omega)
    simp only [scan_down, hx, Option.some_bind]
    by_cases hlt : key x > key pivot
    · rw [if_pos hlt]
      have hne : j - 1 ≠ s := by
        intro h; rw [h, hs] at hx; cases hx; omega
      obtain ⟨j1, y1, hrun, h1, h2, h3, h4, h5⟩ := ih (j - 1) (by omega) (by omega) (by omega)
      refine ⟨j1, y1, hrun, by omega, h2, h3, h4, ?_⟩
      intro k y hk1 hk2 hy
      by_cases hk : k = j - 1
      · subst hk; rw [hx] at hy; cases hy; exact hlt
      · exact h5 k y hk1 (by omega) hy
    · rw [if_neg hlt]
      exact ⟨j - 1, x, rfl, by omega, by omega, hx, by omega, fun k y hk1 hk2 _ => by omega⟩

theorem partition_loop_spec (pivot : α) (l r : Int) (hl : 0 ≤ l) (hlr : l < r) :
    ∀ (fuel : Nat) (b : List α) (i j : Int), (j - i).toNat + 1 ≤ fuel → r < b.length →
      l - 1 ≤ i → i < j → j ≤ r + 1 →
      (∀ k x, l ≤ k → k ≤ i → rd b k = some x → key x ≤ key pivot) →
      (∀ k x, j ≤ k → k ≤ r → rd b k = some x → key pivot ≤ key x) →
      ((i = l - 1 ∧ j = r + 1 ∧ ∃ x, rd b l = some x ∧ key x = key pivot) ∨ (l ≤ i ∧ j ≤ r)) →
      ∃ out q, partition_loop fuel b i j pivot = some (out, q) ∧ out.Perm b ∧
        (∀ k : Int, k < l ∨ r < k → rd out k = rd b k) ∧ l ≤ q ∧ q < r ∧
        (∀ k x, l ≤ k → k ≤ q → rd out k = some x → key x ≤ key pivot) ∧
        (∀ k x, q < k → k ≤ r → rd out k = some x → key pivot ≤ key x) := by
  intro fuel
  induction fuel with
  | zero => intro b i j hf; omega
  | succ f ih =>
    intro b i j hf hr hi hij hj hlo hhi hcase
    -- the cells that stop the two scans
    obtain ⟨su, xu, hsu, hxu, hsu1, hsu2⟩ : ∃ su xu, rd b su = some xu ∧ key pivot ≤ key xu ∧
        i < su ∧ su ≤ j ∧ (i = l - 1 → su = l) := by
      rcases hcase with ⟨h1, h2, x, hx, hxk⟩ | ⟨h1, h2⟩
      · exact ⟨l, x, hx, by omega, by omega, by omega, fun _ => rfl⟩
      · obtain ⟨x, hx⟩ := rd_isSome (a := b) (i := j) (by omega) (by omega)
        exact ⟨j, x, hx, hhi j x (le_refl _) h2 hx, hij, le_refl _, fun h => by omega⟩
    obtain ⟨sd, xd, hsd, hxd, hsd1, hsd2⟩ : ∃ sd xd, rd b sd = some xd ∧ key xd ≤ key pivot ∧
        sd < j ∧ i ≤ sd ∧ l ≤ sd := by
      rcases hcase with ⟨h1, h2, x, hx, hxk⟩ | ⟨h1, h2⟩
      · exact ⟨l, x, hx, by omega, by omega, by omega, le_refl _⟩
      · obtain ⟨x, hx⟩ := rd_isSome (a := b) (i := i) (by omega) (by omega)
        exact ⟨i, x, hx, hlo i x h1 (le_refl _) hx, hij, le_refl _, h1⟩
    obtain ⟨i1, x1, hup, hu1, hu2, hu3, hu4, hu5⟩ :=
      scan_up_spec b pivot su xu hsu hxu f i (by omega) (by omega) hsu1
    obtain ⟨j1, y1, hdn, hd1, hd2, hd3, hd4, hd5⟩ :=
      scan_down_spec b pivot sd xd hsd hxd f j (by omega) (by omega) hsd1
    simp only [partition_loop, hup, hdn, Option.some_bind]
    by_cases hcross : i1 ≥ j1
    · rw [if_pos hcross]
      refine ⟨b, j1, rfl, List.Perm.refl _, fun _ _ => rfl, by omega, ?_, ?_, ?_⟩
      · rcases hcase with ⟨h1, h2, -⟩ | ⟨h1, h2⟩
        · have := hsu2.2 h1; omega
        · omega
      · intro k x hk1 hk2 hx
        by_cases h1 : k ≤ i
        · exact hlo k x hk1 h1 hx
        · by_cases h2 : k < i1
          · exact le_of_lt (hu5 k x (by omega) h2 hx)
          · have : k = j1 := by omega
            subst this; rw [hd3] at hx; cases hx; exact hd4
      · intro k x hk1 hk2 hx
        by_cases h1 : j ≤ k
        · exact hhi k x h1 hk2 hx
        · exact le_of_lt (hd5 k x hk1 (by omega) hx)
    · rw [if_neg hcross]
      have hi1 : l ≤ i1 := by omega
      have hj1 : j1 ≤ r := by omega
      obtain ⟨b1, hb1⟩ : ∃ b1, wr b i1 y1 = some b1 := ⟨_, wr_isSome y1 (by omega) (by omega)⟩
      have l1 := wr_length hb1
      obtain ⟨b2, hb2⟩ : ∃ b2, wr b1 j1 x1 = some b2 :=
        ⟨_, wr_isSome x1 (by omega) (by omega)⟩
      have l2 := wr_length hb2
      have hrd : ∀ k : Int, rd b2 k
          = if k = j1 then some x1 else if k = i1 then some y1 else rd b k := by
        intro k; rw [rd_wr hb2, rd_wr hb1]
      simp only [hu3, hd3, hb1, hb2, Option.some_bind]
      obtain ⟨out, q, hrun, hperm, hframe, hq1, hq2, hqlo, hqhi⟩ :=
        ih b2 i1 j1 (by omega) (by omega) (by omega) (by omega) (by omega)
          (by
            intro k x hk1 hk2 hx
            rw [hrd, if_neg (by omega)] at hx
            by_cases e : k = i1
            · rw [if_pos e] at hx; cases hx; exact hd4
            · rw [if_neg e] at hx
              by_cases h1 : k ≤ i
              · exact hlo k x hk1 h1 hx
              · exact le_of_lt (hu5 k x (by omega) (by omega) hx))
          (by
            intro k x hk1 hk2 hx
            rw [hrd] at hx
            by_cases e : k = j1
            · rw [if_pos e] at hx; cases hx; exact hu4
            · rw [if_neg e, if_neg (by omega)] at hx
              by_cases h1 : j ≤ k
              · exact hhi k x h1 hk2 hx
              · exact le_of_lt (hd5 k x (by omega) (by omega) hx))
          (Or.inr ⟨hi1, hj1⟩)
      refine ⟨out, q, hrun, hperm.trans (swap_perm hu3 hd3 hb1 hb2), ?_, hq1, hq2, hqlo, hqhi⟩
      intro k hk
      rw [hframe k hk, hrd, if_neg (by omega), if_neg (by omega)]

theorem partition_spec (a : List α) (l r : Int) (fuel : Nat) (hl : 0 ≤ l) (hlr : l < r)
    (hr : r < a.length) (hf : (r - l).toNat + 3 ≤ fuel) :
    ∃ pivot out q, rd a l = some pivot ∧ partition fuel a l r = some (out, q) ∧ out.Perm a ∧
      (∀ k : Int, k < l ∨ r < k → rd out k = rd a k) ∧ l ≤ q ∧ q < r ∧
      (∀ k x, l ≤ k → k ≤ q → rd out k = some x → key x ≤ key pivot) ∧
      (∀ k x, q < k → k ≤ r → rd out k = some x → key pivot ≤ key x) := by
  obtain ⟨pivot, hpv⟩ := rd_isSome (a := a) (i := l) hl (by omega)
  obtain ⟨out, q, hrun, h⟩ := partition_loop_spec pivot l r hl hlr fuel a (l - 1) (r + 1)
    (by omega) hr (le_refl _) (by omega) (le_refl _) (fun k x h1 h2 => by omega)
    (fun k x h1 h2 => by omega) (Or.inl ⟨rfl, rfl, pivot, hpv, rfl⟩)
  exact ⟨pivot, out, q, hpv, by simp [partition, hpv, hrun], h⟩

theorem quick_sort_pointwise :
    ∀ (fuel : Nat) (a : List α) (l r : Int), (r - l).toNat + 4 ≤ fuel →
      (l < r → 0 ≤ l ∧ r < a.length) →
      ∃ out, quick_sort fuel a l r = some out ∧ out.Perm a ∧
        (∀ k : Int, k < l ∨ r < k → rd out k = rd a k) ∧
        (∀ (k1 k2 : Int) (x y : α), l ≤ k1 → k1 < k2 → k2 ≤ r →
          rd out k1 = some x → rd out k2 = some y → key x ≤ key y) := by
  intro fuel
  induction fuel with
  | zero => intro a l r hf; omega
  | succ f ih =>
    intro a l r hf hb
    by_cases hlt : l < r
    · obtain ⟨hl, hr⟩ := hb hlt
      obtain ⟨pivot, a1, q, -, hpart, hp1, hf1, hq1, hq2, hlo, hhi⟩ :=
        partition_spec a l r f hl hlt hr (by omega)
      have len1 := hp1.length_eq
      obtain ⟨a2, hrun2, hp2, hf2, hs2⟩ := ih a1 l q (by omega) (fun _ => ⟨hl, by omega⟩)
      have len2 := hp2.length_eq
      obtain ⟨a3, hrun3, hp3, hf3, hs3⟩ := ih a2 (q + 1) r (by omega)
        (fun _ => ⟨by omega, by omega⟩)
      refine ⟨a3, ?_, (hp3.trans hp2).trans hp1, ?_, ?_⟩
      · simp only [quick_sort, if_pos hlt, hpart, Option.some_bind, hrun2, hrun3]
      · intro k hk
        rw [hf3 k (by omega), hf2 k (by omega), hf1 k hk]
      · intro k1 k2 x y h1 h12 h2 hx hy
        by_cases c1 : k2 ≤ q
        · rw [hf3 k1 (Or.inl (by omega))] at hx
          rw [hf3 k2 (Or.inl (by omega))] at hy
          exact hs2 k1 k2 x y h1 h12 c1 hx hy
        · by_cases c2 : q < k1
          · exact hs3 k1 k2 x y (by omega) h12 h2 hx hy
          · -- `k1` in the left part, `k2` in the right part
            rw [hf3 k1 (Or.inl (by omega))] at hx
            obtain ⟨k1', e1, e2, hx'⟩ :=
              rd_of_perm_frame hl (by omega) hp2 hf2 h1 (by omega) hx
            obtain ⟨k2', e3, e4, hy'⟩ :=
              rd_of_perm_frame (l := q + 1) (r := r) (by omega) (by omega) hp3 hf3
                (by omega) h2 hy
            rw [hf2 k2' (Or.inr (by omega))] at hy'
            exact le_trans (hlo k1' x e1 e2 hx') (hhi k2' y (by omega) e4 hy')
    · refine ⟨a, by simp [quick_sort, hlt], List.Perm.refl _, fun _ _ => rfl, ?_⟩
      intro k1 k2 x y h1 h12 h2
      omega

theorem scan_up_mono (a : List α) (pivot : α) :
    ∀ (fuel : Nat) (i res : Int), scan_up fuel a i pivot = some res →
      ∀ fuel1, fuel ≤ fuel1 → scan_up fuel1 a i pivot = some res := by
  intro fuel
  induction fuel with
  | zero => intro i res h; cases h
  | succ f ih =>
    intro i res h fuel1 hle
    obtain ⟨g, rfl⟩ : ∃ g, fuel1 = g + 1 := ⟨fuel1 - 1, by omega⟩
    simp only [scan_up] at h ⊢
    cases hx : rd a (i + 1) with
    | none => rw [hx] at h; cases h
    | some x =>
      rw [hx] at h
      simp only [Option.some_bind] at h ⊢
      split at h
      · rename_i hlt; rw [if_pos hlt]; exact ih _ _ h g (by omega)
      · rename_i hlt; rw [if_neg hlt]; exact h

theorem scan_down_mono (a : List α) (pivot : α) :
    ∀ (fuel : Nat) (j res : Int), scan_down fuel a j pivot = some res →
      ∀ fuel1, fuel ≤ fuel1 → scan_down fuel1 a j pivot = some res := by
  intro fuel
  induction fuel with
  | zero => intro j res h; cases h
  | succ f ih =>
    intro j res h fuel1 hle
    obtain ⟨g, rfl⟩ : ∃ g, fuel1 = g + 1 := ⟨fuel1 - 1, by omega⟩
    simp only [scan_down] at h ⊢
    cases hx : rd a (j - 1) with
    | none => rw [hx] at h; cases h
    | some x =>
      rw [hx] at h
      simp only [Option.some_bind] at h ⊢
      split at h
      · rename_i hlt; rw [if_pos hlt]; exact ih _ _ h g (by omega)
      · rename_i hlt; rw [if_neg hlt]; exact h

theorem partition_loop_mono (pivot : α) :
    ∀ (fuel : Nat) (a : List α) (i j : Int) (res : List α × Int),
      partition_loop fuel a i j pivot = some res →
      ∀ fuel1, fuel ≤ fuel1 → partition_loop fuel1 a i j pivot = some res := by
  intro fuel
  induction fuel with
  | zero => intro a i j res h; cases h
  | succ f ih =>
    intro a i j res h fuel1 hle
    obtain ⟨g, rfl⟩ : ∃ g, fuel1 = g + 1 := ⟨fuel1 - 1, by omega⟩
    simp only [partition_loop] at h ⊢
    cases hu : scan_up f a i pivot with
    | none => rw [hu] at h; cases h
    | some i1 =>
      rw [hu] at h
      rw [scan_up_mono a pivot f i i1 hu g (by omega)]
      simp only [Option.some_bind] at h ⊢
      cases hd : scan_down f a j pivot with
      | none => rw [hd] at h; cases h
      | some j1 =>
        rw [hd] at h
        rw [scan_down_mono a pivot f j j1 hd g (by omega)]
        simp only [Option.some_bind] at h ⊢
        split at h
        · rename_i hc; rw [if_pos hc]; exact h
        · rename_i hc
          rw [if_neg hc]
          cases hx : rd a i1 with
          | none => rw [hx] at h; cases h
          | some x =>
            rw [hx] at h
            simp only [Option.some_bind] at h ⊢
            cases hy : rd a j1 with
            | none => rw [hy] at h; cases h
            | some y =>
              rw [hy] at h
              simp only [Option.some_bind] at h ⊢
              cases h1 : wr a i1 y with
              | none => rw [h1] at h; cases h
              | some a1 =>
                rw [h1] at h
                simp only [Option.some_bind] at h ⊢
                cases h2 : wr a1 j1 x with
                | none => rw [h2] at h; cases h
                | some a2 =>
                  rw [h2] at h
                  simp only [Option.some_bind] at h ⊢
                  exact ih _ _ _ _ h g (by omega)

theorem partition_mono (a : List α) (l r : Int) (fuel fuel1 : Nat) (res : List α × Int)
    (h : partition fuel a l r = some res) (hle : fuel ≤ fuel1) :
    partition fuel1 a l r = some res := by
  unfold partition at h ⊢
  cases hx : rd a l with
  | none => rw [hx] at h; cases h
  | some pv =>
    rw [hx] at h
    simp only [Option.some_bind] at h ⊢
    exact partition_loop_mono pv fuel a _ _ res h fuel1 hle

theorem scan_up_log_of (a : List α) (pivot : α) :
    ∀ (fuel : Nat) (i i1 : Int), scan_up fuel a i pivot = some i1 →
      i < i1 ∧ ∃ log, scan_up_log fuel a i pivot = some (i1, log) ∧
        ∀ k ∈ log, i < k ∧ k ≤ i1 := by
  intro fuel
  induction fuel with
  | zero => intro i i1 h; cases h
  | succ f ih =>
    intro i i1 h
    simp only [scan_up] at h
    simp only [scan_up_log]
    cases hx : rd a (i + 1) with
    | none => rw [hx] at h; cases h
    | some x =>
      rw [hx] at h
      simp only [Option.some_bind] at h ⊢
      split at h
      · rename_i hlt
        obtain ⟨h1, log, hl, hb⟩ := ih _ _ h
        rw [if_pos hlt, hl]
        refine ⟨by omega, _, rfl, ?_⟩
        intro k hk
        rcases List.mem_cons.1 hk with rfl | hk
        · omega
        · have := hb k hk; omega
      · rename_i hlt
        cases h
        rw [if_neg hlt]
        exact ⟨by omega, _, rfl, fun k hk => by simp at hk; omega⟩

theorem scan_down_log_of (a : List α) (pivot : α) :
    ∀ (fuel : Nat) (j j1 : Int), scan_down fuel a j pivot = some j1 →
      j1 < j ∧ ∃ log, scan_down_log fuel a j pivot = some (j1, log) ∧
        ∀ k ∈ log, j1 ≤ k ∧ k < j := by
  intro fuel
  induction fuel with
  | zero => intro j j1 h; cases h
  | succ f ih =>
    intro j j1 h
    simp only [scan_down] at h
    simp only [scan_down_log]
    cases hx : rd a (j - 1) with
    | none => rw [hx] at h; cases h
    | some x =>
      rw [hx] at h
      simp only [Option.some_bind] at h ⊢
      split at h
      · rename_i hlt
        obtain ⟨h1, log, hl, hb⟩ := ih _ _ h
        rw [if_pos hlt, hl]
        refine ⟨by omega, _, rfl, ?_⟩
        intro k hk
        rcases List.mem_cons.1 hk with rfl | hk
        · omega
        · have := hb k hk; omega
      · rename_i hlt
        cases h
        rw [if_neg hlt]
        exact ⟨by omega, _, rfl, fun k hk => by simp at hk; omega⟩

theorem partition_loop_log_spec (pivot : α) (l r : Int) (hl : 0 ≤ l) (hlr : l < r) :
    ∀ (fuel : Nat) (b : List α) (i j : Int), (j - i).toNat + 1 ≤ fuel → r < b.length →
      l - 1 ≤ i → i < j → j ≤ r + 1 →
      (∀ k x, l ≤ k → k ≤ i → rd b k = some x → key x ≤ key pivot) →
      (∀ k x, j ≤ k → k ≤ r → rd b k = some x → key pivot ≤ key x) →
      ((i = l - 1 ∧ j = r + 1 ∧ ∃ x, rd b l = some x ∧ key x = key pivot) ∨ (l ≤ i ∧ j ≤ r)) →
      ∃ out q log, partition_loop_log fuel b i j pivot = some (out, q, log) ∧
        partition_loop fuel b i j pivot = some (out, q) ∧ ∀ k ∈ log, l ≤ k ∧ k ≤ r := by
  intro fuel
  induction fuel with
  | zero => intro b i j hf; omega
  | succ f ih =>
    intro b i j hf hr hi hij hj hlo hhi hcase
    obtain ⟨su, xu, hsu, hxu, hsu1, hsu2, hsu3⟩ : ∃ su xu, rd b su = some xu ∧
        key pivot ≤ key xu ∧ i < su ∧ su ≤ j ∧ su ≤ r := by
      rcases hcase with ⟨h1, h2, x, hx, hxk⟩ | ⟨h1, h2⟩
      · exact ⟨l, x, hx, by omega, by omega, by omega, by omega⟩
      · obtain ⟨x, hx⟩ := rd_isSome (a := b) (i := j) (by omega) (by omega)
        exact ⟨j, x, hx, hhi j x (le_refl _) h2 hx, hij, le_refl _, h2⟩
    obtain ⟨sd, xd, hsd, hxd, hsd1, hsd2, hsd3⟩ : ∃ sd xd, rd b sd = some xd ∧
        key xd ≤ key pivot ∧ sd < j ∧ i ≤ sd ∧ l ≤ sd := by
      rcases hcase with ⟨h1, h2, x, hx, hxk⟩ | ⟨h1, h2⟩
      · exact ⟨l, x, hx, by omega, by omega, by omega, le_refl _⟩
      · obtain ⟨x, hx⟩ := rd_isSome (a := b) (i := i) (by omega) (by omega)
        exact ⟨i, x, hx, hlo i x h1 (le_refl _) hx, hij, le_refl _, h1⟩
    obtain ⟨i1, x1, hup, hu1, hu2, hu3, hu4, hu5⟩ :=
      scan_up_spec b pivot su xu hsu hxu f i (by omega) (by omega) hsu1
    obtain ⟨j1, y1, hdn, hd1, hd2, hd3, hd4, hd5⟩ :=
      scan_down_spec b pivot sd xd hsd hxd f j (by omega) (by omega) hsd1
    obtain ⟨-, lu, hlu, hbu⟩ := scan_up_log_of b pivot f i i1 hup
    obtain ⟨-, ld, hld, hbd⟩ := scan_down_log_of b pivot f j j1 hdn
    have hscan : ∀ k ∈ lu ++ ld, l ≤ k ∧ k ≤ r := by
      intro k hk
      rcases List.mem_append.1 hk with hk | hk
      · have := hbu k hk; omega
      · have := hbd k hk; omega
    simp only [partition_loop_log, partition_loop, hup, hdn, hlu, hld, Option.some_bind]
    by_cases hcross : i1 ≥ j1
    · rw [if_pos hcross, if_pos hcross]
      exact ⟨b, j1, _, rfl, rfl, hscan⟩
    · rw [if_neg hcross, if_neg hcross]
      have hi1 : l ≤ i1 := by omega
      have hj1 : j1 ≤ r := by omega
      obtain ⟨b1, hb1⟩ : ∃ b1, wr b i1 y1 = some b1 := ⟨_, wr_isSome y1 (by omega) (by omega)⟩
      have l1 := wr_length hb1
      obtain ⟨b2, hb2⟩ : ∃ b2, wr b1 j1 x1 = some b2 :=
        ⟨_, wr_isSome x1 (by omega) (by omega)⟩
      have l2 := wr_length hb2
      have hrd : ∀ k : Int, rd b2 k
          = if k = j1 then some x1 else if k = i1 then some y1 else rd b k := by
        intro k; rw [rd_wr hb2, rd_wr hb1]
      simp only [hu3, hd3, hb1, hb2, Option.some_bind]
      obtain ⟨out, q, log, hrunl, hrun, hlog⟩ :=
        ih b2 i1 j1 (by omega) (by omega) (by omega) (by omega) (by omega)
          (by
            intro k x hk1 hk2 hx
            rw [hrd, if_neg (by omega)] at hx
            by_cases e : k = i1
            · rw [if_pos e] at hx; cases hx; exact hd4
            · rw [if_neg e] at hx
              by_cases h1 : k ≤ i
              · exact hlo k x hk1 h1 hx
              · exact le_of_lt (hu5 k x (by omega) (by omega) hx))
          (by
            intro k x hk1 hk2 hx
            rw [hrd] at hx
            by_cases e : k = j1
            · rw [if_pos e] at hx; cases hx; exact hu4
            · rw [if_neg e, if_neg (by omega)] at hx
              by_cases h1 : j ≤ k
              · exact hhi k x h1 hk2 hx
              · exact le_of_lt (hd5 k x (by omega) (by omega) hx))
          (Or.inr ⟨hi1, hj1⟩)
      rw [hrunl, hrun]
      refine ⟨out, q, _, rfl, rfl, ?_⟩
      intro k hk
      simp only [List.mem_append, List.mem_cons, List.mem_singleton, List.not_mem_nil,
        or_false] at hk
      rcases hk with ((hk | hk) | hk) | hk
      · exact hscan k (List.mem_append_left _ hk)
      · exact hscan k (List.mem_append_right _ hk)
      · rcases hk with rfl | rfl | rfl | rfl <;> omega
      · exact hlog k hk

theorem partition_log_spec (a : List α) (l r : Int) (fuel : Nat) (hl : 0 ≤ l) (hlr : l < r)
    (hr : r < a.length) (hf : (r - l).toNat + 3 ≤ fuel) :
    ∃ out q log, partition_log fuel a l r = some (out, q, log) ∧
      partition fuel a l r = some (out, q) ∧ ∀ k ∈ log, l ≤ k ∧ k ≤ r := by
  obtain ⟨pivot, hpv⟩ := rd_isSome (a := a) (i := l) hl (by omega)
  obtain ⟨out, q, log, hrunl, hrun, hlog⟩ :=
    partition_loop_log_spec pivot l r hl hlr fuel a (l - 1) (r + 1)
      (by omega) hr (le_refl _) (by omega) (le_refl _) (fun k x h1 h2 => by omega)
      (fun k x h1 h2 => by omega) (Or.inl ⟨rfl, rfl, pivot, hpv, rfl⟩)
  refine ⟨out, q, l :: log, by simp [partition_log, hpv, hrunl],
    by simp [partition, hpv, hrun], ?_⟩
  intro k hk
  rcases List.mem_cons.1 hk with rfl | hk
  · omega
  · exact hlog k hk

theorem quick_sort_mono :
    ∀ (fuel : Nat) (a : List α) (l r : Int) (res : List α),
      quick_sort fuel a l r = some res →
      ∀ fuel1, fuel ≤ fuel1 → quick_sort fuel1 a l r = some res := by
  intro fuel
  induction fuel with
  | zero => intro a l r res h; cases h
  | succ f ih =>
    intro a l r res h fuel1 hle
    obtain ⟨g, rfl⟩ : ∃ g, fuel1 = g + 1 := ⟨fuel1 - 1, by omega⟩
    simp only [quick_sort] at h ⊢
    split at h
    · rename_i hlt
      rw [if_pos hlt]
      cases hp : partition f a l r with
      | none => rw [hp] at h; cases h
      | some s =>
        rw [hp] at h
        rw [partition_mono a l r f g s hp (by omega)]
        simp only [Option.some_bind] at h ⊢
        cases h1 : quick_sort f s.1 l s.2 with
        | none => rw [h1] at h; cases h
        | some a1 =>
          rw [h1] at h
          rw [ih _ _ _ _ h1 g (by omega)]
          simp only [Option.some_bind] at h ⊢
          exact ih _ _ _ _ h g (by omega)
    · rename_i hlt
      rw [if_neg hlt]; exact h

end Quick

/-! ## The runs in slice form -/

section Summary

variable {α : Type} [Elem α]

theorem merge_sort_slice (a : List α) (p r : Int) (fuel : Nat) (hp : 0 ≤ p)
    (hpr : p ≤ r + 1) (hr : r < a.length) (hbig : r ≤ 1073741824)
    (hsafe : SentinelSafe (slice a p r)) (hf : (r + 1 - p).toNat + 3 ≤ fuel) :
    ∃ S, merge_sort fuel a p r = some (a.take p.toNat ++ S ++ a.drop (r + 1).toNat) ∧
      S.Perm (slice a p r) ∧ KeySorted S ∧ ∀ k, withKey k S = withKey k (slice a p r) := by
  have hlen := slice_length a hp hpr hr
  have hA := length_take_int (a := a) hp (by omega)
  obtain ⟨S, hrun, h⟩ := merge_sort_spec fuel (a.take p.toNat) (slice a p r)
    (a.drop (r + 1).toNat) p r (by omega) hA.symm (by omega) hbig hsafe
  rw [← slice_decomp a hp hpr] at hrun
  exact ⟨S, hrun, h⟩

theorem quick_sort_slice (a : List α) (l r : Int) (fuel : Nat) (hl : 0 ≤ l)
    (hlr : l ≤ r + 1) (hr : r < a.length) (hf : (r - l).toNat + 4 ≤ fuel) :
    ∃ S, quick_sort fuel a l r = some (a.take l.toNat ++ S ++ a.drop (r + 1).toNat) ∧
      S.Perm (slice a l r) ∧ KeySorted S := by
  obtain ⟨out, hrun, hperm, hframe, hsorted⟩ :=
    quick_sort_pointwise fuel a l r hf (fun _ => ⟨hl, hr⟩)
  obtain ⟨h1, h2, h3⟩ := sorted_splice_of_pointwise hl hlr hperm hframe hsorted
  exact ⟨slice out l r, by rw [← h1]; exact hrun, h2, h3⟩

theorem merge_slice (a : List α) (p q r : Int) (fuel : Nat) (hp : 0 ≤ p) (hpq : p ≤ q + 1)
    (hqr : q ≤ r) (hr : r < a.length) (hX : ∀ x ∈ slice a p q, key x ≤ INT_MAX)
    (hYs : KeySorted (slice a (q + 1) r)) (hY : SentinelSafe (slice a (q + 1) r))
    (hf : (r + 1 - p).toNat + 2 ≤ fuel) :
    merge fuel a p q r = some (a.take p.toNat
      ++ List.merge (slice a p q) (slice a (q + 1) r) keyLE ++ a.drop (r + 1).toNat) := by
  have hA := length_take_int (a := a) hp (by omega)
  have hlX := slice_length a hp hpq (by omega)
  have hlY := slice_length a (l := q + 1) (r := r) (by omega) (by omega) hr
  obtain ⟨Y0, T, hYeq, hY0, hT⟩ := sentinel_split hYs hY
  have h := merge_spec fuel (a.take p.toNat) (slice a p q) Y0 T (a.drop (r + 1).toNat) p q r
    hA.symm (by omega) (by rw [← hYeq]; omega) (by rw [← hYeq]; omega) hX hY0 hT
  rw [← hYeq, List.append_assoc (a.take p.toNat), slice_append a hp hpq hqr,
    ← slice_decomp a hp (by omega)] at h
  exact h

end Summary

/-! ## Arrays of `int` -/

section IntArrays

theorem sentinelSafe_int {s : List Int} (h1 : ∀ x ∈ s, x ≤ INT_MAX)
    (h2 : s.count INT_MAX ≤ 1) : SentinelSafe s := by
  refine ⟨h1, ?_, fun x _ hx => hx⟩
  have : withKey INT_MAX s = s.filter (fun x => x == INT_MAX) := by
    unfold withKey
    congr 1
  rw [this, ← List.countP_eq_length_filter]
  have e : s.count INT_MAX = List.countP (fun x => x == INT_MAX) s := by
    rw [List.count_eq_countP]
  omega

theorem eq_of_perm_of_sorted_int {s t : List Int} (hp : s.Perm t)
    (hs : s.Pairwise (fun x y => x ≤ y)) (ht : t.Pairwise (fun x y => x ≤ y)) : s = t :=
  List.eq_of_perm_of_sorted (r := fun x y : Int => x ≤ y) hp hs ht

theorem insertion_sort_fixed (a : List Int) (n : Int) (fuel : Nat) (h0 : 0 ≤ n)
    (hn : n ≤ a.length) (hf : 2 * n.toNat + 1 ≤ fuel)
    (hs : (a.take n.toNat).Pairwise (fun x y => x ≤ y)) : insertion_sort fuel a n = some a := by
  obtain ⟨S, hrun, hperm, hsorted, -⟩ := insertion_sort_spec a n fuel h0 hn hf
  rw [eq_of_perm_of_sorted_int hperm hsorted hs, List.take_append_drop] at hrun
  exact hrun

theorem selection_sort_fixed (a : List Int) (n : Int) (fuel : Nat) (h0 : 0 ≤ n)
    (hn : n ≤ a.length) (hf : n.toNat + 1 ≤ fuel)
    (hs : (a.take n.toNat).Pairwise (fun x y => x ≤ y)) : selection_sort fuel a n = some a := by
  obtain ⟨S, hrun, hperm, hsorted⟩ := selection_sort_spec a n fuel h0 hn hf
  rw [eq_of_perm_of_sorted_int hperm hsorted hs, List.take_append_drop] at hrun
  exact hrun

theorem quick_sort_fixed (a : List Int) (l r : Int) (fuel : Nat) (hl : 0 ≤ l) (hlr : l ≤ r)
    (hr : r < a.length) (hf : (r - l).toNat + 4 ≤ fuel)
    (hs : (slice a l r).Pairwise (fun x y => x ≤ y)) : quick_sort fuel a l r = some a := by
  obtain ⟨S, hrun, hperm, hsorted⟩ := quick_sort_slice a l r fuel hl (by omega) hr hf
  rw [eq_of_perm_of_sorted_int hperm hsorted hs, ← slice_decomp a hl (by omega)] at hrun
  exact hrun

theorem merge_sort_fixed (a : List Int) (p r : Int) (fuel : Nat) (hp : 0 ≤ p) (hpr : p ≤ r)
    (hr : r < a.length) (hbig : r ≤ 1073741824) (hrange : ∀ x ∈ slice a p r, x ≤ INT_MAX)
    (hmax : (slice a p r).count INT_MAX ≤ 1) (hf : (r - p).toNat + 4 ≤ fuel)
    (hs : (slice a p r).Pairwise (fun x y => x ≤ y)) : merge_sort fuel a p r = some a := by
  obtain ⟨S, hrun, hperm, hsorted, -⟩ := merge_sort_slice a p r fuel hp (by omega) hr hbig
    (sentinelSafe_int hrange hmax) (by omega)
  rw [eq_of_perm_of_sorted_int hperm hsorted hs, ← slice_decomp a hp (by omega)] at hrun
  exact hrun

/-- Whole-array calls, made as the harness makes them, all return the one sorted
rearrangement of the array. -/
theorem sorts_agree (a : List Int) (fuel : Nat) (hrange : ∀ x ∈ a, x ≤ INT_MAX)
    (hmax : a.count INT_MAX ≤ 1) (hlen : a.length ≤ 1073741825)
    (hf : 2 * a.length + 4 ≤ fuel) :
    ∃ out, out.Pairwise (fun x y => x ≤ y) ∧ out.Perm a ∧
      insertion_sort fuel a a.length = some out ∧ selection_sort fuel a a.length = some out ∧
      merge_sort fuel a 0 ((a.length : Int) - 1) = some out ∧
      quick_sort fuel a 0 ((a.length : Int) - 1) = some out := by
  have hn : ((a.length : Int)).toNat = a.length := Int.toNat_ofNat _
  have hsl : slice a 0 ((a.length : Int) - 1) = a := by
    rw [slice_zero, hn, List.take_length]
  have hd : a.drop (((a.length : Int) - 1 + 1).toNat) = [] := by
    have : ((a.length : Int) - 1 + 1).toNat = a.length := by omega
    rw [this, List.drop_length]
  obtain ⟨S1, hr1, hp1, hs1, -⟩ :=
    insertion_sort_spec a a.length fuel (by omega) (le_refl _) (by omega)
  obtain ⟨S2, hr2, hp2, hs2⟩ :=
    selection_sort_spec a a.length fuel (by omega) (le_refl _) (by omega)
  obtain ⟨S3, hr3, hp3, hs3, -⟩ :=
    merge_sort_slice a 0 ((a.length : Int) - 1) fuel (le_refl _) (by omega) (by omega)
      (by omega) (sentinelSafe_int (by rw [hsl]; exact hrange) (by rw [hsl]; exact hmax))
      (by omega)
  obtain ⟨S4, hr4, hp4, hs4⟩ :=
    quick_sort_slice a 0 ((a.length : Int) - 1) fuel (le_refl _) (by omega) (by omega)
      (by omega)
  rw [hn, List.take_length] at hp1 hp2
  rw [hn, List.drop_length, List.append_nil] at hr1 hr2
  rw [hsl] at hp3 hp4
  rw [hd, Int.toNat_zero, List.take_zero, List.nil_append, List.append_nil] at hr3 hr4
  have e2 : S2 = S1 := eq_of_perm_of_sorted_int (hp2.trans hp1.symm) hs2 hs1
  have e3 : S3 = S1 := eq_of_perm_of_sorted_int (hp3.trans hp1.symm) hs3 hs1
  have e4 : S4 = S1 := eq_of_perm_of_sorted_int (hp4.trans hp1.symm) hs4 hs1
  subst e2 e3 e4
  exact ⟨_, hs1, hp1, hr1, hr2, hr3, hr4⟩

theorem selection_inv_lists (a b : List Int) (n i : Int) (hi : 0 ≤ i) (hin : i ≤ n - 1)
    (hperm : b.Perm a) (hframe : ∀ k : Int, n ≤ k → rd b k = rd a k)
    (hinv : ∀ (k1 k2 : Int) (x y : Int), 0 ≤ k1 → k1 < i → k1 < k2 → k2 < n →
      rd b k1 = some x → rd b k2 = some y → x ≤ y) :
    b.length = a.length ∧ (b.take i.toNat).Pairwise (fun x y => x ≤ y) ∧
      (∀ x ∈ b.take i.toNat, ∀ y ∈ slice b i (n - 1), x ≤ y) ∧
      (b.take n.toNat).Perm (a.take n.toNat) := by
  have hfr : ∀ k : Int, k < 0 ∨ n - 1 < k → rd b k = rd a k := by
    intro k hk
    rcases hk with hk | hk
    · rw [rd_neg _ hk, rd_neg _ hk]
    · exact hframe k (by omega)
  have e1 : b.take i.toNat = slice b 0 (i - 1) := (slice_zero b i).symm
  refine ⟨hperm.length_eq, ?_, ?_, ?_⟩
  · rw [e1]
    exact keySorted_slice (le_refl _)
      (fun k1 k2 x y h1 h12 h2 hx hy => hinv k1 k2 x y h1 (by omega) h12 (by omega) hx hy)
  · intro x hx y hy
    rw [e1] at hx
    obtain ⟨k1, h1, h2, h3⟩ := mem_slice (le_refl _) hx
    obtain ⟨k2, h4, h5, h6⟩ := mem_slice hi hy
    exact hinv k1 k2 x y h1 (by omega) (by omega) (by omega) h3 h6
  · rw [← slice_zero, ← slice_zero]
    exact slice_perm_of_frame (le_refl _) (by omega) hperm hfr

end IntArrays

/-! ## The properties -/

section Claims

/-- C1. For every `int` array `a` and in-bounds indices `l ≤ r`, `quick_sort(a, l, r)`
terminates (every fuel from `r - l + 4` on gives a result) and leaves `a[l..r]`
non-decreasing and a permutation of its original contents. -/
theorem quick_sort_sorts (a : List Int) (l r : Int) (fuel : Nat) (hl : 0 ≤ l) (hlr : l ≤ r)
    (hr : r < a.length) (hf : (r - l).toNat + 4 ≤ fuel) :
    ∃ out, quick_sort fuel a l r = some out ∧
      (slice out l r).Pairwise (fun x y => x ≤ y) ∧ (slice out l r).Perm (slice a l r) := by
  obtain ⟨S, hrun, hperm, hsorted⟩ := quick_sort_slice a l r fuel hl (by omega) hr hf
  refine ⟨_, hrun, ?_, ?_⟩ <;>
    rw [slice_splice_eq hl (by omega) hr hperm.length_eq]
  · exact hsorted
  · exact hperm

theorem quick_sort_sorts_witness :
    ∃ out, quick_sort 8 ([5, 3, 8, 3, 1] : List Int) 0 4 = some out ∧
      (slice out 0 4).Pairwise (fun x y => x ≤ y) ∧
      (slice out 0 4).Perm (slice ([5, 3, 8, 3, 1] : List Int) 0 4) :=
  quick_sort_sorts [5, 3, 8, 3, 1] 0 4 8 (by decide) (by decide) (by decide) (by decide)

/-- C2, as amended. For every `int` array `a` and in-bounds indices `0 ≤ p ≤ r` with
`r ≤ 2^30`, if `a[p..r]` holds values of the `int` range and holds `INT_MAX` at most
once, `merge_sort(a, p, r)` terminates and leaves `a[p..r]` non-decreasing and a
permutation of its original contents. -/
theorem merge_sort_sorts (a : List Int) (p r : Int) (fuel : Nat) (hp : 0 ≤ p) (hpr : p ≤ r)
    (hr : r < a.length) (hbig : r ≤ 1073741824) (hrange : ∀ x ∈ slice a p r, x ≤ INT_MAX)
    (hmax : (slice a p r).count INT_MAX ≤ 1) (hf : (r - p).toNat + 4 ≤ fuel) :
    ∃ out, merge_sort fuel a p r = some out ∧
      (slice out p r).Pairwise (fun x y => x ≤ y) ∧ (slice out p r).Perm (slice a p r) := by
  obtain ⟨S, hrun, hperm, hsorted, -⟩ := merge_sort_slice a p r fuel hp (by omega) hr hbig
    (sentinelSafe_int hrange hmax) (by omega)
  refine ⟨_, hrun, ?_, ?_⟩ <;>
    rw [slice_splice_eq hp (by omega) hr hperm.length_eq]
  · exact hsorted
  · exact hperm

theorem merge_sort_sorts_witness :
    ∃ out, merge_sort 8 ([5, 3, 8, 3, 1] : List Int) 0 4 = some out ∧
      (slice out 0 4).Pairwise (fun x y => x ≤ y) ∧
      (slice out 0 4).Perm (slice ([5, 3, 8, 3, 1] : List Int) 0 4) :=
  merge_sort_sorts [5, 3, 8, 3, 1] 0 4 8 (by decide) (by decide) (by decide) (by decide)
    (by decide) (by decide) (by decide)

/-- C2, counterexamples. On `[0, 0, INT_MAX, INT_MAX]` with `p = 0`, `r = 3` the last
merge reads `L[3]`, one past the sentinel slot, so no run of `merge_sort` returns.  On
an array of `2^30 + 2` elements with `p = 2^30`, `r = 2^30 + 1` (both in bounds) the
32-bit sum `p + r` wraps to a negative value and no run returns either. -/
theorem merge_sort_sorts_counterexample :
    (∀ x ∈ ([0, 0, INT_MAX, INT_MAX] : List Int), INT_MIN ≤ x ∧ x ≤ INT_MAX) ∧
    (∀ fuel, merge_sort fuel ([0, 0, INT_MAX, INT_MAX] : List Int) 0 3 = none) ∧
    ((1073741825 : Int) < (List.replicate 1073741826 (0 : Int)).length) ∧
    (∀ fuel, merge_sort fuel (List.replicate 1073741826 (0 : Int)) 1073741824 1073741825
      = none) := by
  refine ⟨by decide, ?_, by rw [List.length_replicate]; decide,
    fun fuel => merge_sort_overflow fuel _⟩
  intro fuel
  match fuel with
  | 0 => rfl
  | 1 => rfl
  | 2 => rfl
  | 3 => rfl
  | 4 => rfl
  | 5 => rfl
  | n + 6 => rfl

/-- C3. For every `int` array `a` and every `n` with `0 ≤ n ≤ length(a)`,
`insertion_sort(a, n)` terminates and leaves `a[0..n)` non-decreasing and a permutation
of its original contents. -/
theorem insertion_sort_sorts (a : List Int) (n : Int) (fuel : Nat) (h0 : 0 ≤ n)
    (hn : n ≤ a.length) (hf : 2 * n.toNat + 1 ≤ fuel) :
    ∃ out, insertion_sort fuel a n = some out ∧
      (out.take n.toNat).Pairwise (fun x y => x ≤ y) ∧
      (out.take n.toNat).Perm (a.take n.toNat) := by
  obtain ⟨S, hrun, hperm, hsorted, -⟩ := insertion_sort_spec a n fuel h0 hn hf
  have hlen : n = S.length := by
    rw [hperm.length_eq, List.length_take]; omega
  refine ⟨_, hrun, ?_, ?_⟩ <;> rw [take_splice S _ hlen]
  · exact hsorted
  · exact hperm

theorem insertion_sort_sorts_witness :
    ∃ out, insertion_sort 11 ([5, 3, 8, 3, 1] : List Int) 5 = some out ∧
      (out.take 5).Pairwise (fun x y => x ≤ y) ∧
      (out.take 5).Perm (([5, 3, 8, 3, 1] : List Int).take 5) :=
  insertion_sort_sorts [5, 3, 8, 3, 1] 5 11 (by decide) (by decide) (by decide)

/-- C4. For every `int` array `a` and every `n` with `0 ≤ n ≤ length(a)`,
`selection_sort(a, n)` terminates and leaves `a[0..n)` non-decreasing and a permutation
of its original contents. -/
theorem selection_sort_sorts (a : List Int) (n : Int) (fuel : Nat) (h0 : 0 ≤ n)
    (hn : n ≤ a.length) (hf : n.toNat + 1 ≤ fuel) :
    ∃ out, selection_sort fuel a n = some out ∧
      (out.take n.toNat).Pairwise (fun x y => x ≤ y) ∧
      (out.take n.toNat).Perm (a.take n.toNat) := by
  obtain ⟨S, hrun, hperm, hsorted⟩ := selection_sort_spec a n fuel h0 hn hf
  have hlen : n = S.length := by
    rw [hperm.length_eq, List.length_take]; omega
  refine ⟨_, hrun, ?_, ?_⟩ <;> rw [take_splice S _ hlen]
  · exact hsorted
  · exact hperm

theorem selection_sort_sorts_witness :
    ∃ out, selection_sort 6 ([5, 3, 8, 3, 1] : List Int) 5 = some out ∧
      (out.take 5).Pairwise (fun x y => x ≤ y) ∧
      (out.take 5).Perm (([5, 3, 8, 3, 1] : List Int).take 5) :=
  selection_sort_sorts [5, 3, 8, 3, 1] 5 6 (by decide) (by decide) (by decide)

/-- C5. For every `int` array `a` and in-bounds indices `l < r`, `partition(a, l, r)`
terminates, and if it returns `j` then `l ≤ j < r` and, in the resulting array (of the
same length, a rearrangement of `a[l..r]` that leaves the rest of the array alone), every
element of `a[l..j]` is `≤ v` and every element of `a[j+1..r]` is `≥ v`, where `v` is the
value `a[l]` held before the call.  The two ranges are stated both as slices, of lengths
`j - l + 1` and `r - j`, and cell by cell. -/
theorem partition_splits (a : List Int) (l r : Int) (hl : 0 ≤ l) (hlr : l < r)
    (hr : r < a.length) :
    (∀ fuel, (r - l).toNat + 3 ≤ fuel → ∃ out j, partition fuel a l r = some (out, j)) ∧
    ∀ (fuel : Nat) (out : List Int) (j v : Int), partition fuel a l r = some (out, j) →
      rd a l = some v →
      out.length = a.length ∧ l ≤ j ∧ j < r ∧
      (slice out l r).Perm (slice a l r) ∧
      (∀ k : Int, k < l ∨ r < k → rd out k = rd a k) ∧
      ((slice out l j).length : Int) = j - l + 1 ∧
      ((slice out (j + 1) r).length : Int) = r - j ∧
      (∀ x ∈ slice out l j, x ≤ v) ∧ (∀ x ∈ slice out (j + 1) r, v ≤ x) ∧
      (∀ k : Int, l ≤ k → k ≤ j → ∃ x, rd out k = some x ∧ x ≤ v) ∧
      (∀ k : Int, j < k → k ≤ r → ∃ x, rd out k = some x ∧ v ≤ x) := by
  constructor
  · intro fuel hf
    obtain ⟨v, out, j, -, hrun, -⟩ := partition_spec a l r fuel hl hlr hr hf
    exact ⟨out, j, hrun⟩
  · intro fuel out j v hrun hv
    obtain ⟨v1, out1, j1, hv1, hrun1, hperm, hframe, hj1, hj2, hlo, hhi⟩ :=
      partition_spec a l r (max fuel ((r - l).toNat + 3)) hl hlr hr (le_max_right _ _)
    have e := (partition_mono a l r fuel _ _ hrun (le_max_left _ _)).symm.trans hrun1
    rw [hv] at hv1
    cases e; cases hv1
    have hlen := hperm.length_eq
    have hs1 := slice_length out hl (by omega : l ≤ j + 1) (by omega)
    have hs2 := slice_length out (l := j + 1) (r := r) (by omega) (by omega) (by omega)
    refine ⟨hlen, hj1, hj2, slice_perm_of_frame hl (by omega) hperm hframe, hframe,
      by omega, by omega, ?_, ?_, ?_, ?_⟩
    · intro x hx
      obtain ⟨k, h1, h2, h3⟩ := mem_slice hl hx
      exact hlo k x h1 h2 h3
    · intro x hx
      obtain ⟨k, h1, h2, h3⟩ := mem_slice (l := j + 1) (by omega) hx
      exact hhi k x (by omega) h2 h3
    · intro k h1 h2
      obtain ⟨x, hx⟩ := rd_isSome (a := out) (i := k) (by omega) (by omega)
      exact ⟨x, hx, hlo k x h1 h2 hx⟩
    · intro k h1 h2
      obtain ⟨x, hx⟩ := rd_isSome (a := out) (i := k) (by omega) (by omega)
      exact ⟨x, hx, hhi k x h1 h2 hx⟩

theorem partition_splits_witness :
    (∃ out j, partition 9 ([3, 1, 2, 5, 4, 3, 0] : List Int) 0 6 = some (out, j)) ∧
    (([0, 1, 2, 3, 4, 5, 3] : List Int).length = ([3, 1, 2, 5, 4, 3, 0] : List Int).length ∧
      (0 : Int) ≤ 3 ∧ (3 : Int) < 6 ∧
      (slice ([0, 1, 2, 3, 4, 5, 3] : List Int) 0 6).Perm
        (slice ([3, 1, 2, 5, 4, 3, 0] : List Int) 0 6) ∧
      (∀ k : Int, k < 0 ∨ 6 < k →
        rd ([0, 1, 2, 3, 4, 5, 3] : List Int) k = rd ([3, 1, 2, 5, 4, 3, 0] : List Int) k) ∧
      ((slice ([0, 1, 2, 3, 4, 5, 3] : List Int) 0 3).length : Int) = 3 - 0 + 1 ∧
      ((slice ([0, 1, 2, 3, 4, 5, 3] : List Int) (3 + 1) 6).length : Int) = 6 - 3 ∧
      (∀ x ∈ slice ([0, 1, 2, 3, 4, 5, 3] : List Int) 0 3, x ≤ 3) ∧
      (∀ x ∈ slice ([0, 1, 2, 3, 4, 5, 3] : List Int) (3 + 1) 6, 3 ≤ x) ∧
      (∀ k : Int, 0 ≤ k → k ≤ 3 →
        ∃ x, rd ([0, 1, 2, 3, 4, 5, 3] : List Int) k = some x ∧ x ≤ 3) ∧
      (∀ k : Int, 3 < k → k ≤ 6 →
        ∃ x, rd ([0, 1, 2, 3, 4, 5, 3] : List Int) k = some x ∧ 3 ≤ x)) :=
  have h := partition_splits [3, 1, 2, 5, 4, 3, 0] 0 6 (by decide) (by decide) (by decide)
  ⟨h.1 9 (by decide), h.2 9 [0, 1, 2, 3, 4, 5, 3] 3 3 (by decide) (by decide)⟩

/-- C6, as amended. For every `int` array `a` and in-bounds indices `p ≤ q < r` such
that `a[p..q]` and `a[q+1..r]` are each non-decreasing, hold values of the `int` range,
and `a[q+1..r]` holds `INT_MAX` at most once, `merge(a, p, q, r)` terminates and leaves
`a[p..r]` non-decreasing and equal as a multiset to the union of the two halves. -/
theorem merge_merges (a : List Int) (p q r : Int) (fuel : Nat) (hp : 0 ≤ p) (hpq : p ≤ q)
    (hqr : q < r) (hr : r < a.length)
    (hL : (slice a p q).Pairwise (fun x y => x ≤ y))
    (hR : (slice a (q + 1) r).Pairwise (fun x y => x ≤ y))
    (hrange : ∀ x ∈ slice a p r, x ≤ INT_MAX)
    (hmax : (slice a (q + 1) r).count INT_MAX ≤ 1) (hf : (r - p).toNat + 3 ≤ fuel) :
    ∃ out, merge fuel a p q r = some out ∧
      (slice out p r).Pairwise (fun x y => x ≤ y) ∧
      (slice out p r).Perm (slice a p q ++ slice a (q + 1) r) := by
  have happ := slice_append a hp (by omega : p ≤ q + 1) (le_of_lt hqr)
  have hXr : ∀ x ∈ slice a p q, x ≤ INT_MAX :=
    fun x hx => hrange x (by rw [← happ]; exact List.mem_append_left _ hx)
  have hYr : ∀ x ∈ slice a (q + 1) r, x ≤ INT_MAX :=
    fun x hx => hrange x (by rw [← happ]; exact List.mem_append_right _ hx)
  have hrun := merge_slice a p q r fuel hp (by omega) (le_of_lt hqr) hr hXr hR
    (sentinelSafe_int hYr hmax) (by omega)
  have hperm : (List.merge (slice a p q) (slice a (q + 1) r) keyLE).Perm
      (slice a p q ++ slice a (q + 1) r) := List.merge_perm_append keyLE
  have hlen : (List.merge (slice a p q) (slice a (q + 1) r) keyLE).length
      = (slice a p r).length := by rw [hperm.length_eq, happ]
  refine ⟨_, hrun, ?_, ?_⟩ <;> rw [slice_splice_eq hp (by omega) hr hlen]
  · exact merge_keySorted hL hR
  · exact hperm

theorem merge_merges_witness :
    ∃ out, merge 7 ([1, 4, 6, 2, 3] : List Int) 0 2 4 = some out ∧
      (slice out 0 4).Pairwise (fun x y => x ≤ y) ∧
      (slice out 0 4).Perm
        (slice ([1, 4, 6, 2, 3] : List Int) 0 2 ++ slice ([1, 4, 6, 2, 3] : List Int) (2 + 1) 4) :=
  merge_merges [1, 4, 6, 2, 3] 0 2 4 7 (by decide) (by decide) (by decide) (by decide)
    (by decide) (by decide) (by decide) (by decide) (by decide)

/-- C6, counterexample. With `a = [0, INT_MAX, INT_MAX]`, `p = q = 0`, `r = 2` both
halves are non-decreasing, yet after the left sentinel has been copied out the loop
reads `L[2]`, past the end of `L`: no run of `merge` returns. -/
theorem merge_merges_counterexample :
    (slice ([0, INT_MAX, INT_MAX] : List Int) 0 0).Pairwise (fun x y => x ≤ y) ∧
    (slice ([0, INT_MAX, INT_MAX] : List Int) 1 2).Pairwise (fun x y => x ≤ y) ∧
    (∀ x ∈ ([0, INT_MAX, INT_MAX] : List Int), INT_MIN ≤ x ∧ x ≤ INT_MAX) ∧
    ∀ fuel, merge fuel ([0, INT_MAX, INT_MAX] : List Int) 0 0 2 = none := by
  refine ⟨by decide, by decide, by decide, ?_⟩
  intro fuel
  match fuel with
  | 0 => rfl
  | 1 => rfl
  | 2 => rfl
  | 3 => rfl
  | n + 4 => rfl

/-- C7. `insertion_sort` is stable.  Run on `(key, tag)` pairs compared by key only, for
every input and every two positions `i < j` of `a[0..n)` holding equal keys, the element
originally at `i` stands before the element originally at `j` in the output; more
precisely, for every key the elements carrying it come out in their input order. -/
theorem insertion_sort_stable {τ : Type} [Inhabited τ] (a : List (Int × τ)) (n : Int)
    (fuel : Nat) (h0 : 0 ≤ n) (hn : n ≤ a.length) (hf : 2 * n.toNat + 1 ≤ fuel) :
    ∃ out, insertion_sort fuel a n = some out ∧
      (∀ k, withKey k (out.take n.toNat) = withKey k (a.take n.toNat)) ∧
      ∀ (i j : Int) (x y : Int × τ), 0 ≤ i → i < j → j < n →
        rd a i = some x → rd a j = some y → x.1 = y.1 →
        ∃ i1 j1 : Int, 0 ≤ i1 ∧ i1 < j1 ∧ j1 < n ∧ rd out i1 = some x ∧ rd out j1 = some y := by
  obtain ⟨S, hrun, hperm, -, hkey⟩ := insertion_sort_spec a n fuel h0 hn hf
  have hlen : n = S.length := by
    rw [hperm.length_eq, List.length_take]; omega
  have hk : ∀ k, withKey k ((S ++ a.drop n.toNat).take n.toNat) = withKey k (a.take n.toNat) := by
    intro k; rw [take_splice S _ hlen]; exact hkey k
  refine ⟨_, hrun, hk, ?_⟩
  intro i j x y hi hij hj hx hy hxy
  obtain ⟨i1, j1, h1, h2, h3, h4, h5⟩ :=
    stable_slices a (S ++ a.drop n.toNat) 0 (n - 1) (le_refl _)
      (fun k => by rw [slice_zero, slice_zero]; exact hk k) hi hij (by omega) hx hy hxy
  exact ⟨i1, j1, h1, h2, by omega, h4, h5⟩

theorem insertion_sort_stable_witness :
    ∃ out, insertion_sort 11 ([(5, 0), (3, 1), (8, 2), (3, 3), (1, 4)] : List (Int × Nat)) 5
        = some out ∧
      ∃ i1 j1 : Int, 0 ≤ i1 ∧ i1 < j1 ∧ j1 < 5 ∧
        rd out i1 = some (3, 1) ∧ rd out j1 = some (3, 3) :=
  have ⟨out, hrun, _, h⟩ :=
    insertion_sort_stable [(5, 0), (3, 1), (8, 2), (3, 3), (1, 4)] 5 11 (by decide) (by decide)
      (by decide)
  ⟨out, hrun, h 1 3 (3, 1) (3, 3) (by decide) (by decide) (by decide) (by decide) (by decide)
    rfl⟩

/-- C8, as amended. `merge_sort` is stable on ranges whose keys are all below `INT_MAX`
and whose upper index is at most `2^30`.  Run on `(key, tag)` pairs compared by key
only, for every such input and every two positions `i < j` of `a[p..r]` holding equal
keys, the element originally at `i` stands before the element originally at `j` in the
output; for every key the elements carrying it come out in their input order. -/
theorem merge_sort_stable {τ : Type} [Inhabited τ] (a : List (Int × τ)) (p r : Int)
    (fuel : Nat) (hp : 0 ≤ p) (hpr : p ≤ r) (hr : r < a.length) (hbig : r ≤ 1073741824)
    (hkeys : ∀ x ∈ slice a p r, x.1 < INT_MAX) (hf : (r - p).toNat + 4 ≤ fuel) :
    ∃ out, merge_sort fuel a p r = some out ∧
      (∀ k, withKey k (slice out p r) = withKey k (slice a p r)) ∧
      ∀ (i j : Int) (x y : Int × τ), p ≤ i → i < j → j ≤ r →
        rd a i = some x → rd a j = some y → x.1 = y.1 →
        ∃ i1 j1 : Int, p ≤ i1 ∧ i1 < j1 ∧ j1 ≤ r ∧ rd out i1 = some x ∧ rd out j1 = some y := by
  obtain ⟨S, hrun, hperm, -, hkey⟩ := merge_sort_slice a p r fuel hp (by omega) hr hbig
    (sentinelSafe_of_lt hkeys) (by omega)
  have hk : ∀ k, withKey k (slice (a.take p.toNat ++ S ++ a.drop (r + 1).toNat) p r)
      = withKey k (slice a p r) := by
    intro k; rw [slice_splice_eq hp (by omega) hr hperm.length_eq]; exact hkey k
  exact ⟨_, hrun, hk, fun i j x y hi hij hj hx hy hxy =>
    stable_slices a _ p r hp hk hi hij hj hx hy hxy⟩

theorem merge_sort_stable_witness :
    ∃ out, merge_sort 8 ([(5, 0), (3, 1), (8, 2), (3, 3), (1, 4)] : List (Int × Nat)) 0 4
        = some out ∧
      ∃ i1 j1 : Int, 0 ≤ i1 ∧ i1 < j1 ∧ j1 ≤ 4 ∧
        rd out i1 = some (3, 1) ∧ rd out j1 = some (3, 3) :=
  have ⟨out, hrun, _, h⟩ :=
    merge_sort_stable [(5, 0), (3, 1), (8, 2), (3, 3), (1, 4)] 0 4 8 (by decide) (by decide)
      (by decide) (by decide) (by decide) (by decide)
  ⟨out, hrun, h 1 3 (3, 1) (3, 3) (by decide) (by decide) (by decide) (by decide) (by decide)
    rfl⟩

/-- C8, counterexamples.  On `[(INT_MAX, 1), (INT_MAX, 2)]` the merge writes the
sentinel of `L` in place of the element `(INT_MAX, 2)`, so the element originally at
position 1 is absent from the output.  On `[(0, 1), (0, 2), (INT_MAX, 3), (INT_MAX, 4)]`
the last merge reads past the end of `L` and no run returns.  With `p = 2^30` and
`r = 2^30 + 1` the sum `p + r` wraps and no run returns. -/
theorem merge_sort_stable_counterexample :
    (merge_sort 5 ([(INT_MAX, 1), (INT_MAX, 2)] : List (Int × Nat)) 0 1
        = some [(INT_MAX, 1), (INT_MAX, 0)] ∧
      ¬ ∃ j1 : Int, rd ([(INT_MAX, 1), (INT_MAX, 0)] : List (Int × Nat)) j1
        = some (INT_MAX, 2)) ∧
    (∀ fuel, merge_sort fuel
      ([(0, 1), (0, 2), (INT_MAX, 3), (INT_MAX, 4)] : List (Int × Nat)) 0 3 = none) ∧
    ((1073741825 : Int) < (List.replicate 1073741826 ((0, 7) : Int × Nat)).length) ∧
    (∀ fuel, merge_sort fuel (List.replicate 1073741826 ((0, 7) : Int × Nat))
      1073741824 1073741825 = none) := by
  refine ⟨⟨by decide, ?_⟩, ?_, by rw [List.length_replicate]; decide,
    fun fuel => merge_sort_overflow fuel _⟩
  · rintro ⟨j1, hj⟩
    have hm := List.getElem?_mem ((rd_eq_getElem? (rd_bounds hj).1).symm.trans hj)
    revert hm
    decide
  · intro fuel
    match fuel with
    | 0 => rfl
    | 1 => rfl
    | 2 => rfl
    | 3 => rfl
    | 4 => rfl
    | 5 => rfl
    | n + 6 => rfl

/-- C9. Trivial inputs are no-ops: for every array `a`, `insertion_sort(a, n)` and
`selection_sort(a, n)` with `n = 0` or `n = 1`, and `merge_sort(a, l, r)` and
`quick_sort(a, l, r)` with `l = r` or `l > r`, return with `a` unchanged.  The array is
arbitrary (it may be empty, and `l`, `r` may lie outside it), and any access outside
the array would make the run undefined, so no cell is read or written. -/
theorem trivial_inputs_unchanged {α : Type} [Elem α] (a : List α) (l r : Int) (fuel : Nat)
    (hf : 1 ≤ fuel) (hlr : r ≤ l) :
    insertion_sort fuel a 0 = some a ∧ insertion_sort fuel a 1 = some a ∧
    selection_sort fuel a 0 = some a ∧ selection_sort fuel a 1 = some a ∧
    merge_sort fuel a l r = some a ∧ quick_sort fuel a l r = some a := by
  obtain ⟨f, rfl⟩ : ∃ f, fuel = f + 1 := ⟨fuel - 1, by omega⟩
  have h : ¬ l < r := by omega
  refine ⟨?_, ?_, ?_, ?_, ?_, ?_⟩
  · simp [insertion_sort, insertion_for]
  · simp [insertion_sort, insertion_for]
  · simp [selection_sort, selection_for]
  · simp [selection_sort, selection_for]
  · simp [merge_sort, h]
  · simp [quick_sort, h]

theorem trivial_inputs_unchanged_witness :
    insertion_sort 1 ([7, 2] : List Int) 0 = some [7, 2] ∧
    insertion_sort 1 ([7, 2] : List Int) 1 = some [7, 2] ∧
    selection_sort 1 ([7, 2] : List Int) 0 = some [7, 2] ∧
    selection_sort 1 ([7, 2] : List Int) 1 = some [7, 2] ∧
    merge_sort 1 ([7, 2] : List Int) 1 1 = some [7, 2] ∧
    quick_sort 1 ([7, 2] : List Int) 1 1 = some [7, 2] :=
  trivial_inputs_unchanged ([7, 2] : List Int) 1 1 1 (by decide) (by decide)

/-- C10, as amended. Idempotence on sorted input.  For every `int` array whose range to
sort is already non-decreasing, `insertion_sort`, `selection_sort` and `quick_sort`
return an array identical, element for element, to their input; so does `merge_sort`
when the range holds values of the `int` range, holds `INT_MAX` at most once, and its
upper index is at most `2^30`.  Hence for each algorithm, under the same conditions,
sorting the output of a run again gives that output. -/
theorem sorted_input_unchanged (a : List Int) (n l r : Int) (fuel : Nat)
    (hf : 2 * a.length + 4 ≤ fuel) :
    (0 ≤ n → n ≤ a.length →
      ((a.take n.toNat).Pairwise (fun x y => x ≤ y) →
        insertion_sort fuel a n = some a ∧ selection_sort fuel a n = some a) ∧
      (∀ out, insertion_sort fuel a n = some out → insertion_sort fuel out n = some out) ∧
      (∀ out, selection_sort fuel a n = some out → selection_sort fuel out n = some out)) ∧
    (0 ≤ l → l ≤ r → r < a.length →
      ((slice a l r).Pairwise (fun x y => x ≤ y) → quick_sort fuel a l r = some a) ∧
      (∀ out, quick_sort fuel a l r = some out → quick_sort fuel out l r = some out) ∧
      (r ≤ 1073741824 → (∀ x ∈ slice a l r, x ≤ INT_MAX) → (slice a l r).count INT_MAX ≤ 1 →
        ((slice a l r).Pairwise (fun x y => x ≤ y) → merge_sort fuel a l r = some a) ∧
        (∀ out, merge_sort fuel a l r = some out → merge_sort fuel out l r = some out))) := by
  constructor
  · intro h0 hn
    have hfi : 2 * n.toNat + 1 ≤ fuel := by omega
    have hfs : n.toNat + 1 ≤ fuel := by omega
    refine ⟨fun hs => ⟨insertion_sort_fixed a n fuel h0 hn hfi hs,
      selection_sort_fixed a n fuel h0 hn hfs hs⟩, ?_, ?_⟩
    · intro out hout
      obtain ⟨S, hrun, hperm, hsorted, -⟩ := insertion_sort_spec a n fuel h0 hn hfi
      have hlen : n = S.length := by rw [hperm.length_eq, List.length_take]; omega
      rw [hrun] at hout; cases hout
      exact insertion_sort_fixed _ n fuel h0 (by simp; omega) hfi
        (by rw [take_splice S _ hlen]; exact hsorted)
    · intro out hout
      obtain ⟨S, hrun, hperm, hsorted⟩ := selection_sort_spec a n fuel h0 hn hfs
      have hlen : n = S.length := by rw [hperm.length_eq, List.length_take]; omega
      rw [hrun] at hout; cases hout
      exact selection_sort_fixed _ n fuel h0 (by simp; omega) hfs
        (by rw [take_splice S _ hlen]; exact hsorted)
  · intro hl hlr hr
    have hfq : (r - l).toNat + 4 ≤ fuel := by omega
    have hlen0 := slice_length a hl (by omega : l ≤ r + 1) hr
    have hout_len : ∀ S : List Int, S.Perm (slice a l r) →
        r < ((a.take l.toNat ++ S ++ a.drop (r + 1).toNat).length : Int) := by
      intro S hS
      have h1 := hS.length_eq
      simp only [List.length_append, List.length_take, List.length_drop]
      omega
    refine ⟨fun hs => quick_sort_fixed a l r fuel hl hlr hr hfq hs, ?_, ?_⟩
    · intro out hout
      obtain ⟨S, hrun, hperm, hsorted⟩ := quick_sort_slice a l r fuel hl (by omega) hr hfq
      rw [hrun] at hout; cases hout
      exact quick_sort_fixed _ l r fuel hl hlr (hout_len S hperm) hfq
        (by rw [slice_splice_eq hl (by omega) hr hperm.length_eq]; exact hsorted)
    · intro hbig hrange hmax
      refine ⟨fun hs => merge_sort_fixed a l r fuel hl hlr hr hbig hrange hmax hfq hs, ?_⟩
      intro out hout
      obtain ⟨S, hrun, hperm, hsorted, -⟩ := merge_sort_slice a l r fuel hl (by omega) hr hbig
        (sentinelSafe_int hrange hmax) (by omega)
      rw [hrun] at hout; cases hout
      have hsl := slice_splice_eq (a := a) (S := S) hl (by omega) hr hperm.length_eq
      exact merge_sort_fixed _ l r fuel hl hlr (hout_len S hperm) hbig
        (by rw [hsl]; exact fun x hx => hrange x (hperm.mem_iff.1 hx))
        (by rw [hsl, hperm.count_eq]; exact hmax) hfq (by rw [hsl]; exact hsorted)

theorem sorted_input_unchanged_witness :
    insertion_sort 14 ([1, 2, 3, 4, 5] : List Int) 5 = some [1, 2, 3, 4, 5] ∧
    selection_sort 14 ([1, 2, 3, 4, 5] : List Int) 5 = some [1, 2, 3, 4, 5] ∧
    quick_sort 14 ([1, 2, 3, 4, 5] : List Int) 0 4 = some [1, 2, 3, 4, 5] ∧
    merge_sort 14 ([1, 2, 3, 4, 5] : List Int) 0 4 = some [1, 2, 3, 4, 5] :=
  have h := sorted_input_unchanged [1, 2, 3, 4, 5] 5 0 4 14 (by decide)
  have h1 := (h.1 (by decide) (by decide)).1 (by decide)
  have h2 := h.2 (by decide) (by decide) (by decide)
  ⟨h1.1, h1.2, h2.1 (by decide),
    (h2.2.2 (by decide) (by decide) (by decide)).1 (by decide)⟩

/-- C10, counterexamples. The array `[1, 2, INT_MAX, INT_MAX]` is non-decreasing, yet no
run of `merge_sort` on it returns: the last merge reads past the end of `L`.  An array of
`2^30 + 2` zeros is non-decreasing, yet with `p = 2^30`, `r = 2^30 + 1` no run returns:
the sum `p + r` wraps. -/
theorem sorted_input_unchanged_counterexample :
    (([1, 2, INT_MAX, INT_MAX] : List Int).Pairwise (fun x y => x ≤ y) ∧
      ∀ fuel, merge_sort fuel ([1, 2, INT_MAX, INT_MAX] : List Int) 0 3 = none) ∧
    ((List.replicate 1073741826 (0 : Int)).Pairwise (fun x y => x ≤ y) ∧
      (1073741825 : Int) < (List.replicate 1073741826 (0 : Int)).length ∧
      ∀ fuel, merge_sort fuel (List.replicate 1073741826 (0 : Int)) 1073741824 1073741825
        = none) := by
  refine ⟨⟨by decide, ?_⟩, ?_, by rw [List.length_replicate]; decide,
    fun fuel => merge_sort_overflow fuel _⟩
  · intro fuel
    match fuel with
    | 0 => rfl
    | 1 => rfl
    | 2 => rfl
    | 3 => rfl
    | 4 => rfl
    | 5 => rfl
    | n + 6 => rfl
  · rw [List.pairwise_replicate]
    exact Or.inr (le_refl _)

/-- C11, as amended. The four algorithms agree on every `int` array `a` of length
`n ≤ 2^30 + 1` that holds `INT_MAX` at most once: `insertion_sort(a, n)`,
`selection_sort(a, n)`, `merge_sort(a, 0, n-1)` and `quick_sort(a, 0, n-1)` terminate
with the same output array, which is the non-decreasing rearrangement of `a`; on
`[5, 3, 8, 3, 1]` each yields `[1, 3, 3, 5, 8]`. -/
theorem four_sorts_agree (a : List Int) (fuel : Nat) (hrange : ∀ x ∈ a, x ≤ INT_MAX)
    (hmax : a.count INT_MAX ≤ 1) (hlen : a.length ≤ 1073741825)
    (hf : 2 * a.length + 4 ≤ fuel) :
    (∃ out, out.Pairwise (fun x y => x ≤ y) ∧ out.Perm a ∧
      insertion_sort fuel a a.length = some out ∧ selection_sort fuel a a.length = some out ∧
      merge_sort fuel a 0 ((a.length : Int) - 1) = some out ∧
      quick_sort fuel a 0 ((a.length : Int) - 1) = some out) ∧
    ∀ fuel1, 14 ≤ fuel1 →
      insertion_sort fuel1 ([5, 3, 8, 3, 1] : List Int) 5 = some [1, 3, 3, 5, 8] ∧
      selection_sort fuel1 ([5, 3, 8, 3, 1] : List Int) 5 = some [1, 3, 3, 5, 8] ∧
      merge_sort fuel1 ([5, 3, 8, 3, 1] : List Int) 0 (5 - 1) = some [1, 3, 3, 5, 8] ∧
      quick_sort fuel1 ([5, 3, 8, 3, 1] : List Int) 0 (5 - 1) = some [1, 3, 3, 5, 8] := by
  refine ⟨sorts_agree a fuel hrange hmax hlen hf, ?_⟩
  intro fuel1 hf1
  obtain ⟨out, hs, hp, h1, h2, h3, h4⟩ :=
    sorts_agree [5, 3, 8, 3, 1] fuel1 (by decide) (by decide) (by decide) hf1
  have e : out = [1, 3, 3, 5, 8] :=
    eq_of_perm_of_sorted_int (hp.trans (by decide)) hs (by decide)
  subst e
  exact ⟨h1, h2, h3, h4⟩

theorem four_sorts_agree_witness :
    ∃ out, out.Pairwise (fun x y => x ≤ y) ∧ out.Perm ([2, 9, 4] : List Int) ∧
      insertion_sort 10 ([2, 9, 4] : List Int) 3 = some out ∧
      selection_sort 10 ([2, 9, 4] : List Int) 3 = some out ∧
      merge_sort 10 ([2, 9, 4] : List Int) 0 (3 - 1) = some out ∧
      quick_sort 10 ([2, 9, 4] : List Int) 0 (3 - 1) = some out :=
  (four_sorts_agree [2, 9, 4] 10 (by decide) (by decide) (by decide) (by decide)).1

/-- C11, counterexamples. On `[0, 0, INT_MAX, INT_MAX]` insertion sort returns the array
while no run of `merge_sort(a, 0, 3)` returns (the last merge reads past the end of `L`).
On any array of `2^30 + 2` elements no run of `merge_sort(a, 0, n-1)` returns (a midpoint
sum wraps on the way down the right halves). -/
theorem four_sorts_agree_counterexample :
    (insertion_sort 12 ([0, 0, INT_MAX, INT_MAX] : List Int) 4
        = some [0, 0, INT_MAX, INT_MAX] ∧
      ∀ fuel, merge_sort fuel ([0, 0, INT_MAX, INT_MAX] : List Int) 0 (4 - 1) = none) ∧
    ((List.replicate 1073741826 (0 : Int)).length = 1073741826 ∧
      ∀ fuel, merge_sort fuel (List.replicate 1073741826 (0 : Int)) 0 (1073741826 - 1)
        = none) := by
  refine ⟨⟨by decide, ?_⟩, List.length_replicate _ _,
    fun fuel => merge_sort_overflow_whole fuel _⟩
  intro fuel
  match fuel with
  | 0 => rfl
  | 1 => rfl
  | 2 => rfl
  | 3 => rfl
  | 4 => rfl
  | 5 => rfl
  | n + 6 => rfl

/-- C12. For every `int` array `a` and in-bounds indices `l < r`, `partition(a, l, r)`
terminates, and every array access it makes (the read of the pivot, the reads of the two
scans, the reads and writes of the swaps) uses an index within `[l, r]`: the run that
also records the accessed indices returns the same array and index as `partition`,
and every recorded index `k` satisfies `l ≤ k ≤ r`. -/
theorem partition_accesses_in_range (a : List Int) (l r : Int) (fuel : Nat) (hl : 0 ≤ l)
    (hlr : l < r) (hr : r < a.length) (hf : (r - l).toNat + 3 ≤ fuel) :
    ∃ out j log, partition fuel a l r = some (out, j) ∧
      partition_log fuel a l r = some (out, j, log) ∧ ∀ k ∈ log, l ≤ k ∧ k ≤ r := by
  obtain ⟨out, j, log, h1, h2, h3⟩ := partition_log_spec a l r fuel hl hlr hr hf
  exact ⟨out, j, log, h2, h1, h3⟩

theorem partition_accesses_in_range_witness :
    ∃ out j log, partition 9 ([7, 3, 1, 2, 5, 4, 3, 0, 7] : List Int) 1 7 = some (out, j) ∧
      partition_log 9 ([7, 3, 1, 2, 5, 4, 3, 0, 7] : List Int) 1 7 = some (out, j, log) ∧
      ∀ k ∈ log, 1 ≤ k ∧ k ≤ 7 :=
  partition_accesses_in_range [7, 3, 1, 2, 5, 4, 3, 0, 7] 1 7 9 (by decide) (by decide)
    (by decide) (by decide)

/-- C13. `selection_sort` is not stable. Run on `(key, tag)` pairs compared by key only,
the input `[(5, 0), (5, 1), (1, 2)]` with `n = 3` comes out as `[(1, 2), (5, 1), (5, 0)]`:
the first pass swaps `(5, 0)` with the minimum `(1, 2)` and so moves it past `(5, 1)`.
The two elements of key 5 stand at positions 0 < 1 in the input and at positions 2 > 1
in the output. -/
theorem selection_sort_unstable :
    ∃ (a out : List (Int × Nat)) (n i j i1 j1 : Int) (x y : Int × Nat),
      (∀ fuel, n.toNat + 1 ≤ fuel → selection_sort fuel a n = some out) ∧
      a.Nodup ∧ 0 ≤ i ∧ i < j ∧ j < n ∧ rd a i = some x ∧ rd a j = some y ∧ x.1 = y.1 ∧
      0 ≤ j1 ∧ j1 < i1 ∧ i1 < n ∧ rd out i1 = some x ∧ rd out j1 = some y := by
  refine ⟨[(5, 0), (5, 1), (1, 2)], [(1, 2), (5, 1), (5, 0)], 3, 0, 1, 2, 1, (5, 0), (5, 1),
    ?_, by decide, by decide, by decide, by decide, by decide, by decide, by decide,
    by decide, by decide, by decide, by decide, by decide⟩
  intro fuel hf
  obtain ⟨m, rfl⟩ : ∃ m, fuel = m + 4 := ⟨fuel - 4, by simp at hf; omega⟩
  rfl

/-- C14, as amended. For every `merge` call satisfying its precondition (in-bounds
`p ≤ q < r`, both halves non-decreasing, elements in the `int` range) in which
`a[q+1..r]` holds `INT_MAX` at most once, the sentinels bound the cursors: the call
returns, and every read `L[i]` of its loop has `0 ≤ i ≤ n1 = q-p+1` and every read `R[j]`
has `0 ≤ j ≤ n2 = r-q`, so no buffer access goes past the sentinel slot. -/
theorem merge_cursors_bounded (a : List Int) (p q r : Int) (fuel : Nat) (hp : 0 ≤ p)
    (hpq : p ≤ q) (hqr : q < r) (hr : r < a.length)
    (hR : (slice a (q + 1) r).Pairwise (fun x y => x ≤ y))
    (hrange : ∀ x ∈ slice a p r, x ≤ INT_MAX)
    (hmax : (slice a (q + 1) r).count INT_MAX ≤ 1) (hf : (r - p).toNat + 3 ≤ fuel) :
    ∃ out log, merge fuel a p q r = some out ∧ merge_log fuel a p q r = some (out, log) ∧
      ∀ c ∈ log, 0 ≤ c.1 ∧ c.1 ≤ q - p + 1 ∧ 0 ≤ c.2 ∧ c.2 ≤ r - q := by
  have happ := slice_append a hp (by omega : p ≤ q + 1) (le_of_lt hqr)
  have hXr : ∀ x ∈ slice a p q, x ≤ INT_MAX :=
    fun x hx => hrange x (by rw [← happ]; exact List.mem_append_left _ hx)
  have hYr : ∀ x ∈ slice a (q + 1) r, x ≤ INT_MAX :=
    fun x hx => hrange x (by rw [← happ]; exact List.mem_append_right _ hx)
  have hrun := merge_slice a p q r fuel hp (by omega) (le_of_lt hqr) hr hXr hR
    (sentinelSafe_int hYr hmax) (by omega)
  obtain ⟨log, hl, hb⟩ := merge_log_of fuel a _ p q r hrun
  exact ⟨_, log, hrun, hl, hb⟩

theorem merge_cursors_bounded_witness :
    ∃ out log, merge 7 ([1, 4, 6, 2, 3] : List Int) 0 2 4 = some out ∧
      merge_log 7 ([1, 4, 6, 2, 3] : List Int) 0 2 4 = some (out, log) ∧
      ∀ c ∈ log, 0 ≤ c.1 ∧ c.1 ≤ 2 - 0 + 1 ∧ 0 ≤ c.2 ∧ c.2 ≤ 4 - 2 :=
  merge_cursors_bounded [1, 4, 6, 2, 3] 0 2 4 7 (by decide) (by decide) (by decide)
    (by decide) (by decide) (by decide) (by decide) (by decide)

/-- C14, counterexample. The call `merge([0, INT_MAX, INT_MAX], 0, 0, 2)` satisfies the
precondition, with `n1 = 1`, `L = [0, INT_MAX]` and `R = [INT_MAX, INT_MAX, INT_MAX]`.
After two iterations (the second takes the sentinel of `L` on the tie with `R[0]`) the
loop stands at `k = 2 ≤ r` with `i = 2 > n1`, and `L[2]` is outside `L`: no run returns. -/
theorem merge_cursors_bounded_counterexample :
    (slice ([0, INT_MAX, INT_MAX] : List Int) 0 0).Pairwise (fun x y => x ≤ y) ∧
    (slice ([0, INT_MAX, INT_MAX] : List Int) 1 2).Pairwise (fun x y => x ≤ y) ∧
    (∀ fuel, merge_for (fuel + 3) ([0, INT_MAX, INT_MAX] : List Int) [0, INT_MAX]
        [INT_MAX, INT_MAX, INT_MAX] 0 0 0 2
      = merge_for (fuel + 1) ([0, INT_MAX, INT_MAX] : List Int) [0, INT_MAX]
        [INT_MAX, INT_MAX, INT_MAX] 2 0 2 2) ∧
    rd ([0, INT_MAX] : List Int) 2 = none ∧
    (∀ fuel, merge fuel ([0, INT_MAX, INT_MAX] : List Int) 0 0 2 = none) ∧
    (∀ fuel, merge_log fuel ([0, INT_MAX, INT_MAX] : List Int) 0 0 2 = none) := by
  refine ⟨by decide, by decide, fun fuel => rfl, by decide, ?_, ?_⟩
  · intro fuel
    match fuel with
    | 0 => rfl
    | 1 => rfl
    | 2 => rfl
    | 3 => rfl
    | n + 4 => rfl
  · intro fuel
    match fuel with
    | 0 => rfl
    | 1 => rfl
    | 2 => rfl
    | 3 => rfl
    | n + 4 => rfl

/-- C15. In every outer iteration `i` of `selection_sort(a, n)` the swap is performed
exactly when the `min_idx` found differs from `i`.  The run of the loop that also
records its iterations returns the array `selection_sort` returns; it records one
iteration for each `i = 0, ..., n-2`, in order, each starting from the array the
previous one ended with.  In each of them the inner loop leaves in `min_idx` the
leftmost index of a minimum of `a[i..n)`, the value test `a[i] != a[min_idx]` is true if
and only if `min_idx != i`, the swap is executed if and only if `min_idx != i`; when it
is, the iteration ends with the array in which `a[i]` and `a[min_idx]` are exchanged,
and when it is not, with the array it started from. -/
theorem selection_swap_iff (a : List Int) (n : Int) (fuel : Nat) (hn : n ≤ a.length)
    (hf : n.toNat + 1 ≤ fuel) :
    ∃ out log, selection_sort fuel a n = some out ∧
      selection_sort_log fuel a n = some (out, log) ∧
      log.length = (n - 1).toNat ∧
      (∀ (t : Nat) (e : SelectionPass Int), log[t]? = some e → e.i = t) ∧
      log.map (fun e => e.before) ++ [out] = a :: log.map (fun e => e.after) ∧
      ∀ e ∈ log, ∃ x mv, rd e.before e.i = some x ∧ rd e.before e.min_idx = some mv ∧
        (∀ F, (n - e.i).toNat ≤ F →
          selection_scan F e.before (e.i + 1) n e.i = some e.min_idx) ∧
        e.i ≤ e.min_idx ∧ e.min_idx < n ∧
        (∀ k y, e.i ≤ k → k < n → rd e.before k = some y → mv ≤ y) ∧
        (∀ k y, e.i ≤ k → k < e.min_idx → rd e.before k = some y → mv < y) ∧
        (x ≠ mv ↔ e.min_idx ≠ e.i) ∧
        (e.swapped = true ↔ e.min_idx ≠ e.i) ∧
        (e.min_idx ≠ e.i → ∃ b1, wr e.before e.i mv = some b1 ∧
          wr b1 e.min_idx x = some e.after ∧ rd e.after e.i = some mv ∧
          rd e.after e.min_idx = some x ∧ e.after ≠ e.before) ∧
        (e.min_idx = e.i → e.after = e.before) := by
  obtain ⟨out, log, hrun, hlog, hlen, hidx, hchain, -, hent⟩ :=
    selection_for_log_spec n fuel a 0 (by omega) (le_refl _) hn
      (fun k1 k2 x y h0 h1 => by omega)
  refine ⟨out, log, hrun, hlog, by rw [hlen, Int.sub_zero], ?_, hchain, ?_⟩
  · intro t e he
    rw [hidx t e he]; omega
  · intro e he
    obtain ⟨h1, h2, -, x, mv, hx, hmv, hscan, hm1, hm2, hmin, hleft, hsw, hyes, hno⟩ :=
      hent e he
    have hiff : x ≠ mv ↔ e.min_idx ≠ e.i := by
      constructor
      · intro hne hmi
        rw [hmi, hx] at hmv; cases hmv; exact hne rfl
      · intro hmi hxe
        have : mv < x := hleft e.i x (le_refl _) (by omega) hx
        omega
    refine ⟨x, mv, hx, hmv, hscan, hm1, hm2, hmin, hleft, hiff, hsw.trans hiff, ?_, ?_⟩
    · intro hmi
      obtain ⟨b1, hb1, hb2⟩ := hyes (hsw.2 (hiff.2 hmi))
      have r1 : rd e.after e.i = some mv := by
        rw [rd_wr hb2, if_neg (fun h => hmi h.symm), rd_wr hb1, if_pos rfl]
      have r2 : rd e.after e.min_idx = some x := by
        rw [rd_wr hb2, if_pos rfl]
      refine ⟨b1, hb1, hb2, r1, r2, ?_⟩
      intro heq
      rw [heq, hx] at r1
      cases r1
      exact (hiff.2 hmi) rfl
    · intro hmi
      apply hno
      cases hs : e.swapped with
      | false => rfl
      | true => exact absurd hmi ((hsw.trans hiff).1 hs)

theorem selection_swap_iff_witness :
    (∃ out log, selection_sort 6 ([5, 3, 8, 3, 1] : List Int) 5 = some out ∧
      selection_sort_log 6 ([5, 3, 8, 3, 1] : List Int) 5 = some (out, log) ∧
      log.length = ((5 : Int) - 1).toNat ∧
      (∀ (t : Nat) (e : SelectionPass Int), log[t]? = some e → e.i = t) ∧
      log.map (fun e => e.before) ++ [out]
        = ([5, 3, 8, 3, 1] : List Int) :: log.map (fun e => e.after) ∧
      ∀ e ∈ log, ∃ x mv, rd e.before e.i = some x ∧ rd e.before e.min_idx = some mv ∧
        (∀ F, ((5 : Int) - e.i).toNat ≤ F →
          selection_scan F e.before (e.i + 1) 5 e.i = some e.min_idx) ∧
        e.i ≤ e.min_idx ∧ e.min_idx < 5 ∧
        (∀ k y, e.i ≤ k → k < 5 → rd e.before k = some y → mv ≤ y) ∧
        (∀ k y, e.i ≤ k → k < e.min_idx → rd e.before k = some y → mv < y) ∧
        (x ≠ mv ↔ e.min_idx ≠ e.i) ∧
        (e.swapped = true ↔ e.min_idx ≠ e.i) ∧
        (e.min_idx ≠ e.i → ∃ b1, wr e.before e.i mv = some b1 ∧
          wr b1 e.min_idx x = some e.after ∧ rd e.after e.i = some mv ∧
          rd e.after e.min_idx = some x ∧ e.after ≠ e.before) ∧
        (e.min_idx = e.i → e.after = e.before)) ∧
    selection_sort_log 6 ([5, 3, 8, 3, 1] : List Int) 5 = some ([1, 3, 3, 5, 8],
      [⟨0, [5, 3, 8, 3, 1], 4, true, [1, 3, 8, 3, 5]⟩,
        ⟨1, [1, 3, 8, 3, 5], 1, false, [1, 3, 8, 3, 5]⟩,
        ⟨2, [1, 3, 8, 3, 5], 3, true, [1, 3, 3, 8, 5]⟩,
        ⟨3, [1, 3, 3, 8, 5], 4, true, [1, 3, 3, 5, 8]⟩]) :=
  ⟨selection_swap_iff [5, 3, 8, 3, 1] 5 6 (by decide) (by decide), rfl⟩

/-- C16. Loop invariant of `selection_sort`.  The run of the loop that also records its
iterations returns the array `selection_sort(a, n)` returns and records one iteration
for each `i = 0, ..., n-2`, in order, each starting from the array the previous one ended
with.  For every `i` with `0 ≤ i ≤ n-1`, the array `b` at the start of outer iteration
`i` (for `i = n-1`, where the loop test fails, the array returned) has the length of the
input, `b[0..i)` non-decreasing, every element of `b[0..i)` `≤` every element of
`b[i..n)`, and `b[0..n)` a permutation of the input `a[0..n)`. -/
theorem selection_invariant (a : List Int) (n : Int) (fuel : Nat) (hn : n ≤ a.length)
    (hf : n.toNat + 1 ≤ fuel) :
    ∃ out log, selection_sort fuel a n = some out ∧
      selection_sort_log fuel a n = some (out, log) ∧
      log.length = (n - 1).toNat ∧
      (∀ (t : Nat) (e : SelectionPass Int), log[t]? = some e → e.i = t) ∧
      log.map (fun e => e.before) ++ [out] = a :: log.map (fun e => e.after) ∧
      ∀ i : Nat, (i : Int) ≤ n - 1 →
        ∃ b, (log.map (fun e => e.before) ++ [out])[i]? = some b ∧
          b.length = a.length ∧
          (b.take i).Pairwise (fun x y => x ≤ y) ∧
          (∀ x ∈ b.take i, ∀ y ∈ slice b i (n - 1), x ≤ y) ∧
          (b.take n.toNat).Perm (a.take n.toNat) := by
  obtain ⟨out, log, hrun, hlog, hlen, hidx, hchain, ⟨hpo, hfo, hso⟩, hent⟩ :=
    selection_for_log_spec n fuel a 0 (by omega) (le_refl _) hn
      (fun k1 k2 x y h0 h1 => by omega)
  have hlen2 : log.length = (n - 1).toNat := by rw [hlen, Int.sub_zero]
  refine ⟨out, log, hrun, hlog, hlen2, ?_, hchain, ?_⟩
  · intro t e he
    rw [hidx t e he]; omega
  · intro i hi
    by_cases hlt : i < log.length
    · have he : log[i]? = some log[i] := List.getElem?_eq_getElem hlt
      have hmem : log[i] ∈ log := List.getElem_mem hlt
      have hei : (log[i]).i = i := by rw [hidx i _ he]; omega
      obtain ⟨-, -, ⟨hp, hfr, hinv⟩, -⟩ := hent _ hmem
      rw [hei] at hinv
      have h := selection_inv_lists a (log[i]).before n i (by omega) hi hp hfr hinv
      rw [Int.toNat_ofNat] at h
      refine ⟨(log[i]).before, ?_, h⟩
      rw [List.getElem?_append_left (by rw [List.length_map]; exact hlt),
        List.getElem?_map, he]
      rfl
    · have hie : i = log.length := by omega
      have h := selection_inv_lists a out n i (by omega) hi hpo hfo
        (fun k1 k2 x y h0 _ h12 h2 hx hy => hso k1 k2 x y h0 h12 h2 hx hy)
      rw [Int.toNat_ofNat] at h
      refine ⟨out, ?_, h⟩
      rw [List.getElem?_append_right (by rw [List.length_map]; omega), List.length_map, hie,
        Nat.sub_self]
      rfl

theorem selection_invariant_witness :
    (∃ out log, selection_sort 6 ([5, 3, 8, 3, 1] : List Int) 5 = some out ∧
      selection_sort_log 6 ([5, 3, 8, 3, 1] : List Int) 5 = some (out, log) ∧
      log.length = ((5 : Int) - 1).toNat ∧
      (∀ (t : Nat) (e : SelectionPass Int), log[t]? = some e → e.i = t) ∧
      log.map (fun e => e.before) ++ [out]
        = ([5, 3, 8, 3, 1] : List Int) :: log.map (fun e => e.after) ∧
      ∀ i : Nat, (i : Int) ≤ 5 - 1 →
        ∃ b, (log.map (fun e => e.before) ++ [out])[i]? = some b ∧
          b.length = ([5, 3, 8, 3, 1] : List Int).length ∧
          (b.take i).Pairwise (fun x y => x ≤ y) ∧
          (∀ x ∈ b.take i, ∀ y ∈ slice b i (5 - 1), x ≤ y) ∧
          (b.take (5 : Int).toNat).Perm (([5, 3, 8, 3, 1] : List Int).take (5 : Int).toNat)) ∧
    (selection_sort_log 6 ([5, 3, 8, 3, 1] : List Int) 5).map
        (fun s => s.2.map (fun e => e.before) ++ [s.1])
      = some [[5, 3, 8, 3, 1], [1, 3, 8, 3, 5], [1, 3, 8, 3, 5], [1, 3, 3, 8, 5],
        [1, 3, 3, 5, 8]] :=
  ⟨selection_invariant [5, 3, 8, 3, 1] 5 6 (by decide) (by decide), rfl⟩

/-- C17. For every `int` array whose prefix `a[0..n)` is already non-decreasing,
`insertion_sort(a, n)` performs zero element shifts: in every outer iteration
`1 ≤ i ≤ n-1` the test of the inner `while` fails on entry (`a[i-1] ≤ pivot`, the loop
returns the array and `j = i - 1` untouched), the only write `a[j+1] = pivot` stores
`a[i]` into `a[i]`, and the pass hands the same array to the next iteration; the sort
returns the input array. -/
theorem insertion_sort_sorted_no_shift (a : List Int) (n : Int) (fuel : Nat) (h0 : 0 ≤ n)
    (hn : n ≤ a.length) (hs : (a.take n.toNat).Pairwise (fun x y => x ≤ y))
    (hf : 2 * n.toNat + 1 ≤ fuel) :
    insertion_sort fuel a n = some a ∧
    ∀ i : Int, 1 ≤ i → i ≤ n - 1 →
      ∃ x pivot, rd a (i - 1) = some x ∧ rd a i = some pivot ∧ x ≤ pivot ∧
        (∀ f : Nat, insertion_while (f + 1) a (i - 1) pivot = some (a, i - 1)) ∧
        wr a (i - 1 + 1) pivot = some a ∧
        ∀ f : Nat, insertion_for (f + 2) a i n = insertion_for (f + 1) a (i + 1) n := by
  refine ⟨insertion_sort_fixed a n fuel h0 hn hf hs, ?_⟩
  intro i hi hin
  obtain ⟨x, hx⟩ := rd_isSome (a := a) (i := i - 1) (by omega) (by omega)
  obtain ⟨pivot, hp⟩ := rd_isSome (a := a) (i := i) (by omega) (by omega)
  have hle : x ≤ pivot := by
    have hsl : KeySorted (slice a 0 (n - 1)) := by rw [slice_zero]; exact hs
    have h1 : (slice a 0 (n - 1))[(i - 1).toNat]? = some x := by
      rw [slice_getElem?_eq_rd a (le_refl _) _ (by omega)]
      have : (0 : Int) + ((i - 1).toNat : Int) = i - 1 := by omega
      rw [this]; exact hx
    have h2 : (slice a 0 (n - 1))[i.toNat]? = some pivot := by
      rw [slice_getElem?_eq_rd a (le_refl _) _ (by omega)]
      have : (0 : Int) + (i.toNat : Int) = i := by omega
      rw [this]; exact hp
    obtain ⟨b1, e1⟩ := List.getElem?_eq_some_iff.1 h1
    obtain ⟨b2, e2⟩ := List.getElem?_eq_some_iff.1 h2
    have := (List.pairwise_iff_getElem.1 hsl) (i - 1).toNat i.toNat b1 b2 (by omega)
    rw [e1, e2] at this
    exact this
  have e : i - 1 + 1 = i := by omega
  refine ⟨x, pivot, hx, hp, hle, fun f => ?_, by rw [e]; exact wr_same hp, fun f => ?_⟩
  · exact (insertion_for_step_sorted a i n f x pivot hi hin hx hp hle).1
  · exact (insertion_for_step_sorted a i n f x pivot hi hin hx hp hle).2

theorem insertion_sort_sorted_no_shift_witness :
    insertion_sort 11 ([1, 2, 3, 4, 5] : List Int) 5 = some [1, 2, 3, 4, 5] ∧
    ∃ x pivot, rd ([1, 2, 3, 4, 5] : List Int) (3 - 1) = some x ∧
      rd ([1, 2, 3, 4, 5] : List Int) 3 = some pivot ∧ x ≤ pivot ∧
      (∀ f : Nat, insertion_while (f + 1) ([1, 2, 3, 4, 5] : List Int) (3 - 1) pivot
        = some ([1, 2, 3, 4, 5], 3 - 1)) ∧
      wr ([1, 2, 3, 4, 5] : List Int) (3 - 1 + 1) pivot = some [1, 2, 3, 4, 5] ∧
      ∀ f : Nat, insertion_for (f + 2) ([1, 2, 3, 4, 5] : List Int) 3 5
        = insertion_for (f + 1) ([1, 2, 3, 4, 5] : List Int) (3 + 1) 5 :=
  have h := insertion_sort_sorted_no_shift [1, 2, 3, 4, 5] 5 11 (by decide) (by decide)
    (by decide) (by decide)
  ⟨h.1, h.2 3 (by decide) (by decide)⟩

/-- C18, the code at the failing input. With `p = 2^30` and `r = 2^30 + 1` (in-bounds
indices of an array of `2^30 + 2` elements) the 32-bit sum `p + r` wraps and the
midpoint computed by `merge_sort` is `-1073741823`, not `floor((p + r) / 2) = 2^30`; it
is below `p`, and no run of `merge_sort(a, p, r)` returns, on any array.  The midpoint is
the mathematical one, with `p ≤ q < r`, whenever `p + r ≤ INT_MAX`. -/
theorem midpoint_overflow :
    midpoint 1073741824 1073741825 = -1073741823 ∧
    ((1073741824 : Int) + 1073741825) / 2 = 1073741824 ∧
    ¬ ((1073741824 : Int) ≤ midpoint 1073741824 1073741825) ∧
    (∀ (fuel : Nat) (a : List Int), merge_sort fuel a 1073741824 1073741825 = none) ∧
    (∀ p r : Int, 0 ≤ p → p < r → p + r ≤ INT_MAX →
      midpoint p r = (p + r) / 2 ∧ p ≤ midpoint p r ∧ midpoint p r < r) :=
  ⟨by decide, by decide, by decide, fun fuel a => merge_sort_overflow fuel a,
    fun _ _ hp hpr hsum => midpoint_in_range hp hpr hsum⟩

/-- C19. For every `int` array `a` and in-bounds indices `l < r`, `partition(a, l, r)`
terminates; the index `j` it returns satisfies `l ≤ j < r` and it leaves `a[l..r]` a
permutation of its original contents (and the array length unchanged). Hence the two
recursive calls of `quick_sort`, on `[l, j]` and `[j+1, r]`, are on non-empty ranges
strictly shorter than `[l, r]`, and `quick_sort(a, l, r)` terminates. -/
theorem partition_shrinks (a : List Int) (l r : Int) (hl : 0 ≤ l) (hlr : l < r)
    (hr : r < a.length) :
    (∀ fuel, (r - l).toNat + 3 ≤ fuel → ∃ out j, partition fuel a l r = some (out, j)) ∧
    (∀ (fuel : Nat) (out : List Int) (j : Int), partition fuel a l r = some (out, j) →
      l ≤ j ∧ j < r ∧ (slice out l r).Perm (slice a l r) ∧ out.length = a.length ∧
      j - l + 1 < r - l + 1 ∧ r - (j + 1) + 1 < r - l + 1 ∧
      0 < j - l + 1 ∧ 0 < r - (j + 1) + 1) ∧
    (∀ fuel, (r - l).toNat + 4 ≤ fuel → ∃ res, quick_sort fuel a l r = some res) := by
  refine ⟨?_, ?_, ?_⟩
  · intro fuel hf
    obtain ⟨v, out, j, -, hrun, -⟩ := partition_spec a l r fuel hl hlr hr hf
    exact ⟨out, j, hrun⟩
  · intro fuel out j hrun
    obtain ⟨v1, out1, j1, -, hrun1, hperm, hframe, hj1, hj2, -, -⟩ :=
      partition_spec a l r (max fuel ((r - l).toNat + 3)) hl hlr hr (le_max_right _ _)
    have e := (partition_mono a l r fuel _ _ hrun (le_max_left _ _)).symm.trans hrun1
    cases e
    exact ⟨hj1, hj2, slice_perm_of_frame hl (by omega) hperm hframe, hperm.length_eq,
      by omega, by omega, by omega, by omega⟩
  · intro fuel hf
    obtain ⟨out, hrun, -⟩ := quick_sort_pointwise fuel a l r hf (fun _ => ⟨hl, hr⟩)
    exact ⟨out, hrun⟩

theorem partition_shrinks_witness :
    (∃ out j, partition 9 ([3, 1, 2, 5, 4, 3, 0] : List Int) 0 6 = some (out, j)) ∧
    ((0 : Int) ≤ 3 ∧ (3 : Int) < 6 ∧
      (slice ([0, 1, 2, 3, 4, 5, 3] : List Int) 0 6).Perm
        (slice ([3, 1, 2, 5, 4, 3, 0] : List Int) 0 6) ∧
      ([0, 1, 2, 3, 4, 5, 3] : List Int).length = ([3, 1, 2, 5, 4, 3, 0] : List Int).length ∧
      (3 : Int) - 0 + 1 < 6 - 0 + 1 ∧ (6 : Int) - (3 + 1) + 1 < 6 - 0 + 1 ∧
      (0 : Int) < 3 - 0 + 1 ∧ (0 : Int) < 6 - (3 + 1) + 1) ∧
    ∃ res, quick_sort 10 ([3, 1, 2, 5, 4, 3, 0] : List Int) 0 6 = some res :=
  have h := partition_shrinks [3, 1, 2, 5, 4, 3, 0] 0 6 (by decide) (by decide) (by decide)
  ⟨h.1 9 (by decide), h.2.1 9 [0, 1, 2, 3, 4, 5, 3] 3 (by decide), h.2.2 10 (by decide)⟩

end Claims

end Sort1
